import Mathlib

/-!
Verification development for the CommonMark block parser
(CommonMark/blocks.py).  The Python source is shallowly embedded:
lines are lists of characters, the document tree is an arena of
nodes addressed by index, and every loop of the source is either a
structural recursion or a fuel recursion (fuel exhaustion sets a
flag that the source cannot set, since the source's loops are
bounded by the same quantities).  Python exceptions are modelled by
sticky error flags on the parser state.
-/

namespace CM

/-- The nine block kinds of blocks.py (Document, BlockQuote, List, Item,
Heading, ThematicBreak, CodeBlock, HtmlBlock, Paragraph). -/
inductive Kind where
  | document
  | blockQuote
  | list
  | item
  | heading
  | thematicBreak
  | codeBlock
  | htmlBlock
  | paragraph
deriving DecidableEq, Repr, Inhabited

/-- List type tag of parse_list_marker: 'Bullet' or 'Ordered'. -/
inductive LType where
  | bullet
  | ordered
deriving DecidableEq, Repr, Inhabited

/-- list_data dictionary built by parse_list_marker.  `padding` and
`markerOffset` are present on every real list/item node, so they are
plain naturals (defaulting to 0). -/
structure ListData where
  ltype : Option LType := none
  tight : Bool := true
  bulletChar : Option Char := none
  start : Option Nat := none
  delimiter : Option Char := none
  padding : Nat := 0
  markerOffset : Nat := 0
deriving DecidableEq, Repr, Inhabited

/-- Source position range [[startLine, startCol], [endLine, endCol]],
1-based, as carried by every node. -/
structure SourcePos where
  startLine : Nat := 0
  startCol : Nat := 0
  endLine : Nat := 0
  endCol : Nat := 0
deriving DecidableEq, Repr, Inhabited

/-- Modelled from the spec: the AST node module (CommonMark/node.py) is not
part of the given source.  Per spec section 3 a node has a kind tag, parent,
children (first_child, last_child, prev, next are derived from the child
list), an is_open flag, last_line_blank, a source position range,
string_content (None after certain finalizers), a literal payload and
kind-specific extension fields.  The arena index of the parent is stored;
children are stored in order, so last_child is the last list entry.
`inlinesDone` marks that the (out-of-scope) inline pass visited the node. -/
structure Node where
  t : Kind := .document
  parent : Option Nat := none
  children : List Nat := []
  isOpen : Bool := true
  lastLineBlank : Bool := false
  sourcepos : SourcePos := {}
  stringContent : Option (List Char) := none
  literal : Option (List Char) := none
  level : Nat := 0
  listData : ListData := {}
  isFenced : Bool := false
  fenceChar : Option Char := none
  fenceLength : Nat := 0
  fenceOffset : Nat := 0
  info : Option (List Char) := none
  htmlBlockType : Nat := 0
  inlinesDone : Bool := false
deriving DecidableEq, Repr, Inhabited

/-- A link reference map entry: normalized label mapped to destination and
title (spec section 3); first definition wins. -/
abbrev RefMap := List (List Char × (List Char × List Char))

/-- Parser state: the fields of Parser.__init__ in blocks.py, plus the node
arena (the document is arena index 0) and sticky error flags modelling the
exceptions the Python code can raise.  `errIllegal` models the ValueError
raised by incorporate_line for a continue_ return value outside 0,1,2;
`errNewline` models the ValueError raised by str.index in
CodeBlock.finalize when a fenced block's content has no newline;
`errState` models any other crash on a None dereference; `errFuel` is set
only when a fuel recursion runs out (which the bounded loops of the source
cannot do). -/
structure PState where
  arena : Array Node := #[]
  tip : Option Nat := none
  oldtip : Option Nat := none
  currentLine : List Char := []
  lineNumber : Nat := 0
  offset : Nat := 0
  column : Nat := 0
  nextNonspace : Nat := 0
  nextNonspaceCol : Nat := 0
  indent : Nat := 0
  indented : Bool := false
  blank : Bool := false
  allClosed : Bool := true
  lastMatchedContainer : Nat := 0
  refmap : RefMap := []
  lastLineLength : Nat := 0
  errIllegal : Bool := false
  errNewline : Bool := false
  errState : Bool := false
  errFuel : Bool := false
deriving DecidableEq, Repr, Inhabited

/-- CODE_INDENT = 4. -/
def CODE_INDENT : Nat := 4

/-- The backtick character (code 96). -/
def btick : Char := Char.ofNat 96

/-- Read a node from the arena (indices produced by the parser are always
in range; out of range yields the default node). -/
def getN (st : PState) (i : Nat) : Node := st.arena.getD i default

/-- Replace a node in the arena. -/
def setN (st : PState) (i : Nat) (n : Node) : PState :=
  { st with arena := st.arena.set! i n }

/-- Update a node in the arena. -/
def modN (st : PState) (i : Nat) (f : Node → Node) : PState :=
  setN st i (f (getN st i))

/-- peek(ln, pos): the character at pos, or None past the end. -/
def peek (ln : List Char) (pos : Nat) : Option Char := ln.get? pos

/-- Characters of the class [ \t\f\v\r\n] (Python regex \s for ASCII and
the complement class of reNonSpace). -/
def isWS (c : Char) : Bool :=
  c = ' ' ∨ c = '\t' ∨ c = '\x0c' ∨ c = '\x0b' ∨ c = '\r' ∨ c = '\n'

/-- is_blank(s): True when the string has no character outside
[ \t\f\v\r\n] (re.search(reNonSpace, s) is None). -/
def is_blank (s : List Char) : Bool := s.all isWS

/-- Decimal digit test for the marker regexes. -/
def isDigitCh (c : Char) : Bool := '0' ≤ c ∧ c ≤ '9'

/-- Length of the leading run of character c. -/
def runLen (c : Char) : List Char → Nat
  | [] => 0
  | d :: rest => if d = c then runLen c rest + 1 else 0

/-- Leading run of decimal digits. -/
def digitRun : List Char → List Char
  | [] => []
  | d :: rest => if isDigitCh d then d :: digitRun rest else []

/-- Numeric value of a digit string. -/
def digitsVal (s : List Char) : Nat :=
  s.foldl (fun a c => a * 10 + (c.toNat - '0'.toNat)) 0

/-- ASCII case folding for the case-insensitive HTML regexes. -/
def lowerCh (c : Char) : Char :=
  if 'A' ≤ c ∧ c ≤ 'Z' then Char.ofNat (c.toNat + 32) else c

/-- Case-insensitive prefix test against a lowercase pattern. -/
def ciStartsWith (s : List Char) (pat : List Char) : Bool :=
  (s.take pat.length).map lowerCh = pat

/-- Substring test: does pat occur (contiguously) anywhere in s? -/
def containsSeq (pat : List Char) : List Char → Bool
  | [] => pat.isEmpty
  | c :: rest => (c :: rest).take pat.length = pat ∨ containsSeq pat rest

/-- Case-insensitive containment test (re.search of a literal). -/
def ciContains (s : List Char) (pat : List Char) : Bool :=
  containsSeq pat (s.map lowerCh)

end CM

namespace CM

/-- reThematicBreak: a run mixture of one of * _ - and spaces, beginning
with the marker character and containing at least three of it
(the pattern (?:(?:X *)\x7b3,\x7d) *$ for X in * _ -). -/
def thematicMatch (s : List Char) : Bool :=
  match s with
  | [] => false
  | c :: _ =>
    (c = '*' ∨ c = '_' ∨ c = '-') ∧ s.all (fun d => d = c ∨ d = ' ') ∧ 3 ≤ s.count c

/-- reATXHeadingMarker = one to six hashes followed by a space run or end
of line; returns (length of whole match incl. trailing spaces, number of
hashes). -/
def atxMatch (s : List Char) : Option (Nat × Nat) :=
  let h := runLen '#' s
  if 1 ≤ h ∧ h ≤ 6 then
    match peek s h with
    | none => some (h, h)
    | some c => if c = ' ' then some (h + runLen ' ' (s.drop h), h) else none
  else none

/-- reCodeFence: a maximal run of three or more backticks with no further
backtick on the line, or the same with tildes; returns (run length,
fence character).  The negative lookahead makes any shorter match
impossible, so the group is the maximal run. -/
def codeFenceMatch (s : List Char) : Option (Nat × Char) :=
  match s with
  | [] => none
  | c :: _ =>
    if c = btick ∨ c = '~' then
      let r := runLen c s
      if 3 ≤ r ∧ ¬ (s.drop r).contains c then some (r, c) else none
    else none

/-- reClosingCodeFence: a maximal run of three or more backticks or tildes
followed by spaces only (lookahead (?= *$)); returns the run length.
Backtracking to a shorter run always fails because the next character is
the fence character itself, so the group is the maximal run. -/
def closingFenceMatch (s : List Char) : Option Nat :=
  match s with
  | [] => none
  | c :: _ =>
    if c = btick ∨ c = '~' then
      let r := runLen c s
      if 3 ≤ r ∧ (s.drop r).all (fun d => d = ' ') then some r else none
    else none

/-- reSetextHeadingLine: a run of = or of -, then spaces to end of line;
returns the marker character. -/
def setextMatch (s : List Char) : Option Char :=
  match s with
  | [] => none
  | c :: _ =>
    if c = '=' ∨ c = '-' then
      let r := runLen c s
      if (s.drop r).all (fun d => d = ' ') then some c else none
    else none

/-- reBulletListMarker: first character is one of * + -. -/
def bulletMatch (s : List Char) : Option Char :=
  match s with
  | [] => none
  | c :: _ => if c = '*' ∨ c = '+' ∨ c = '-' then some c else none

/-- reOrderedListMarker: one to nine digits then . or ); returns
(length of whole match, numeric value, delimiter). -/
def orderedMatch (s : List Char) : Option (Nat × Nat × Char) :=
  let ds := digitRun s
  if 1 ≤ ds.length ∧ ds.length ≤ 9 then
    match peek s ds.length with
    | some c =>
      if c = '.' ∨ c = ')' then some (ds.length + 1, digitsVal ds, c) else none
    | none => none
  else none

/-- Whole-string test for the pattern of spaces, one or more hashes,
spaces (the inner ATX heading sub). -/
def atxFullHash (s : List Char) : Bool :=
  let a := s.drop (runLen ' ' s)
  let h := runLen '#' a
  1 ≤ h ∧ (a.drop h).all (fun d => d = ' ')

/-- The outer ATX heading sub: remove a trailing run of at least one
space, at least one hash, then spaces, anchored at end of line.  The
leftmost such match starts at the maximal space run before the maximal
trailing hash run. -/
def stripATXEnd (s : List Char) : List Char :=
  let r := s.reverse
  let r1 := r.drop (runLen ' ' r)
  let h := runLen '#' r1
  let r2 := r1.drop h
  let sp := runLen ' ' r2
  if 1 ≤ h ∧ 1 ≤ sp then (r2.drop sp).reverse else s

/-- The composition of the two subs applied to an ATX heading's text. -/
def atxStrip (s : List Char) : List Char :=
  stripATXEnd (if atxFullHash s then [] else s)

/-- The sub of a trailing run matching one or more groups of a newline and
spaces, replaced by repl.  The leftmost match begins at the first newline
of the maximal trailing run of spaces and newlines. -/
def subTrailing (repl : List Char) (s : List Char) : List Char :=
  let w := (s.reverse.takeWhile (fun c => c = ' ' ∨ c = '\n')).reverse
  let m := (w.dropWhile (fun c => ¬ c = '\n')).length
  if m = 0 then s else s.take (s.length - m) ++ repl

/-- reHtmlBlockOpen index 1: an opening script, pre or style tag
followed by whitespace, a closing angle or end of line
(case-insensitive). -/
def htmlOpen1 (s : List Char) : Bool :=
  match s with
  | '<' :: rest =>
    ["script", "pre", "style"].any fun tag =>
      ciStartsWith rest tag.data &&
      (match peek rest tag.data.length with
       | none => true
       | some c => isWS c || c = '>')
  | _ => false

/-- The block-level tag names of reHtmlBlockOpen index 6 (title is listed
twice in the source). -/
def blockTags : List String :=
  ["address", "article", "aside", "base", "basefont", "blockquote", "body",
   "caption", "center", "col", "colgroup", "dd", "details", "dialog", "dir",
   "div", "dl", "dt", "fieldset", "figcaption", "figure", "footer", "form",
   "frame", "frameset", "h1", "head", "header", "hr", "html", "iframe",
   "legend", "li", "link", "main", "menu", "menuitem", "meta", "nav",
   "noframes", "ol", "optgroup", "option", "p", "param", "section",
   "source", "title", "summary", "table", "tbody", "td", "tfoot", "th",
   "thead", "title", "tr", "track", "ul"]

/-- reHtmlBlockOpen index 6: an optional slash, a block-level tag name,
then whitespace, an optionally self-closing angle, or end of line
(case-insensitive). -/
def htmlOpen6 (s : List Char) : Bool :=
  match s with
  | '<' :: rest0 =>
    let rest := if rest0.head? = some '/' then rest0.drop 1 else rest0
    blockTags.any fun tag =>
      ciStartsWith rest tag.data &&
      (match peek rest tag.data.length with
       | none => true
       | some c =>
         isWS c || c = '>' || (c = '/' && peek rest (tag.data.length + 1) = some '>'))
  | _ => false

/-- Tag name: a letter then letters, digits or hyphens (modelled from the
spec for the missing common.py tag grammar). -/
def isAlphaCh (c : Char) : Bool :=
  ('a' ≤ c ∧ c ≤ 'z') ∨ ('A' ≤ c ∧ c ≤ 'Z')

/-- One attribute value character for an unquoted value. -/
def isUnquotedCh (c : Char) : Bool :=
  ¬ (c = '"' ∨ c = '\'' ∨ c = '=' ∨ c = '<' ∨ c = '>' ∨ c = btick ∨ c.toNat ≤ 32)

/-- Modelled from the spec: common.py (with the OPENTAG and CLOSETAG
regexes) is not part of the given source.  Per the CommonMark HTML-tag
grammar referenced by spec section 6, an open tag is an angle bracket, a
tag name, any number of attributes (whitespace, attribute name, optional
value specification with unquoted, single- or double-quoted value),
optional whitespace, an optional slash and a closing angle.  Consumes and
returns the length, or none. -/
def scanAttrs (s : List Char) (i : Nat) : Nat → Option Nat
  | 0 => none
  | fuel + 1 =>
    let ws := runLen ' ' (s.drop i)
    match peek s (i + ws) with
    | some '/' => if peek s (i + ws + 1) = some '>' then some (i + ws + 2) else none
    | some '>' => some (i + ws + 1)
    | some c =>
      if 0 < ws ∧ (isAlphaCh c ∨ c = '_' ∨ c = ':') then
        let rest := s.drop (i + ws)
        let nm := (rest.takeWhile (fun d =>
          isAlphaCh d ∨ isDigitCh d ∨ d = ':' ∨ d = '.' ∨ d = '_' ∨ d = '-')).length
        let j := i + ws + nm
        let ws2 := runLen ' ' (s.drop j)
        if peek s (j + ws2) = some '=' then
          let k := j + ws2 + 1
          let ws3 := runLen ' ' (s.drop k)
          match peek s (k + ws3) with
          | some '"' =>
            let v := ((s.drop (k + ws3 + 1)).takeWhile (fun d => ¬ d = '"')).length
            if peek s (k + ws3 + 1 + v) = some '"' then
              scanAttrs s (k + ws3 + v + 2) fuel
            else none
          | some '\'' =>
            let v := ((s.drop (k + ws3 + 1)).takeWhile (fun d => ¬ d = '\'')).length
            if peek s (k + ws3 + 1 + v) = some '\'' then
              scanAttrs s (k + ws3 + v + 2) fuel
            else none
          | some _ =>
            let v := ((s.drop (k + ws3)).takeWhile isUnquotedCh).length
            if 0 < v then scanAttrs s (k + ws3 + v) fuel else none
          | none => none
        else scanAttrs s j fuel
      else none
    | none => none

/-- Modelled from the spec: whole-tag scan for reHtmlBlockOpen index 7,
an open tag or a closing tag followed by whitespace to end of line. -/
def htmlOpen7 (s : List Char) : Bool :=
  match s with
  | '<' :: rest0 =>
    let closing := rest0.head? = some '/'
    let rest := if closing then rest0.drop 1 else rest0
    match rest with
    | c :: _ =>
      if isAlphaCh c then
        let nm := (rest.takeWhile (fun d => isAlphaCh d ∨ isDigitCh d ∨ d = '-')).length
        let base := (if closing then 2 else 1) + nm
        let consumed : Option Nat :=
          if closing then
            let ws := runLen ' ' (s.drop base)
            if peek s (base + ws) = some '>' then some (base + ws + 1) else none
          else scanAttrs s base (s.length + 1)
        match consumed with
        | some n => (s.drop n).all isWS
        | none => false
      else false
    | [] => false
  | _ => false

/-- Dispatch over reHtmlBlockOpen indices 1 to 7 (index 2: a comment
opener; 3: a processing instruction; 4: a declaration; 5: CDATA). -/
def htmlOpenMatch (blockType : Nat) (s : List Char) : Bool :=
  match blockType with
  | 1 => htmlOpen1 s
  | 2 => s.take 4 = ['<', '!', '-', '-']
  | 3 => s.take 2 = ['<', '?']
  | 4 =>
    s.take 2 = ['<', '!'] &&
    (match peek s 2 with
     | some c => decide ('A' ≤ c) && decide (c ≤ 'Z')
     | none => false)
  | 5 => s.take 9 = "<![CDATA[".data
  | 6 => htmlOpen6 s
  | 7 => htmlOpen7 s
  | _ => false

/-- reHtmlBlockClose indices 1 to 5 searched anywhere in the rest of the
line. -/
def htmlCloseMatch (blockType : Nat) (s : List Char) : Bool :=
  match blockType with
  | 1 =>
    ciContains s "</script>".data ∨ ciContains s "</pre>".data ∨
    ciContains s "</style>".data
  | 2 => containsSeq ['-', '-', '>'] s
  | 3 => containsSeq ['?', '>'] s
  | 4 => containsSeq ['>'] s
  | 5 => containsSeq [']', ']', '>'] s
  | _ => false

/-- find_next_nonspace scan: from byte index i at expanded column cols,
skip spaces (one column) and tabs (to the next multiple of four),
returning the index, column and first character found. -/
def findAux : List Char → Nat → Nat → Nat × Nat × Option Char
  | [], i, cols => (i, cols, none)
  | c :: rest, i, cols =>
    if c = ' ' then findAux rest (i + 1) (cols + 1)
    else if c = '\t' then findAux rest (i + 1) (cols + (4 - cols % 4))
    else (i, cols, some c)

/-- Parser.find_next_nonspace. -/
def findNextNonspace (st : PState) : PState :=
  let r := findAux (st.currentLine.drop st.offset) st.offset st.column
  { st with
    blank := r.2.2 = some '\n' ∨ r.2.2 = some '\r' ∨ r.2.2 = none,
    nextNonspace := r.1,
    nextNonspaceCol := r.2.1,
    indent := r.2.1 - st.column,
    indented := CODE_INDENT ≤ r.2.1 - st.column }

/-- Parser.advance_next_nonspace. -/
def advanceNextNonspace (st : PState) : PState :=
  { st with offset := st.nextNonspace, column := st.nextNonspaceCol }

/-- Parser.advance_offset loop: count is consumed one position (or, in
column mode, one tab width) at a time; a tab advances the column to the
next multiple of four.  The loop consumes at least one unit of count per
iteration, so the structural fuel (initially equal to count) can never
run out before count does. -/
def advOffAux (ln : List Char) (columns : Bool) :
    Nat → Nat → Nat → Nat → Nat × Nat
  | offset, col, _count, 0 => (offset, col)
  | offset, col, count, fuel + 1 =>
    if count = 0 then (offset, col)
    else
      match peek ln offset with
      | none => (offset, col)
      | some c =>
        if c = '\t' then
          let ctt := 4 - col % 4
          advOffAux ln columns (offset + 1) (col + ctt)
            (count - (if columns then ctt else 1)) fuel
        else
          advOffAux ln columns (offset + 1) (col + 1) (count - 1) fuel

/-- Parser.advance_offset. -/
def advanceOffset (st : PState) (count : Nat) (columns : Bool) : PState :=
  let r := advOffAux st.currentLine columns st.offset st.column count count
  { st with offset := r.1, column := r.2 }

/-- accepts_lines per block kind. -/
def acceptsLines : Kind → Bool
  | .codeBlock => true
  | .htmlBlock => true
  | .paragraph => true
  | _ => false

/-- can_contain per block kind: Document, BlockQuote and Item contain
anything but Item; List contains only Item; leaves contain nothing. -/
def canContain : Kind → Kind → Bool
  | .document, .item => false
  | .document, _ => true
  | .blockQuote, .item => false
  | .blockQuote, _ => true
  | .list, .item => true
  | .list, _ => false
  | .item, .item => false
  | .item, _ => true
  | _, _ => false

/-- ends_with_blank_line: checks last_line_blank, descending through the
last children of lists and items (fuel bounds the descent, which in any
acyclic tree is at most the arena size). -/
def endsWithBlankLine (st : PState) : Nat → Option Nat → Bool
  | 0, _ => false
  | _, none => false
  | fuel + 1, some b =>
    let n := getN st b
    if n.lastLineBlank then true
    else if n.t = .list ∨ n.t = .item then
      endsWithBlankLine st fuel n.children.getLast?
    else false

end CM

namespace CM

/-- Node.unlink: remove the node from its parent's child list and clear
its parent link (modelled from the spec's node module description). -/
def unlink (st : PState) (b : Nat) : PState :=
  match (getN st b).parent with
  | none => modN st b (fun n => { n with parent := none })
  | some p =>
    let st := modN st p (fun n => { n with children := n.children.erase b })
    modN st b (fun n => { n with parent := none })

/-- Insert nw directly after a in a list of child indices. -/
def insertAfterList : List Nat → Nat → Nat → List Nat
  | [], _, _ => []
  | c :: rest, a, nw =>
    if c = a then c :: nw :: rest else c :: insertAfterList rest a nw

/-- Node.insert_after: link nw as the sibling following a (modelled from
the spec's node module description).  A missing parent would crash the
source, so it sets the state-error flag. -/
def insertAfter (st : PState) (a nw : Nat) : PState :=
  match (getN st a).parent with
  | none => { st with errState := true }
  | some p =>
    let st := modN st p
      (fun n => { n with children := insertAfterList n.children a nw })
    modN st nw (fun n => { n with parent := some p })

/-- Python str.strip: drop whitespace from both ends. -/
def stripStr (s : List Char) : List Char :=
  ((s.dropWhile isWS).reverse.dropWhile isWS).reverse

/-- ASCII punctuation (the escapable class of the CommonMark spec). -/
def escapableCh (c : Char) : Bool :=
  (33 ≤ c.toNat ∧ c.toNat ≤ 47) ∨ (58 ≤ c.toNat ∧ c.toNat ≤ 64) ∨
  (91 ≤ c.toNat ∧ c.toNat ≤ 96) ∨ (123 ≤ c.toNat ∧ c.toNat ≤ 126)

/-- Modelled from the spec: common.py's unescape_string is not part of the
given source.  Per spec section 4.B the info string is backslash-unescaped
(entity decoding is outside the scope of the claims and is omitted). -/
def unescapeString : List Char → List Char
  | [] => []
  | '\\' :: c :: rest =>
    if escapableCh c then c :: unescapeString rest
    else '\\' :: unescapeString (c :: rest)
  | c :: rest => c :: unescapeString rest

/-- Whitespace collapsing for link label normalization. -/
def collapseAux : List Char → Bool → List Char
  | [], _ => []
  | c :: rest, prev =>
    if isWS c then
      if prev then collapseAux rest true else ' ' :: collapseAux rest true
    else c :: collapseAux rest false

/-- Modelled from the spec: a normalized link label is case-folded and
whitespace-collapsed (spec section 3). -/
def normalizeLabel (s : List Char) : List Char :=
  stripStr (collapseAux (s.map lowerCh) false)

/-- Modelled from the spec: inlines.py's parseReference is not part of the
given source.  Per spec sections 3 and 4.B it recognizes a link reference
definition at the front of a paragraph buffer - a bracketed label, a
colon, a destination and an optional quoted title on one line - returns
the number of characters consumed and records the definition in the
reference map, first definition winning.  On success at least one
character is consumed. -/
def parseReference (s : List Char) (rm : RefMap) : Option (Nat × RefMap) :=
  match s with
  | '[' :: rest =>
    let lbl := rest.takeWhile (fun c => ¬ (c = ']' ∨ c = '[' ∨ c = '\n'))
    if peek rest lbl.length = some ']' ∧ 0 < lbl.length then
      let i := lbl.length + 2
      if peek s i = some ':' then
        let j := i + 1
        let ws := ((s.drop j).takeWhile isWS).length
        let dst := (s.drop (j + ws)).takeWhile (fun c => ¬ isWS c)
        if 0 < dst.length then
          let k := j + ws + dst.length
          let ws2 := ((s.drop k).takeWhile (fun c => c = ' ' ∨ c = '\t')).length
          let tk : List Char × Nat :=
            match peek s (k + ws2) with
            | some '"' =>
              let t := (s.drop (k + ws2 + 1)).takeWhile (fun c => ¬ c = '"')
              if peek s (k + ws2 + 1 + t.length) = some '"' then
                (t, k + ws2 + t.length + 2)
              else ([], k)
            | _ => ([], k)
          let ws3 := ((s.drop tk.2).takeWhile (fun c => c = ' ' ∨ c = '\t')).length
          let stop := tk.2 + ws3
          let consumed : Option Nat :=
            match peek s stop with
            | none => some stop
            | some c => if c = '\n' then some (stop + 1) else none
          match consumed with
          | none => none
          | some cn =>
            let key := normalizeLabel lbl
            let rm' := if rm.any (fun e => e.1 = key) then rm
                       else rm ++ [(key, (dst, tk.1))]
            some (cn, rm')
        else none
      else none
    else none
  | _ => none

/-- Inner subitem walk of List.finalize: a subitem that ends with a blank
line and is non-terminal (the item or the subitem has a next sibling)
clears tightness. -/
def listInnerLoop (st : PState) (fuel : Nat) (itemHasNext : Bool) :
    List Nat → Bool
  | [] => false
  | sub :: rest =>
    if endsWithBlankLine st fuel (some sub) ∧ (itemHasNext ∨ ¬ rest.isEmpty) then
      true
    else listInnerLoop st fuel itemHasNext rest

/-- Outer item walk of List.finalize.  In the source an inner hit keeps
scanning after clearing the flag; since the flag can only be cleared, the
net effect equals stopping at the first hit. -/
def listOuterLoop (st : PState) (fuel : Nat) : List Nat → Bool
  | [] => false
  | it :: rest =>
    if endsWithBlankLine st fuel (some it) ∧ ¬ rest.isEmpty then true
    else if listInnerLoop st fuel (¬ rest.isEmpty) (getN st it).children then true
    else listOuterLoop st fuel rest

/-- List.finalize: compute list tightness. -/
def listFinalize (st : PState) (b : Nat) : PState :=
  if listOuterLoop st st.arena.size (getN st b).children then
    modN st b (fun n => { n with listData := { n.listData with tight := false } })
  else st

/-- CodeBlock.finalize: for a fenced block the first line of the content
becomes the info string (stripped and unescaped) and the rest the
literal; content without a newline would raise ValueError in str.index
(errNewline).  For an indented block trailing blank lines collapse to a
single newline.  Either way string_content is cleared. -/
def codeBlockFinalize (st : PState) (b : Nat) : PState :=
  let n := getN st b
  if n.isFenced then
    match n.stringContent with
    | none => { st with errState := true }
    | some content =>
      match content.findIdx? (fun c => c = '\n') with
      | none => { st with errNewline := true }
      | some p =>
        setN st b
          { n with info := some (unescapeString (stripStr (content.take p))),
                   literal := some (content.drop (p + 1)),
                   stringContent := none }
  else
    match n.stringContent with
    | none => { st with errState := true }
    | some content =>
      setN st b
        { n with literal := some (subTrailing ['\n'] content),
                 stringContent := none }

/-- HtmlBlock.finalize: the conditional FIXME special case for content
"<div>\n" at source position [[1,3],[1,7]], then trailing blank lines are
stripped into literal and string_content is cleared. -/
def htmlBlockFinalize (st : PState) (b : Nat) : PState :=
  let n0 := getN st b
  let n := if n0.stringContent = some "<div>\n".data ∧
              n0.sourcepos = { startLine := 1, startCol := 3,
                               endLine := 1, endCol := 7 } then
    { n0 with stringContent := some "\n<div>".data }
  else n0
  match n.stringContent with
  | none => { st with errState := true }
  | some content =>
    setN st b
      { n with literal := some (subTrailing [] content), stringContent := none }

/-- The reference-peeling loop of Paragraph.finalize.  Returns the
remaining content, the reference map, whether any definition was taken
and whether the fuel ran out (impossible: each success consumes at least
one character). -/
def paraRefAux (rm : RefMap) (content : List Char) (has : Bool) :
    Nat → List Char × RefMap × Bool × Bool
  | 0 => (content, rm, has, true)
  | fuel + 1 =>
    if peek content 0 = some '[' then
      match parseReference content rm with
      | none => (content, rm, has, false)
      | some r => paraRefAux r.2 (content.drop r.1) true fuel
    else (content, rm, has, false)

/-- Paragraph.finalize: peel link reference definitions from the front of
the content; a paragraph reduced to blank by reference definitions is
unlinked.  string_content stays a string. -/
def paragraphFinalize (st : PState) (b : Nat) : PState :=
  match (getN st b).stringContent with
  | none => { st with errState := true }
  | some content =>
    let r := paraRefAux st.refmap content false (content.length + 1)
    let st := { st with refmap := r.2.1, errFuel := st.errFuel ∨ r.2.2.2 }
    let st := modN st b (fun n => { n with stringContent := some r.1 })
    if r.2.2.1 ∧ is_blank r.1 then unlink st b else st

/-- finalize dispatch on the block kind. -/
def blockFinalize : Kind → PState → Nat → PState
  | .list, st, b => listFinalize st b
  | .codeBlock, st, b => codeBlockFinalize st b
  | .htmlBlock, st, b => htmlBlockFinalize st b
  | .paragraph, st, b => paragraphFinalize st b
  | _, st, _ => st

/-- Parser.finalize: close the block, record its end position from the
given line number and last_line_length, run the kind's finalize and move
the tip to the parent. -/
def parserFinalize (st : PState) (b : Nat) (ln : Nat) : PState :=
  let above := (getN st b).parent
  let lll := st.lastLineLength
  let st := modN st b (fun n =>
    { n with isOpen := false,
             sourcepos := { n.sourcepos with endLine := ln, endCol := lll } })
  let st := blockFinalize (getN st b).t st b
  { st with tip := above }

/-- Document.continue_. -/
def documentContinue (st : PState) (_c : Nat) : PState × Nat := (st, 0)

/-- List.continue_. -/
def listContinue (st : PState) (_c : Nat) : PState × Nat := (st, 0)

/-- BlockQuote.continue_: an unindented angle marker is consumed together
with one optional following space (the space moves the offset only). -/
def blockQuoteContinue (st : PState) (_c : Nat) : PState × Nat :=
  let ln := st.currentLine
  if ¬ st.indented ∧ peek ln st.nextNonspace = some '>' then
    let st := advanceNextNonspace st
    let st := advanceOffset st 1 false
    let st := if peek ln st.offset = some ' ' then
        { st with offset := st.offset + 1 }
      else st
    (st, 0)
  else (st, 1)

/-- Item.continue_: a blank line with a last child advances to the next
nonspace; otherwise sufficient indent advances by marker_offset plus
padding columns; otherwise fail. -/
def itemContinue (st : PState) (c : Nat) : PState × Nat :=
  let n := getN st c
  if st.blank ∧ n.children.getLast? ≠ none then
    (advanceNextNonspace st, 0)
  else if n.listData.markerOffset + n.listData.padding ≤ st.indent then
    (advanceOffset st (n.listData.markerOffset + n.listData.padding) true, 0)
  else (st, 1)

/-- Heading.continue_: a heading never spans more than one line. -/
def headingContinue (st : PState) (_c : Nat) : PState × Nat := (st, 1)

/-- ThematicBreak.continue_. -/
def thematicBreakContinue (st : PState) (_c : Nat) : PState × Nat := (st, 1)

/-- The fence-offset space skipping loop of CodeBlock.continue_. -/
def cbSkipAux (st : PState) : Nat → PState
  | 0 => st
  | i + 1 =>
    if peek st.currentLine st.offset = some ' ' then
      cbSkipAux (advanceOffset st 1 false) i
    else st

/-- CodeBlock.continue_: a fenced block closes (finalize, return 2) on an
unindented closing fence of at least the opening length, else it skips up
to fence_offset spaces; an indented block continues under four columns of
indent or on a blank line. -/
def codeBlockContinue (st : PState) (c : Nat) : PState × Nat :=
  let ln := st.currentLine
  let indent := st.indent
  let n := getN st c
  if n.isFenced then
    let mres : Option Nat :=
      if indent ≤ 3 ∧ st.nextNonspace + 1 ≤ ln.length ∧
         peek ln st.nextNonspace = n.fenceChar then
        closingFenceMatch (ln.drop st.nextNonspace)
      else none
    match mres with
    | some r =>
      if n.fenceLength ≤ r then (parserFinalize st c st.lineNumber, 2)
      else (cbSkipAux st n.fenceOffset, 0)
    | none => (cbSkipAux st n.fenceOffset, 0)
  else
    if CODE_INDENT ≤ indent then (advanceOffset st CODE_INDENT true, 0)
    else if st.blank then (advanceNextNonspace st, 0)
    else (st, 1)

/-- HtmlBlock.continue_: a blank line ends block types 6 and 7. -/
def htmlBlockContinue (st : PState) (c : Nat) : PState × Nat :=
  if st.blank ∧ ((getN st c).htmlBlockType = 6 ∨ (getN st c).htmlBlockType = 7)
  then (st, 1) else (st, 0)

/-- Paragraph.continue_: fail on a blank line. -/
def paragraphContinue (st : PState) (_c : Nat) : PState × Nat :=
  if st.blank then (st, 1) else (st, 0)

/-- continue_ dispatch on the block kind. -/
def blockContinue : Kind → PState → Nat → PState × Nat
  | .document, st, c => documentContinue st c
  | .blockQuote, st, c => blockQuoteContinue st c
  | .list, st, c => listContinue st c
  | .item, st, c => itemContinue st c
  | .heading, st, c => headingContinue st c
  | .thematicBreak, st, c => thematicBreakContinue st c
  | .codeBlock, st, c => codeBlockContinue st c
  | .htmlBlock, st, c => htmlBlockContinue st c
  | .paragraph, st, c => paragraphContinue st c

end CM

namespace CM

/-- Parser.add_line: append the rest of the current line and a newline to
the tip's string_content (a None tip or content would crash the
source). -/
def addLine (st : PState) : PState :=
  match st.tip with
  | none => { st with errState := true }
  | some t =>
    match (getN st t).stringContent with
    | none => { st with errState := true }
    | some content =>
      let newContent := content ++ st.currentLine.drop st.offset ++ ['\n']
      modN st t (fun n => { n with stringContent := some newContent })

/-- The walk-up loop of Parser.add_child: finalize the tip at the previous
line until a block that can contain the tag is found. -/
def addChildAux (st : PState) (tag : Kind) : Nat → PState
  | 0 => { st with errFuel := true }
  | fuel + 1 =>
    match st.tip with
    | none => { st with errState := true }
    | some t =>
      if canContain (getN st t).t tag then st
      else addChildAux (parserFinalize st t (st.lineNumber - 1)) tag fuel

/-- Parser.add_child: walk up, then create an open node with start
position (line_number, offset+1), empty string_content, append it to the
tip and make it the new tip.  Returns the new node's index. -/
def addChild (st : PState) (tag : Kind) (offset : Nat) : PState × Nat :=
  let st := addChildAux st tag (st.arena.size + 1)
  match st.tip with
  | none => ({ st with errState := true }, 0)
  | some t =>
    let idx := st.arena.size
    let node : Node :=
      { t := tag, parent := some t, isOpen := true,
        sourcepos := { startLine := st.lineNumber, startCol := offset + 1,
                       endLine := 0, endCol := 0 },
        stringContent := some [] }
    let st := { st with arena := st.arena.push node }
    let st := modN st t (fun n => { n with children := n.children ++ [idx] })
    ({ st with tip := some idx }, idx)

/-- The walk of Parser.close_unmatched_blocks: finalize from oldtip up
to (excluding) the last matched container, each at line_number - 1.
Returns the state and whether the walk completed (a None oldtip would
crash the source). -/
def closeUnmatchedAux (st : PState) : Nat → PState × Bool
  | 0 => ({ st with errFuel := true }, false)
  | fuel + 1 =>
    if st.oldtip = some st.lastMatchedContainer then (st, true)
    else
      match st.oldtip with
      | none => ({ st with errState := true }, false)
      | some ot =>
        let parent := (getN st ot).parent
        let st := parserFinalize st ot (st.lineNumber - 1)
        closeUnmatchedAux { st with oldtip := parent } fuel

/-- Parser.close_unmatched_blocks: do nothing when everything is already
closed, else walk and then record all_closed. -/
def closeUnmatchedBlocks (st : PState) : PState :=
  if ¬ st.allClosed then
    let r := closeUnmatchedAux st (st.arena.size + 1)
    if r.2 then { r.1 with allClosed := true } else r.1
  else st

/-- Ancestor scan of break_out_of_lists: the outermost enclosing List. -/
def lastListAux (st : PState) (b : Nat) (acc : Option Nat) :
    Nat → Option Nat
  | 0 => acc
  | fuel + 1 =>
    let acc := if (getN st b).t = .list then some b else acc
    match (getN st b).parent with
    | none => acc
    | some p => lastListAux st p acc fuel

/-- The finalize walk of break_out_of_lists from block up to (excluding)
the outermost list. -/
def breakOutAux (st : PState) (block lastList : Nat) : Nat → PState
  | 0 => { st with errFuel := true }
  | fuel + 1 =>
    if block = lastList then st
    else
      let parent := (getN st block).parent
      let st := parserFinalize st block st.lineNumber
      match parent with
      | none => { st with errState := true }
      | some p => breakOutAux st p lastList fuel

/-- Parser.break_out_of_lists: finalize everything from the block up to
and including the outermost containing List, at the current line; the tip
becomes the list's parent. -/
def breakOutOfLists (st : PState) (block : Nat) : PState :=
  match lastListAux st block none (st.arena.size + 1) with
  | none => st
  | some ll =>
    let st := breakOutAux st block ll (st.arena.size + 1)
    let st := parserFinalize st ll st.lineNumber
    { st with tip := (getN st ll).parent }

/-- lists_match: same type, delimiter and bullet character. -/
def listsMatch (a b : ListData) : Bool :=
  a.ltype = b.ltype ∧ a.delimiter = b.delimiter ∧ a.bulletChar = b.bulletChar

/-- The spaces-after-marker loop of parse_list_marker: advance one column
at a time while fewer than five columns were consumed and a space or tab
follows.  Terminates within six iterations (fuel 8 is passed). -/
def listSpacesAux (st : PState) (ssc : Nat) : Nat → PState
  | 0 => { st with errFuel := true }
  | fuel + 1 =>
    let st := advanceOffset st 1 true
    let nextc := peek st.currentLine st.offset
    if st.column - ssc < 5 ∧ (nextc = some ' ' ∨ nextc = some '\t') then
      listSpacesAux st ssc fuel
    else st

/-- parse_list_marker: recognize a bullet or ordered marker at the next
nonspace, require a space, tab or end after it, then advance and compute
padding; with five or more, zero, or only blank content after the marker
the cursor is rewound so that exactly one optional space is consumed and
padding is the marker width plus one. -/
def parseListMarker (st : PState) : PState × Option ListData :=
  let rest := st.currentLine.drop st.nextNonspace
  let info : Option (Nat × ListData) :=
    match bulletMatch rest with
    | some c =>
      some (1, { ltype := some .bullet, bulletChar := some c,
                 markerOffset := st.indent })
    | none =>
      match orderedMatch rest with
      | some r =>
        some (r.1, { ltype := some .ordered, start := some r.2.1,
                     delimiter := some r.2.2, markerOffset := st.indent })
      | none => none
  match info with
  | none => (st, none)
  | some (glen, data) =>
    let nextc := peek st.currentLine (st.nextNonspace + glen)
    if ¬ (nextc = none ∨ nextc = some '\t' ∨ nextc = some ' ') then (st, none)
    else
      let st := advanceNextNonspace st
      let st := advanceOffset st glen true
      let ssc := st.column
      let sso := st.offset
      let st := listSpacesAux st ssc 8
      let blankItem := peek st.currentLine st.offset = none
      let spacesAfterMarker := st.column - ssc
      if 5 ≤ spacesAfterMarker ∨ spacesAfterMarker < 1 ∨ blankItem then
        let st := { st with column := ssc, offset := sso }
        let st := if peek st.currentLine st.offset = some ' ' then
            advanceOffset st 1 true
          else st
        (st, some { data with padding := glen + 1 })
      else
        (st, some { data with padding := glen + spacesAfterMarker })

/-- BlockStarts.block_quote. -/
def tryBlockQuote (st : PState) (_container : Nat) : PState × Nat :=
  if ¬ st.indented ∧ peek st.currentLine st.nextNonspace = some '>' then
    let st := advanceNextNonspace st
    let st := advanceOffset st 1 false
    let st := if peek st.currentLine st.offset = some ' ' then
        advanceOffset st 1 false
      else st
    let st := closeUnmatchedBlocks st
    let r := addChild st .blockQuote st.nextNonspace
    (r.1, 1)
  else (st, 0)

/-- BlockStarts.atx_heading. -/
def tryATXHeading (st : PState) (_container : Nat) : PState × Nat :=
  if ¬ st.indented then
    match atxMatch (st.currentLine.drop st.nextNonspace) with
    | some m =>
      let st := advanceNextNonspace st
      let st := advanceOffset st m.1 false
      let st := closeUnmatchedBlocks st
      let r := addChild st .heading st.nextNonspace
      let st := r.1
      let content := atxStrip (st.currentLine.drop st.offset)
      let st := modN st r.2 (fun n =>
        { n with level := m.2, stringContent := some content })
      let st := advanceOffset st (st.currentLine.length - st.offset) false
      (st, 2)
    | none => (st, 0)
  else (st, 0)

/-- BlockStarts.fenced_code_block. -/
def tryFencedCode (st : PState) (_container : Nat) : PState × Nat :=
  if ¬ st.indented then
    match codeFenceMatch (st.currentLine.drop st.nextNonspace) with
    | some m =>
      let ind := st.indent
      let st := closeUnmatchedBlocks st
      let r := addChild st .codeBlock st.nextNonspace
      let st := modN r.1 r.2 (fun n =>
        { n with isFenced := true, fenceLength := m.1,
                 fenceChar := some m.2, fenceOffset := ind })
      let st := advanceNextNonspace st
      let st := advanceOffset st m.1 false
      (st, 2)
    | none => (st, 0)
  else (st, 0)

/-- BlockStarts.html_block: the seven opening patterns in order, pattern 7
not interrupting a paragraph; the offset is not advanced, spaces belong
to the block. -/
def tryHtmlBlock (st : PState) (container : Nat) : PState × Nat :=
  if ¬ st.indented ∧ peek st.currentLine st.nextNonspace = some '<' then
    let s := st.currentLine.drop st.nextNonspace
    match (List.range' 1 7).find? (fun bt =>
      htmlOpenMatch bt s &&
      (decide (bt < 7) || decide ((getN st container).t ≠ .paragraph))) with
    | some bt =>
      let st := closeUnmatchedBlocks st
      let r := addChild st .htmlBlock st.offset
      (modN r.1 r.2 (fun n => { n with htmlBlockType := bt }), 2)
    | none => (st, 0)
  else (st, 0)

/-- BlockStarts.setext_heading: replace the open paragraph by a heading
carrying its content and source position. -/
def trySetextHeading (st : PState) (container : Nat) : PState × Nat :=
  if ¬ st.indented ∧ (getN st container).t = .paragraph then
    match setextMatch (st.currentLine.drop st.nextNonspace) with
    | some mc =>
      let st := closeUnmatchedBlocks st
      let idx := st.arena.size
      let contNode := getN st container
      let heading : Node :=
        { t := .heading, sourcepos := contNode.sourcepos,
          level := if mc = '=' then 1 else 2,
          stringContent := contNode.stringContent }
      let st := { st with arena := st.arena.push heading }
      let st := insertAfter st container idx
      let st := unlink st container
      let st := { st with tip := some idx }
      let st := advanceOffset st (st.currentLine.length - st.offset) false
      (st, 2)
    | none => (st, 0)
  else (st, 0)

/-- BlockStarts.thematic_break. -/
def tryThematicBreak (st : PState) (_container : Nat) : PState × Nat :=
  if ¬ st.indented ∧ thematicMatch (st.currentLine.drop st.nextNonspace) then
    let st := closeUnmatchedBlocks st
    let r := addChild st .thematicBreak st.nextNonspace
    let st := r.1
    let st := advanceOffset st (st.currentLine.length - st.offset) false
    (st, 2)
  else (st, 0)

/-- BlockStarts.list_item: parse a marker, open a List first when the tip
is not a matching list, then open the Item. -/
def tryListItem (st : PState) (container : Nat) : PState × Nat :=
  if ¬ st.indented ∨ (getN st container).t = .list then
    let r := parseListMarker st
    match r.2 with
    | some data =>
      let st := closeUnmatchedBlocks r.1
      let st := if st.tip = none then { st with errState := true } else st
      let tipK := match st.tip with
        | some t => (getN st t).t
        | none => Kind.document
      let st :=
        if tipK ≠ .list ∨ ¬ listsMatch (getN st container).listData data then
          let r2 := addChild st .list st.nextNonspace
          modN r2.1 r2.2 (fun n => { n with listData := data })
        else st
      let r3 := addChild st .item st.nextNonspace
      let st := modN r3.1 r3.2 (fun n => { n with listData := data })
      (st, 1)
    | none => (r.1, 0)
  else (st, 0)

/-- BlockStarts.indented_code_block (a None tip cannot occur during
incorporation; the default kind is used for totality). -/
def tryIndentedCode (st : PState) (_container : Nat) : PState × Nat :=
  let tipK := match st.tip with
    | some t => (getN st t).t
    | none => Kind.document
  if st.indented ∧ tipK ≠ .paragraph ∧ ¬ st.blank then
    let st := advanceOffset st CODE_INDENT true
    let st := closeUnmatchedBlocks st
    let r := addChild st .codeBlock st.offset
    (r.1, 2)
  else (st, 0)

/-- BlockStarts.METHODS in source order. -/
def startsList : List (PState → Nat → PState × Nat) :=
  [tryBlockQuote, tryATXHeading, tryFencedCode, tryHtmlBlock,
   trySetextHeading, tryThematicBreak, tryListItem, tryIndentedCode]

/-- The inner matcher loop of incorporate_line: run the block starts in
order until one returns 1 or 2 (0 means none matched). -/
def runStartsAux (st : PState) (container : Nat) :
    List (PState → Nat → PState × Nat) → PState × Nat
  | [] => (st, 0)
  | f :: rest =>
    let r := f st container
    if r.2 = 0 then runStartsAux r.1 container rest else r

/-- reMaybeSpecial: the first character of the rest of the line is one
that some block start could fire on. -/
def maybeSpecial (s : List Char) : Bool :=
  match s with
  | [] => false
  | c :: _ =>
    c = '#' ∨ c = btick ∨ c = '~' ∨ c = '*' ∨ c = '+' ∨ c = '_' ∨
    c = '=' ∨ c = '<' ∨ c = '>' ∨ c = '-' ∨ isDigitCh c

/-- The phase-2 loop of incorporate_line with the fast-skip performance
optimization: recompute the next nonspace; when unindented and no special
character follows, advance and stop; otherwise run the starts, re-enter
on a container match, stop on a leaf match or no match.  Returns the
state and the container. -/
def phase2Loop (st : PState) (container : Nat) : Nat → PState × Nat
  | 0 => ({ st with errFuel := true }, container)
  | fuel + 1 =>
    let st := findNextNonspace st
    if ¬ st.indented ∧
       ¬ maybeSpecial (st.currentLine.drop st.nextNonspace) then
      (advanceNextNonspace st, container)
    else
      let r := runStartsAux st container startsList
      if r.2 = 1 then
        match r.1.tip with
        | some t => phase2Loop r.1 t fuel
        | none => ({ r.1 with errState := true }, container)
      else if r.2 = 2 then
        match r.1.tip with
        | some t => (r.1, t)
        | none => ({ r.1 with errState := true }, container)
      else (advanceNextNonspace r.1, container)

/-- The phase-2 loop with the fast-skip optimization removed: the
refinement reference for the claim that the skip is behavior
preserving. -/
def phase2LoopNoSkip (st : PState) (container : Nat) : Nat → PState × Nat
  | 0 => ({ st with errFuel := true }, container)
  | fuel + 1 =>
    let st := findNextNonspace st
    let r := runStartsAux st container startsList
    if r.2 = 1 then
      match r.1.tip with
      | some t => phase2LoopNoSkip r.1 t fuel
      | none => ({ r.1 with errState := true }, container)
    else if r.2 = 2 then
      match r.1.tip with
      | some t => (r.1, t)
      | none => ({ r.1 with errState := true }, container)
    else (advanceNextNonspace r.1, container)

/-- The phase-1 loop of incorporate_line: descend through open last
children, calling each kind's continue_.  Returns the state, the last
matching container, and whether incorporate_line returns early (a fenced
closing fence consumed the line, or an illegal continue_ value raised).
A continue_ value outside 0, 1, 2 sets errIllegal, modelling the raised
ValueError. -/
def phase1Loop (st : PState) (container : Nat) : Nat → PState × Nat × Bool
  | 0 => ({ st with errFuel := true }, container, false)
  | fuel + 1 =>
    match (getN st container).children.getLast? with
    | none => (st, container, false)
    | some lc =>
      if (getN st lc).isOpen then
        let c2 := lc
        let st := findNextNonspace st
        let r := blockContinue (getN st c2).t st c2
        let st := r.1
        if r.2 = 0 then phase1Loop st c2 fuel
        else if r.2 = 1 then (st, (getN st c2).parent.getD 0, false)
        else if r.2 = 2 then
          ({ st with lastLineLength := st.currentLine.length }, c2, true)
        else ({ st with errIllegal := true }, c2, true)
      else (st, container, false)

/-- last_line_blank propagation up the ancestor chain. -/
def propagateLLB (st : PState) (cont : Option Nat) (v : Bool) :
    Nat → PState
  | 0 => { st with errFuel := true }
  | fuel + 1 =>
    match cont with
    | none => st
    | some c =>
      propagateLLB (modN st c (fun n => { n with lastLineBlank := v }))
        (getN st c).parent v fuel

/-- Phase 3 of incorporate_line: place the remaining text.  Lazy
paragraph continuation appends to the paragraph bypassing
close_unmatched_blocks; otherwise unmatched blocks are closed, blank
lines are recorded on the last child and propagated, the line is added
to a container that accepts lines (finalizing a type 1-5 HtmlBlock whose
close pattern occurs on the line), or a paragraph is opened. -/
def phase3BlankMark (st : PState) (container : Nat) : PState :=
  if st.blank then
    match (getN st container).children.getLast? with
    | some lc => modN st lc (fun n => { n with lastLineBlank := true })
    | none => st
  else st

/-- The text placement at the end of phase 3: add the line to a container
that accepts lines (finalizing a type 1-5 HtmlBlock whose close pattern
occurs on the rest of the line), or open a paragraph for remaining
non-blank text. -/
def phase3Place (st : PState) (container : Nat) : PState :=
  let t := (getN st container).t
  if acceptsLines t then
    let st := addLine st
    if t = .htmlBlock ∧ 1 ≤ (getN st container).htmlBlockType ∧
       (getN st container).htmlBlockType ≤ 5 ∧
       htmlCloseMatch (getN st container).htmlBlockType
         (st.currentLine.drop st.offset) then
      parserFinalize st container st.lineNumber
    else st
  else if st.offset < st.currentLine.length ∧ ¬ st.blank then
    let r := addChild st .paragraph st.offset
    let st := advanceNextNonspace r.1
    addLine st
  else st

def phase3 (st : PState) (container : Nat) : PState :=
  let tipK : Option Kind := match st.tip with
    | some t => some (getN st t).t
    | none => none
  if ¬ st.allClosed ∧ ¬ st.blank ∧ tipK = some .paragraph then
    addLine st
  else
    let st := closeUnmatchedBlocks st
    let st := phase3BlankMark st container
    let t := (getN st container).t
    let llb := st.blank ∧ ¬ (t = .blockQuote ∨
      (t = .codeBlock ∧ (getN st container).isFenced) ∨
      (t = .item ∧ (getN st container).children = [] ∧
        (getN st container).sourcepos.startLine = st.lineNumber))
    let st := propagateLLB st (some container) llb (st.arena.size + 1)
    phase3Place st container

/-- Parser.incorporate_line: phase 1 continues open blocks, phase 1b
breaks out of lists on a second blank line, phase 2 tries new block
starts, phase 3 places the remaining text (lazy paragraph continuation
bypasses close_unmatched_blocks). -/
def incorporateLine (st : PState) (ln0 : List Char) : PState :=
  let st := { st with oldtip := st.tip, offset := 0, column := 0,
                      lineNumber := st.lineNumber + 1 }
  let ln := if ln0.contains (Char.ofNat 0) then
      ln0.map (fun c => if c = Char.ofNat 0 then Char.ofNat 0xFFFD else c)
    else ln0
  let st := { st with currentLine := ln }
  let r1 := phase1Loop st 0 (st.arena.size + 1)
  let st := r1.1
  let container := r1.2.1
  if r1.2.2 then st
  else
    let st := { st with allClosed := (st.oldtip = some container),
                        lastMatchedContainer := container }
    let p1b :=
      if st.blank ∧ (getN st container).lastLineBlank then
        let st := breakOutOfLists st container
        match st.tip with
        | some t => (st, t)
        | none => ({ st with errState := true }, container)
      else (st, container)
    let st := p1b.1
    let container := p1b.2
    let matchedLeaf := (getN st container).t ≠ .paragraph ∧
      acceptsLines (getN st container).t
    let r2 := if matchedLeaf then (st, container)
              else phase2Loop st container (ln.length + 8)
    let st := phase3 r2.1 r2.2
    { st with lastLineLength := ln.length }

/-- re.split on the line ending alternation: a CRLF pair, a lone LF or a
lone CR each end a segment.  The empty input yields one empty segment. -/
def splitLines : List Char → List (List Char)
  | [] => [[]]
  | '\r' :: '\n' :: rest => [] :: splitLines rest
  | '\n' :: rest => [] :: splitLines rest
  | '\r' :: rest => [] :: splitLines rest
  | c :: rest =>
    match splitLines rest with
    | l :: ls => (c :: l) :: ls
    | [] => [[c]]

/-- The number of segments parse incorporates: the trailing empty segment
produced by a final LF is dropped. -/
def parseLength (input : String) : Nat :=
  let lines := splitLines input.data
  if 0 < input.data.length ∧ input.data.getLast? = some '\n' then
    lines.length - 1
  else lines.length

/-- The exact list of segments parse incorporates, in order. -/
def processedLines (input : String) : List (List Char) :=
  (splitLines input.data).take (parseLength input)

/-- The closing loop of parse: while a tip remains, finalize it at the
processed line count. -/
def finalLoop (st : PState) (length : Nat) : Nat → PState
  | 0 => { st with errFuel := true }
  | fuel + 1 =>
    match st.tip with
    | none => st
    | some t => finalLoop (parserFinalize st t length) length fuel

/-- Modelled from the spec: the inline parsing pass (inlines.py) is not
part of the given source.  Per spec section 4.F the tree is walked and
for every Paragraph or Heading node the inline parser is invoked on its
string_content, populating inline children (which this block-level model
records as a flag) and reading the shared reference map; spec section 4.F
does not alter any other node field. -/
def processInlinesAux (st : PState) : List Nat → Nat → PState
  | [], _ => st
  | _, 0 => { st with errFuel := true }
  | b :: rest, fuel + 1 =>
    let st := if (getN st b).t = .paragraph ∨ (getN st b).t = .heading then
        modN st b (fun n => { n with inlinesDone := true })
      else st
    processInlinesAux st ((getN st b).children ++ rest) fuel

/-- Modelled from the spec: Parser.process_inlines walks the finished
tree once, visiting every Paragraph and Heading. -/
def processInlines (st : PState) : PState :=
  processInlinesAux st [0] ((st.arena.size + 1) * (st.arena.size + 1))

/-- Parser.parse: reset state, split the input on line endings, drop the
trailing empty segment when the input ends in a newline, incorporate each
remaining segment, close every open block at the processed line count and
run the inline pass. -/
def parse (input : String) : PState :=
  let docNode : Node :=
    { t := .document,
      sourcepos := { startLine := 1, startCol := 1, endLine := 0, endCol := 0 } }
  let st : PState :=
    { arena := #[docNode], tip := some 0, oldtip := some 0 }
  let st := (processedLines input).foldl incorporateLine st
  let st := finalLoop st (parseLength input) (st.arena.size + 2)
  processInlines st

end CM

namespace CM

/-- A parser state as reached inside parse of a list with a blank, indented
second line: the Item (index 2) is childless, the current line is three
spaces (blank, indent 3), and marker_offset + padding = 2. -/
def c1State : PState :=
  { arena := #[
      { t := .document, sourcepos := { startLine := 1, startCol := 1 },
        children := [1] },
      { t := .list, parent := some 0, children := [2], stringContent := some [],
        sourcepos := { startLine := 1, startCol := 1 },
        listData := { ltype := some .bullet, bulletChar := some '-',
                      padding := 2, markerOffset := 0 } },
      { t := .item, parent := some 1, children := [], stringContent := some [],
        sourcepos := { startLine := 1, startCol := 1 },
        listData := { ltype := some .bullet, bulletChar := some '-',
                      padding := 2, markerOffset := 0 } } ],
    tip := some 2, oldtip := some 2, currentLine := [' ', ' ', ' '],
    lineNumber := 2, offset := 0, column := 0, nextNonspace := 3,
    nextNonspaceCol := 3, indent := 3, indented := false, blank := true,
    allClosed := true, lastMatchedContainer := 0, refmap := [],
    lastLineLength := 2 }

/-- Claim C1 counterexample: on a blank line, Item.continue_ for a childless
Item with indent at least marker_offset + padding returns 0, not 1 as the
claim states - the elif branch on indent fires even though the line is
blank.  Moreover in the full parse of a bullet list whose second line is
three blank spaces, the childless Item stays open through line 2 and is
only closed at line 2 (the claim's behavior would close it at line 1). -/
theorem C1_counterexample :
    c1State.blank = true ∧ (getN c1State 2).t = Kind.item ∧
    (getN c1State 2).children.getLast? = none ∧
    (itemContinue c1State 2).2 = 0 ∧
    (getN (parse "- \n   \n") 2).t = Kind.item ∧
    (getN (parse "- \n   \n") 2).children = [] ∧
    (getN (parse "- \n   \n") 2).sourcepos.endLine = 2 := by
  refine ⟨rfl, rfl, rfl, rfl, ?_, ?_, ?_⟩ <;> rfl

/-- Claim C1 (amended): during line incorporation Item.continue_ behaves as
follows - if the line is blank and the item has a last child it advances to
the next nonspace and returns 0; otherwise (blank and childless included),
if indent ≥ marker_offset + padding it advances by that many columns and
returns 0; otherwise it returns 1.  In particular a blank line fails to
continue a childless Item only when its indent is below
marker_offset + padding. -/
theorem C1_item_continue_amended (st : PState) (c : Nat) :
    (st.blank = true ∧ (getN st c).children.getLast? ≠ none →
      itemContinue st c = (advanceNextNonspace st, 0)) ∧
    (¬ (st.blank = true ∧ (getN st c).children.getLast? ≠ none) →
      (getN st c).listData.markerOffset + (getN st c).listData.padding ≤
          st.indent →
      itemContinue st c =
        (advanceOffset st
          ((getN st c).listData.markerOffset + (getN st c).listData.padding)
          true, 0)) ∧
    (¬ (st.blank = true ∧ (getN st c).children.getLast? ≠ none) →
      st.indent <
        (getN st c).listData.markerOffset + (getN st c).listData.padding →
      itemContinue st c = (st, 1)) := by
  refine ⟨fun h => ?_, fun h1 h2 => ?_, fun h1 h2 => ?_⟩ <;>
    simp only [itemContinue]
  · rw [if_pos h]
  · rw [if_neg h1, if_pos h2]
  · rw [if_neg h1, if_neg (by omega)]

/-- Witness for the amended claim C1 at the concrete counterexample
state. -/
theorem C1_witness :
    ¬ (c1State.blank = true ∧ (getN c1State 2).children.getLast? ≠ none) ∧
    (getN c1State 2).listData.markerOffset + (getN c1State 2).listData.padding ≤
      c1State.indent ∧
    itemContinue c1State 2 =
      (advanceOffset c1State
        ((getN c1State 2).listData.markerOffset +
          (getN c1State 2).listData.padding) true, 0) :=
  ⟨by decide, by decide,
   (C1_item_continue_amended c1State 2).2.1 (by decide) (by decide)⟩

end CM

namespace CM

theorem continue_rv_mem (k : Kind) (st : PState) (c : Nat) :
    (blockContinue k st c).2 = 0 ∨ (blockContinue k st c).2 = 1 ∨
    (blockContinue k st c).2 = 2 := by
  cases k <;>
    simp only [blockContinue, documentContinue, listContinue,
      blockQuoteContinue, itemContinue, headingContinue,
      thematicBreakContinue, codeBlockContinue, htmlBlockContinue,
      paragraphContinue] <;>
    repeat' first
      | omega
      | simp
      | split

@[simp] theorem eI_setN (st : PState) (i : Nat) (n : Node) :
    (setN st i n).errIllegal = st.errIllegal := rfl

@[simp] theorem eI_modN (st : PState) (i : Nat) (f : Node → Node) :
    (modN st i f).errIllegal = st.errIllegal := rfl

@[simp] theorem eI_findNextNonspace (st : PState) :
    (findNextNonspace st).errIllegal = st.errIllegal := rfl

@[simp] theorem eI_advanceNextNonspace (st : PState) :
    (advanceNextNonspace st).errIllegal = st.errIllegal := rfl

@[simp] theorem eI_advanceOffset (st : PState) (c : Nat) (b : Bool) :
    (advanceOffset st c b).errIllegal = st.errIllegal := rfl

@[simp] theorem eI_unlink (st : PState) (b : Nat) :
    (unlink st b).errIllegal = st.errIllegal := by
  unfold unlink
  try dsimp only
  repeat' split
  all_goals (first | rfl | simp)

@[simp] theorem eI_insertAfter (st : PState) (a b : Nat) :
    (insertAfter st a b).errIllegal = st.errIllegal := by
  unfold insertAfter
  try dsimp only
  repeat' split
  all_goals (first | rfl | simp)

@[simp] theorem eI_listFinalize (st : PState) (b : Nat) :
    (listFinalize st b).errIllegal = st.errIllegal := by
  unfold listFinalize
  try dsimp only
  repeat' split
  all_goals (first | rfl | simp)

@[simp] theorem eI_codeBlockFinalize (st : PState) (b : Nat) :
    (codeBlockFinalize st b).errIllegal = st.errIllegal := by
  unfold codeBlockFinalize
  try dsimp only
  repeat' split
  all_goals (first | rfl | simp)

@[simp] theorem eI_htmlBlockFinalize (st : PState) (b : Nat) :
    (htmlBlockFinalize st b).errIllegal = st.errIllegal := by
  unfold htmlBlockFinalize
  try dsimp only
  repeat' split
  all_goals (first | rfl | simp)

@[simp] theorem eI_paragraphFinalize (st : PState) (b : Nat) :
    (paragraphFinalize st b).errIllegal = st.errIllegal := by
  unfold paragraphFinalize
  try dsimp only
  repeat' split
  all_goals (first | rfl | simp)

@[simp] theorem eI_blockFinalize (k : Kind) (st : PState) (b : Nat) :
    (blockFinalize k st b).errIllegal = st.errIllegal := by
  cases k <;> simp [blockFinalize]

@[simp] theorem eI_parserFinalize (st : PState) (b ln : Nat) :
    (parserFinalize st b ln).errIllegal = st.errIllegal := by
  unfold parserFinalize
  try dsimp only
  simp

@[simp] theorem eI_cbSkipAux (st : PState) (n : Nat) :
    (cbSkipAux st n).errIllegal = st.errIllegal := by
  induction n generalizing st with
  | zero => rfl
  | succ k ih =>
    unfold cbSkipAux
    try dsimp only
    repeat' split
    all_goals (first | rfl | simp [ih])

@[simp] theorem eI_blockContinue (k : Kind) (st : PState) (c : Nat) :
    ((blockContinue k st c).1).errIllegal = st.errIllegal := by
  cases k <;>
    simp only [blockContinue, documentContinue, listContinue,
      blockQuoteContinue, itemContinue, headingContinue,
      thematicBreakContinue, codeBlockContinue, htmlBlockContinue,
      paragraphContinue] <;>
    try dsimp only
  all_goals repeat' split
  all_goals (first | rfl | simp)

@[simp] theorem eI_addChildAux (st : PState) (tag : Kind) (fuel : Nat) :
    (addChildAux st tag fuel).errIllegal = st.errIllegal := by
  induction fuel generalizing st with
  | zero => rfl
  | succ k ih =>
    unfold addChildAux
    try dsimp only
    repeat' split
    all_goals (first | rfl | simp [ih])

@[simp] theorem eI_closeUnmatchedAux (st : PState) (fuel : Nat) :
    ((closeUnmatchedAux st fuel).1).errIllegal = st.errIllegal := by
  induction fuel generalizing st with
  | zero => rfl
  | succ k ih =>
    unfold closeUnmatchedAux
    try dsimp only
    repeat' split
    all_goals (first | rfl | simp [ih])

@[simp] theorem eI_breakOutAux (st : PState) (b ll fuel : Nat) :
    (breakOutAux st b ll fuel).errIllegal = st.errIllegal := by
  induction fuel generalizing st b with
  | zero => rfl
  | succ k ih =>
    unfold breakOutAux
    try dsimp only
    repeat' split
    all_goals (first | rfl | simp [ih])

@[simp] theorem eI_listSpacesAux (st : PState) (ssc fuel : Nat) :
    (listSpacesAux st ssc fuel).errIllegal = st.errIllegal := by
  induction fuel generalizing st with
  | zero => rfl
  | succ k ih =>
    unfold listSpacesAux
    try dsimp only
    repeat' split
    all_goals (first | rfl | simp [ih])

@[simp] theorem eI_addLine (st : PState) :
    (addLine st).errIllegal = st.errIllegal := by
  unfold addLine
  try dsimp only
  repeat' split
  all_goals (first | rfl | simp)

@[simp] theorem eI_addChild (st : PState) (tag : Kind) (off : Nat) :
    ((addChild st tag off).1).errIllegal = st.errIllegal := by
  unfold addChild
  try dsimp only
  repeat' split
  all_goals (first | rfl | simp)

@[simp] theorem eI_closeUnmatchedBlocks (st : PState) :
    (closeUnmatchedBlocks st).errIllegal = st.errIllegal := by
  unfold closeUnmatchedBlocks
  try dsimp only
  repeat' split
  all_goals (first | rfl | simp)

@[simp] theorem eI_breakOutOfLists (st : PState) (b : Nat) :
    (breakOutOfLists st b).errIllegal = st.errIllegal := by
  unfold breakOutOfLists
  try dsimp only
  repeat' split
  all_goals (first | rfl | simp)

@[simp] theorem eI_parseListMarker (st : PState) :
    ((parseListMarker st).1).errIllegal = st.errIllegal := by
  unfold parseListMarker
  try dsimp only
  repeat' split
  all_goals (first | rfl | simp)

@[simp] theorem eI_tryBlockQuote (st : PState) (c : Nat) :
    ((tryBlockQuote st c).1).errIllegal = st.errIllegal := by
  unfold tryBlockQuote
  try dsimp only
  repeat' split
  all_goals (first | rfl | simp)

@[simp] theorem eI_tryATXHeading (st : PState) (c : Nat) :
    ((tryATXHeading st c).1).errIllegal = st.errIllegal := by
  unfold tryATXHeading
  try dsimp only
  repeat' split
  all_goals (first | rfl | simp)

@[simp] theorem eI_tryFencedCode (st : PState) (c : Nat) :
    ((tryFencedCode st c).1).errIllegal = st.errIllegal := by
  unfold tryFencedCode
  try dsimp only
  repeat' split
  all_goals (first | rfl | simp)

@[simp] theorem eI_tryHtmlBlock (st : PState) (c : Nat) :
    ((tryHtmlBlock st c).1).errIllegal = st.errIllegal := by
  unfold tryHtmlBlock
  try dsimp only
  repeat' split
  all_goals (first | rfl | simp)

@[simp] theorem eI_trySetextHeading (st : PState) (c : Nat) :
    ((trySetextHeading st c).1).errIllegal = st.errIllegal := by
  unfold trySetextHeading
  try dsimp only
  repeat' split
  all_goals (first | rfl | simp)

@[simp] theorem eI_tryThematicBreak (st : PState) (c : Nat) :
    ((tryThematicBreak st c).1).errIllegal = st.errIllegal := by
  unfold tryThematicBreak
  try dsimp only
  repeat' split
  all_goals (first | rfl | simp)

@[simp] theorem eI_tryListItem (st : PState) (c : Nat) :
    ((tryListItem st c).1).errIllegal = st.errIllegal := by
  unfold tryListItem
  try dsimp only
  repeat' split
  all_goals (first | rfl | simp)

@[simp] theorem eI_tryIndentedCode (st : PState) (c : Nat) :
    ((tryIndentedCode st c).1).errIllegal = st.errIllegal := by
  unfold tryIndentedCode
  try dsimp only
  repeat' split
  all_goals (first | rfl | simp)

theorem eI_runStartsAux (fs : List (PState → Nat → PState × Nat))
    (h : ∀ f ∈ fs, ∀ st c, ((f st c).1).errIllegal = st.errIllegal)
    (st : PState) (c : Nat) :
    ((runStartsAux st c fs).1).errIllegal = st.errIllegal := by
  induction fs generalizing st with
  | nil => rfl
  | cons f rest ih =>
    unfold runStartsAux
    try dsimp only
    split
    · rw [ih (fun g hg => h g (List.mem_cons_of_mem f hg))]
      exact h f (List.mem_cons_self f rest) st c
    · exact h f (List.mem_cons_self f rest) st c

@[simp] theorem eI_runStarts (st : PState) (c : Nat) :
    ((runStartsAux st c startsList).1).errIllegal = st.errIllegal := by
  apply eI_runStartsAux
  intro f hf st' c'
  simp only [startsList, List.mem_cons, List.not_mem_nil, or_false] at hf
  rcases hf with h | h | h | h | h | h | h | h <;> subst h <;> simp

@[simp] theorem eI_phase1Loop (st : PState) (c fuel : Nat) :
    ((phase1Loop st c fuel).1).errIllegal = st.errIllegal := by
  induction fuel generalizing st c with
  | zero => rfl
  | succ k ih =>
    unfold phase1Loop
    try dsimp only
    split
    · rfl
    next lc _heq =>
      split
      · rcases continue_rv_mem (getN (findNextNonspace st) lc).t
          (findNextNonspace st) lc with h | h | h <;> simp [h, ih]
      · rfl

@[simp] theorem eI_phase2Loop (st : PState) (c fuel : Nat) :
    ((phase2Loop st c fuel).1).errIllegal = st.errIllegal := by
  induction fuel generalizing st c with
  | zero => rfl
  | succ k ih =>
    unfold phase2Loop
    try dsimp only
    repeat' split
    all_goals (first | rfl | simp [ih])

@[simp] theorem eI_propagateLLB (st : PState) (cont : Option Nat) (v : Bool)
    (fuel : Nat) :
    (propagateLLB st cont v fuel).errIllegal = st.errIllegal := by
  induction fuel generalizing st cont with
  | zero => rfl
  | succ k ih =>
    unfold propagateLLB
    try dsimp only
    repeat' split
    all_goals (first | rfl | simp [ih])

@[simp] theorem eI_phase3BlankMark (st : PState) (c : Nat) :
    (phase3BlankMark st c).errIllegal = st.errIllegal := by
  unfold phase3BlankMark
  try dsimp only
  repeat' split
  all_goals (first | rfl | simp)

@[simp] theorem eI_phase3Place (st : PState) (c : Nat) :
    (phase3Place st c).errIllegal = st.errIllegal := by
  unfold phase3Place
  try dsimp only
  repeat' split
  all_goals (first | rfl | simp)

@[simp] theorem eI_phase3 (st : PState) (c : Nat) :
    (phase3 st c).errIllegal = st.errIllegal := by
  unfold phase3
  try dsimp only
  split
  all_goals simp

@[simp] theorem eI_incorporateLine (st : PState) (ln : List Char) :
    (incorporateLine st ln).errIllegal = st.errIllegal := by
  unfold incorporateLine
  try dsimp only
  repeat' split
  all_goals (first | rfl | simp)

@[simp] theorem eI_finalLoop (st : PState) (len fuel : Nat) :
    (finalLoop st len fuel).errIllegal = st.errIllegal := by
  induction fuel generalizing st with
  | zero => rfl
  | succ k ih =>
    unfold finalLoop
    try dsimp only
    repeat' split
    all_goals (first | rfl | simp [ih])

@[simp] theorem eI_processInlinesAux (st : PState) (w : List Nat)
    (fuel : Nat) :
    (processInlinesAux st w fuel).errIllegal = st.errIllegal := by
  induction fuel generalizing st w with
  | zero =>
    cases w
    · rfl
    · rfl
  | succ k ih =>
    cases w with
    | nil => rfl
    | cons b rest =>
      unfold processInlinesAux
      try dsimp only
      repeat' split
      all_goals (first | rfl | simp [ih])

@[simp] theorem eI_foldIncorporate (lines : List (List Char)) (st : PState) :
    (lines.foldl incorporateLine st).errIllegal = st.errIllegal := by
  induction lines generalizing st with
  | nil => rfl
  | cons l rest ih => simp [List.foldl_cons, ih]

/-- Claim C7: for the nine defined block kinds, continue_ only ever
returns 0, 1 or 2, so the abort branch of incorporate_line (the model of
the raised ValueError, the errIllegal flag) is unreachable: parse never
sets it, for any input. -/
theorem C7_continue_values_legal :
    (∀ (k : Kind) (st : PState) (c : Nat),
      (blockContinue k st c).2 = 0 ∨ (blockContinue k st c).2 = 1 ∨
      (blockContinue k st c).2 = 2) ∧
    (∀ input : String, (parse input).errIllegal = false) := by
  constructor
  · exact continue_rv_mem
  · intro input
    unfold parse
    try dsimp only
    simp [processInlines]

end CM

namespace CM

@[simp] theorem size_setN (st : PState) (i : Nat) (n : Node) :
    (setN st i n).arena.size = st.arena.size := by
  simp [setN]

theorem getN_setN_self (st : PState) (i : Nat) (n : Node)
    (h : i < st.arena.size) : getN (setN st i n) i = n := by
  simp [getN, setN, Array.setD, h, Array.getD]

theorem getN_setN_ne (st : PState) (i j : Nat) (n : Node) (h : j ≠ i) :
    getN (setN st i n) j = getN st j := by
  by_cases hi : i < st.arena.size
  · simp [getN, setN, Array.setD, hi, Array.getD]
    by_cases hj : j < st.arena.size
    · simp only [hj, dite_true]
      exact Array.getElem_set_ne _ _ _ _ (fun hh => h hh.symm)
    · simp [hj]
  · simp [getN, setN, Array.setD, hi]

theorem getN_modN_self (st : PState) (i : Nat) (f : Node → Node)
    (h : i < st.arena.size) : getN (modN st i f) i = f (getN st i) :=
  getN_setN_self st i _ h

theorem getN_modN_ne (st : PState) (i j : Nat) (f : Node → Node)
    (h : j ≠ i) : getN (modN st i f) j = getN st j :=
  getN_setN_ne st i j _ h

/-- Claim C9: HtmlBlock.finalize strips a trailing run of blank lines from
string_content into literal and clears string_content, except that content
"<div>\n" at source position [[1,3],[1,7]] is first rewritten to
"\n<div>", making the literal "\n<div>"; no other node changes. -/
theorem C9_htmlblock_finalize (st : PState) (b : Nat) (content : List Char)
    (hb : b < st.arena.size)
    (h : (getN st b).stringContent = some content) :
    (getN (htmlBlockFinalize st b) b).stringContent = none ∧
    (getN (htmlBlockFinalize st b) b).literal =
      some (subTrailing []
        (if content = "<div>\n".data ∧
            (getN st b).sourcepos =
              { startLine := 1, startCol := 3, endLine := 1, endCol := 7 }
         then "\n<div>".data else content)) ∧
    (∀ j, j ≠ b → getN (htmlBlockFinalize st b) j = getN st j) ∧
    ((content = "<div>\n".data ∧
      (getN st b).sourcepos =
        { startLine := 1, startCol := 3, endLine := 1, endCol := 7 }) →
      (getN (htmlBlockFinalize st b) b).literal = some "\n<div>".data) := by
  unfold htmlBlockFinalize
  dsimp only
  rw [h]
  by_cases hsp : content = "<div>\n".data ∧
      (getN st b).sourcepos =
        { startLine := 1, startCol := 3, endLine := 1, endCol := 7 }
  · rw [if_pos ⟨by rw [hsp.1], hsp.2⟩, if_pos hsp]
    refine ⟨?_, ?_, ?_, ?_⟩
    · rw [getN_setN_self _ _ _ hb]
    · rw [getN_setN_self _ _ _ hb]
    · intro j hj; exact getN_setN_ne _ _ _ _ hj
    · intro _; rw [getN_setN_self _ _ _ hb]
      show some (subTrailing [] "\n<div>".data) = some "\n<div>".data
      decide
  · rw [if_neg (fun hc => hsp ⟨by injection hc.1, hc.2⟩), if_neg hsp]
    simp only [h]
    refine ⟨?_, ?_, ?_, fun hc => absurd hc hsp⟩
    · rw [getN_setN_self _ _ _ hb]
    · rw [getN_setN_self _ _ _ hb]
    · intro j hj; exact getN_setN_ne _ _ _ _ hj

/-- A concrete HtmlBlock (as produced for input "<div>\nhi\n\n") for the
C9 witness. -/
def c9State : PState :=
  { arena := #[
      { t := .htmlBlock, htmlBlockType := 6,
        sourcepos := { startLine := 1, startCol := 1, endLine := 3, endCol := 0 },
        stringContent := some "<div>\nhi\n\n".data }] }

/-- Witness for claim C9 at a concrete HtmlBlock state. -/
theorem C9_witness :
    0 < c9State.arena.size ∧
    (getN c9State 0).stringContent = some "<div>\nhi\n\n".data ∧
    (getN (htmlBlockFinalize c9State 0) 0).stringContent = none ∧
    (getN (htmlBlockFinalize c9State 0) 0).literal = some "<div>\nhi".data := by
  have r := C9_htmlblock_finalize c9State 0 "<div>\nhi\n\n".data
    (by decide) (by rfl)
  refine ⟨by decide, rfl, r.1, ?_⟩
  rw [r.2.1]
  decide

end CM

namespace CM

/-- The prefix of s equal to the leading run of ch is that run. -/
theorem runLen_take (ch : Char) (s : List Char) :
    s.take (runLen ch s) = List.replicate (runLen ch s) ch := by
  induction s with
  | nil => rfl
  | cons d rest ih =>
    unfold runLen
    split
    · next h => simp [List.take_succ_cons, List.replicate_succ, h, ih]
    · rfl

/-- A replicate-prefix is no longer than the leading run. -/
theorem runLen_ge_of_take (ch : Char) (s : List Char) (k : Nat)
    (h : s.take k = List.replicate k ch) : k ≤ runLen ch s := by
  induction s generalizing k with
  | nil =>
    cases k
    · omega
    · simp at h
  | cons d rest ih =>
    cases k with
    | zero => omega
    | succ m =>
      simp [List.take_succ_cons, List.replicate_succ] at h
      unfold runLen
      rw [if_pos h.1]
      exact Nat.succ_le_succ (ih m h.2)

/-- all is preserved by drop. -/
theorem all_drop (p : Char → Bool) (l : List Char) (n : Nat)
    (h : l.all p) : (l.drop n).all p := by
  simp only [List.all_eq_true] at *
  intro x hx
  exact h x (List.mem_of_mem_drop hx)

/-- A run of at least fl (at least 3) fence characters followed by only
spaces makes the closing-fence regex match with the maximal run as
group. -/
theorem exists_close_imp (rest : List Char) (ch : Char) (fl : Nat)
    (hcc : ch = btick ∨ ch = '~') (hfl : 3 ≤ fl)
    (h : ∃ k, fl ≤ k ∧ rest.take k = List.replicate k ch ∧
      (rest.drop k).all (fun d => d = ' ')) :
    rest.head? = some ch ∧
    closingFenceMatch rest = some (runLen ch rest) ∧
    fl ≤ runLen ch rest := by
  obtain ⟨k, hk, ht, hd⟩ := h
  cases rest with
  | nil =>
    rw [List.take_nil] at ht
    have hlen := congrArg List.length ht
    simp at hlen
    omega
  | cons d tl =>
    have hdch : d = ch := by
      cases k with
      | zero => omega
      | succ m =>
        rw [List.take_succ_cons, List.replicate_succ] at ht
        exact (List.cons.injEq _ _ _ _ ▸ ht).1
    subst hdch
    have hrle : k ≤ runLen d (d :: tl) := runLen_ge_of_take d (d :: tl) k ht
    have h3 : 3 ≤ runLen d (d :: tl) := by omega
    have hdropr : ((d :: tl).drop (runLen d (d :: tl))).all
        (fun x => x = ' ') := by
      have heq : (d :: tl).drop (runLen d (d :: tl)) =
          ((d :: tl).drop k).drop (runLen d (d :: tl) - k) := by
        rw [List.drop_drop]
        congr 1
        omega
      rw [heq]
      exact all_drop _ _ _ hd
    refine ⟨rfl, ?_, by omega⟩
    simp only [closingFenceMatch]
    rw [if_pos hcc, if_pos ⟨h3, hdropr⟩]

/-- Conversely a closing-fence regex match of length at least fl yields
such a run. -/
theorem close_imp_exists (rest : List Char) (r fl : Nat)
    (hm : closingFenceMatch rest = some r) (hr : fl ≤ r) (ch : Char)
    (hh : rest.head? = some ch) :
    ∃ k, fl ≤ k ∧ rest.take k = List.replicate k ch ∧
      (rest.drop k).all (fun d => d = ' ') := by
  cases rest with
  | nil => simp [closingFenceMatch] at hm
  | cons d tl =>
    have hdch : d = ch := by simpa using hh
    subst hdch
    simp only [closingFenceMatch] at hm
    by_cases hcc : d = btick ∨ d = '~'
    · rw [if_pos hcc] at hm
      split at hm
      · next hcond =>
        injection hm with hm'
        subst hm'
        exact ⟨_, hr, runLen_take d (d :: tl), hcond.2⟩
      · cases hm
    · rw [if_neg hcc] at hm
      cases hm

/-- peek at i is the head of the line dropped by i. -/
theorem peek_eq_head_drop (s : List Char) (i : Nat) :
    peek s i = (s.drop i).head? := by
  simp [peek, List.head?_drop, List.get?_eq_getElem?]

/-- Claim C4: on a fenced code block (fence_length at least 3 and
fence char a backtick or tilde, as every fenced block has), continue_
finalizes the block and returns 2 exactly when the indent is at most 3
and the line at next_nonspace begins with at least fence_length copies of
the fence character followed by only spaces; in every other case it
returns 0 with the state produced by skipping up to fence_offset leading
spaces, and it never returns 1. -/
theorem C4_fenced_code_continue (st : PState) (c : Nat) (ch : Char)
    (hf : (getN st c).isFenced = true)
    (hfl : 3 ≤ (getN st c).fenceLength)
    (hch : (getN st c).fenceChar = some ch)
    (hcc : ch = btick ∨ ch = '~') :
    ((st.indent ≤ 3 ∧ ∃ k, (getN st c).fenceLength ≤ k ∧
        (st.currentLine.drop st.nextNonspace).take k = List.replicate k ch ∧
        ((st.currentLine.drop st.nextNonspace).drop k).all (fun d => d = ' '))
      ↔ (codeBlockContinue st c).2 = 2) ∧
    ((codeBlockContinue st c).2 = 2 →
      (codeBlockContinue st c).1 = parserFinalize st c st.lineNumber) ∧
    ((codeBlockContinue st c).2 ≠ 2 →
      codeBlockContinue st c = (cbSkipAux st (getN st c).fenceOffset, 0)) ∧
    (codeBlockContinue st c).2 ≠ 1 := by
  have hpk : peek st.currentLine st.nextNonspace =
      (st.currentLine.drop st.nextNonspace).head? :=
    peek_eq_head_drop _ _
  unfold codeBlockContinue
  dsimp only
  rw [if_pos hf]
  by_cases hA : st.indent ≤ 3 ∧ st.nextNonspace + 1 ≤ st.currentLine.length ∧
      peek st.currentLine st.nextNonspace = (getN st c).fenceChar
  · rw [if_pos hA]
    cases hm : closingFenceMatch (st.currentLine.drop st.nextNonspace) with
    | some r =>
      simp only [hm]
      by_cases hlr : (getN st c).fenceLength ≤ r
      · rw [if_pos hlr]
        refine ⟨Iff.intro (fun _ => rfl) (fun _ => ?_), fun _ => rfl,
          fun hne => absurd rfl hne, ?_⟩
        · refine ⟨hA.1, close_imp_exists _ r _ hm hlr ch ?_⟩
          rw [← hpk, hA.2.2, hch]
        · simp
      · rw [if_neg hlr]
        refine ⟨⟨fun hex => ?_, fun h2 => ?_⟩, fun h2 => ?_, fun _ => rfl, ?_⟩
        · obtain ⟨-, h2, h3⟩ := exists_close_imp _ ch _ hcc hfl hex.2
          rw [hm] at h2
          injection h2 with h2e
          omega
        · cases h2
        · cases h2
        · intro hone
          cases hone
    | none =>
      simp only [hm]
      refine ⟨Iff.intro (fun hex => ?_) (fun h2 => ?_), fun h2 => ?_,
        fun _ => trivial, ?_⟩
      · obtain ⟨-, h2, -⟩ := exists_close_imp _ ch _ hcc hfl hex.2
        rw [hm] at h2
        cases h2
      · simp at h2
      · simp at h2
      · simp
  · rw [if_neg hA]
    refine ⟨⟨fun hex => ?_, fun h2 => ?_⟩, fun h2 => ?_, fun _ => rfl, ?_⟩
    · obtain ⟨h1, h2, -⟩ := exists_close_imp _ ch _ hcc hfl hex.2
      refine absurd ⟨hex.1, ?_, ?_⟩ hA
      · have hne : st.currentLine.drop st.nextNonspace ≠ [] := by
          intro he
          rw [he] at h1
          cases h1
        have hpos : 0 < (st.currentLine.drop st.nextNonspace).length :=
          List.length_pos.mpr hne
        rw [List.length_drop] at hpos
        omega
      · rw [hpk, h1, hch]
    · cases h2
    · cases h2
    · intro hone
      cases hone

end CM

namespace CM

/-- A fenced code block state about to see its closing fence, for the C4
witness. -/
def c4State : PState :=
  { arena := #[
      { t := .codeBlock, isFenced := true, fenceLength := 3,
        fenceChar := some btick, fenceOffset := 0,
        stringContent := some "x\n".data,
        sourcepos := { startLine := 1, startCol := 1 } }],
    tip := some 0, oldtip := some 0,
    currentLine := [btick, btick, btick], lineNumber := 3, offset := 0,
    column := 0, nextNonspace := 0, nextNonspaceCol := 0, indent := 0,
    indented := false, blank := false, allClosed := true,
    lastMatchedContainer := 0, refmap := [], lastLineLength := 1 }

/-- Witness for claim C4 at a concrete closing-fence state. -/
theorem C4_witness :
    (getN c4State 0).isFenced = true ∧
    3 ≤ (getN c4State 0).fenceLength ∧
    (getN c4State 0).fenceChar = some btick ∧
    (codeBlockContinue c4State 0).2 = 2 := by
  have r := C4_fenced_code_continue c4State 0 btick (by decide) (by decide)
    (by decide) (Or.inl rfl)
  exact ⟨by decide, by decide, by decide,
    r.1.mp ⟨by decide, 3, by decide, by decide, by decide⟩⟩

end CM

namespace CM

/-- Reduction of splitLines on a carriage return not followed by a line
feed. -/
theorem splitLines_cr_cons (r0 : Char) (rtl : List Char) (hr0 : r0 ≠ '\n') :
    splitLines ('\r' :: r0 :: rtl) = [] :: splitLines (r0 :: rtl) := by
  conv_lhs => unfold splitLines
  split
  · next heq => exact absurd heq (by simp)
  · next heq =>
    have h0 : r0 = '\n' := by
      injection heq with _ h
      injection h with h1 _
    exact absurd h0 hr0
  · next heq =>
    injection heq with h1 _
    exact absurd h1 (by decide)
  · next heq =>
    injection heq with _ h2
    rw [h2]
  · next _x c rest h1 h2 h3 heq =>
    injection heq with hc _
    exact absurd hc.symm h3
end CM

namespace CM

theorem splitLines_ne_nil (l : List Char) : splitLines l ≠ [] := by
  induction l using splitLines.induct <;> simp [splitLines] <;> split <;> simp_all

theorem getLast?_cons_ne {α : Type} (a : α) (l : List α) (h : l ≠ []) :
    (a :: l).getLast? = l.getLast? := by
  cases l with
  | nil => exact absurd rfl h
  | cons b tl => simp

theorem splitLines_last_eol (l : List Char) (c : Char)
    (hl : l.getLast? = some c) (hc : c = '\n' ∨ c = '\r') :
    (splitLines l).getLast? = some [] ∧ 2 ≤ (splitLines l).length := by
  induction l using splitLines.induct with
  | case1 => simp at hl
  | case2 rest ih =>
    show ([] :: splitLines rest).getLast? = some [] ∧
      2 ≤ ([] :: splitLines rest).length
    by_cases hr : rest = []
    · subst hr
      simp [splitLines]
    · rw [List.getLast?_cons_cons, getLast?_cons_ne _ _ hr] at hl
      obtain ⟨ih1, ih2⟩ := ih hl
      rw [getLast?_cons_ne _ _ (splitLines_ne_nil rest)]
      refine ⟨ih1, ?_⟩
      simp
      omega
  | case3 rest ih =>
    show ([] :: splitLines rest).getLast? = some [] ∧
      2 ≤ ([] :: splitLines rest).length
    by_cases hr : rest = []
    · subst hr
      simp [splitLines]
    · rw [getLast?_cons_ne _ _ hr] at hl
      obtain ⟨ih1, ih2⟩ := ih hl
      rw [getLast?_cons_ne _ _ (splitLines_ne_nil rest)]
      refine ⟨ih1, ?_⟩
      simp
      omega
  | case4 rest h1 ih =>
    by_cases hr : rest = []
    · subst hr
      simp at hl
      simp [hl, splitLines]
    · cases rest with
      | nil => exact absurd rfl hr
      | cons r0 rtl =>
        have hr0 : r0 ≠ '\n' := fun he => h1 rtl (by rw [he])
        rw [splitLines_cr_cons r0 rtl hr0]
        rw [getLast?_cons_ne _ _ hr] at hl
        obtain ⟨ih1, ih2⟩ := ih hl
        rw [getLast?_cons_ne _ _ (splitLines_ne_nil _)]
        refine ⟨ih1, ?_⟩
        simp
        omega
  | case5 d rest h1 h2 h3 l0 ls hsp ih =>
    by_cases hr : rest = []
    · subst hr
      simp at hl
      subst hl
      rcases hc with h | h
      · exact absurd h (fun hh => h2 hh)
      · exact absurd h (fun hh => h3 hh)
    · rw [getLast?_cons_ne _ _ hr] at hl
      obtain ⟨ih1, ih2⟩ := ih hl
      have hred : splitLines (d :: rest) = (d :: l0) :: ls := by
        conv_lhs => unfold splitLines
        split
        · next heq => exact absurd heq (by simp)
        · next heq =>
          exfalso
          injection heq with hd htl
          exact h1 _ hd htl
        · next heq =>
          injection heq with hd _
          exact absurd hd h2
        · next heq =>
          injection heq with hd _
          exact absurd hd h3
        · next _x c2 rest2 g1 g2 g3 heq =>
          injection heq with hd htl
          subst hd
          subst htl
          rw [hsp]
      rw [hred]
      have hls : ls ≠ [] := by
        intro he
        rw [hsp, he] at ih2
        simp at ih2
      rw [getLast?_cons_ne _ _ hls]
      rw [hsp, getLast?_cons_ne _ _ hls] at ih1
      refine ⟨ih1, ?_⟩
      have := congrArg List.length hsp
      simp at this ⊢
      omega
  | case6 d rest h1 h2 h3 hsp ih =>
    exact absurd hsp (splitLines_ne_nil rest)

end CM

namespace CM

@[simp] theorem lN_setN (st : PState) (i : Nat) (n : Node) :
    (setN st i n).lineNumber = st.lineNumber := rfl

@[simp] theorem lN_modN (st : PState) (i : Nat) (f : Node → Node) :
    (modN st i f).lineNumber = st.lineNumber := rfl

@[simp] theorem lN_findNextNonspace (st : PState) :
    (findNextNonspace st).lineNumber = st.lineNumber := rfl

@[simp] theorem lN_advanceNextNonspace (st : PState) :
    (advanceNextNonspace st).lineNumber = st.lineNumber := rfl

@[simp] theorem lN_advanceOffset (st : PState) (c : Nat) (b : Bool) :
    (advanceOffset st c b).lineNumber = st.lineNumber := rfl

@[simp] theorem lN_unlink (st : PState) (b : Nat) :
    (unlink st b).lineNumber = st.lineNumber := by
  unfold unlink
  try dsimp only
  repeat' split
  all_goals (first | rfl | simp)

@[simp] theorem lN_insertAfter (st : PState) (a b : Nat) :
    (insertAfter st a b).lineNumber = st.lineNumber := by
  unfold insertAfter
  try dsimp only
  repeat' split
  all_goals (first | rfl | simp)

@[simp] theorem lN_listFinalize (st : PState) (b : Nat) :
    (listFinalize st b).lineNumber = st.lineNumber := by
  unfold listFinalize
  try dsimp only
  repeat' split
  all_goals (first | rfl | simp)

@[simp] theorem lN_codeBlockFinalize (st : PState) (b : Nat) :
    (codeBlockFinalize st b).lineNumber = st.lineNumber := by
  unfold codeBlockFinalize
  try dsimp only
  repeat' split
  all_goals (first | rfl | simp)

@[simp] theorem lN_htmlBlockFinalize (st : PState) (b : Nat) :
    (htmlBlockFinalize st b).lineNumber = st.lineNumber := by
  unfold htmlBlockFinalize
  try dsimp only
  repeat' split
  all_goals (first | rfl | simp)

@[simp] theorem lN_paragraphFinalize (st : PState) (b : Nat) :
    (paragraphFinalize st b).lineNumber = st.lineNumber := by
  unfold paragraphFinalize
  try dsimp only
  repeat' split
  all_goals (first | rfl | simp)

@[simp] theorem lN_blockFinalize (k : Kind) (st : PState) (b : Nat) :
    (blockFinalize k st b).lineNumber = st.lineNumber := by
  cases k <;> simp [blockFinalize]

@[simp] theorem lN_parserFinalize (st : PState) (b ln : Nat) :
    (parserFinalize st b ln).lineNumber = st.lineNumber := by
  unfold parserFinalize
  try dsimp only
  simp

@[simp] theorem lN_cbSkipAux (st : PState) (n : Nat) :
    (cbSkipAux st n).lineNumber = st.lineNumber := by
  induction n generalizing st with
  | zero => rfl
  | succ k ih =>
    unfold cbSkipAux
    try dsimp only
    repeat' split
    all_goals (first | rfl | simp [ih])

@[simp] theorem lN_blockContinue (k : Kind) (st : PState) (c : Nat) :
    ((blockContinue k st c).1).lineNumber = st.lineNumber := by
  cases k <;>
    simp only [blockContinue, documentContinue, listContinue,
      blockQuoteContinue, itemContinue, headingContinue,
      thematicBreakContinue, codeBlockContinue, htmlBlockContinue,
      paragraphContinue] <;>
    try dsimp only
  all_goals repeat' split
  all_goals (first | rfl | simp)

@[simp] theorem lN_addChildAux (st : PState) (tag : Kind) (fuel : Nat) :
    (addChildAux st tag fuel).lineNumber = st.lineNumber := by
  induction fuel generalizing st with
  | zero => rfl
  | succ k ih =>
    unfold addChildAux
    try dsimp only
    repeat' split
    all_goals (first | rfl | simp [ih])

@[simp] theorem lN_closeUnmatchedAux (st : PState) (fuel : Nat) :
    ((closeUnmatchedAux st fuel).1).lineNumber = st.lineNumber := by
  induction fuel generalizing st with
  | zero => rfl
  | succ k ih =>
    unfold closeUnmatchedAux
    try dsimp only
    repeat' split
    all_goals (first | rfl | simp [ih])

@[simp] theorem lN_breakOutAux (st : PState) (b ll fuel : Nat) :
    (breakOutAux st b ll fuel).lineNumber = st.lineNumber := by
  induction fuel generalizing st b with
  | zero => rfl
  | succ k ih =>
    unfold breakOutAux
    try dsimp only
    repeat' split
    all_goals (first | rfl | simp [ih])

@[simp] theorem lN_listSpacesAux (st : PState) (ssc fuel : Nat) :
    (listSpacesAux st ssc fuel).lineNumber = st.lineNumber := by
  induction fuel generalizing st with
  | zero => rfl
  | succ k ih =>
    unfold listSpacesAux
    try dsimp only
    repeat' split
    all_goals (first | rfl | simp [ih])

@[simp] theorem lN_phase1Loop (st : PState) (c fuel : Nat) :
    ((phase1Loop st c fuel).1).lineNumber = st.lineNumber := by
  induction fuel generalizing st c with
  | zero => rfl
  | succ k ih =>
    unfold phase1Loop
    try dsimp only
    repeat' split
    all_goals (first | rfl | simp [ih])

@[simp] theorem lN_addLine (st : PState) :
    (addLine st).lineNumber = st.lineNumber := by
  unfold addLine
  try dsimp only
  repeat' split
  all_goals (first | rfl | simp)

@[simp] theorem lN_addChild (st : PState) (tag : Kind) (off : Nat) :
    ((addChild st tag off).1).lineNumber = st.lineNumber := by
  unfold addChild
  try dsimp only
  repeat' split
  all_goals (first | rfl | simp)

@[simp] theorem lN_closeUnmatchedBlocks (st : PState) :
    (closeUnmatchedBlocks st).lineNumber = st.lineNumber := by
  unfold closeUnmatchedBlocks
  try dsimp only
  repeat' split
  all_goals (first | rfl | simp)

@[simp] theorem lN_breakOutOfLists (st : PState) (b : Nat) :
    (breakOutOfLists st b).lineNumber = st.lineNumber := by
  unfold breakOutOfLists
  try dsimp only
  repeat' split
  all_goals (first | rfl | simp)

@[simp] theorem lN_parseListMarker (st : PState) :
    ((parseListMarker st).1).lineNumber = st.lineNumber := by
  unfold parseListMarker
  try dsimp only
  repeat' split
  all_goals (first | rfl | simp)

@[simp] theorem lN_tryBlockQuote (st : PState) (c : Nat) :
    ((tryBlockQuote st c).1).lineNumber = st.lineNumber := by
  unfold tryBlockQuote
  try dsimp only
  repeat' split
  all_goals (first | rfl | simp)

@[simp] theorem lN_tryATXHeading (st : PState) (c : Nat) :
    ((tryATXHeading st c).1).lineNumber = st.lineNumber := by
  unfold tryATXHeading
  try dsimp only
  repeat' split
  all_goals (first | rfl | simp)

@[simp] theorem lN_tryFencedCode (st : PState) (c : Nat) :
    ((tryFencedCode st c).1).lineNumber = st.lineNumber := by
  unfold tryFencedCode
  try dsimp only
  repeat' split
  all_goals (first | rfl | simp)

@[simp] theorem lN_tryHtmlBlock (st : PState) (c : Nat) :
    ((tryHtmlBlock st c).1).lineNumber = st.lineNumber := by
  unfold tryHtmlBlock
  try dsimp only
  repeat' split
  all_goals (first | rfl | simp)

@[simp] theorem lN_trySetextHeading (st : PState) (c : Nat) :
    ((trySetextHeading st c).1).lineNumber = st.lineNumber := by
  unfold trySetextHeading
  try dsimp only
  repeat' split
  all_goals (first | rfl | simp)

@[simp] theorem lN_tryThematicBreak (st : PState) (c : Nat) :
    ((tryThematicBreak st c).1).lineNumber = st.lineNumber := by
  unfold tryThematicBreak
  try dsimp only
  repeat' split
  all_goals (first | rfl | simp)

@[simp] theorem lN_tryListItem (st : PState) (c : Nat) :
    ((tryListItem st c).1).lineNumber = st.lineNumber := by
  unfold tryListItem
  try dsimp only
  repeat' split
  all_goals (first | rfl | simp)

@[simp] theorem lN_tryIndentedCode (st : PState) (c : Nat) :
    ((tryIndentedCode st c).1).lineNumber = st.lineNumber := by
  unfold tryIndentedCode
  try dsimp only
  repeat' split
  all_goals (first | rfl | simp)

theorem lN_runStartsAux (fs : List (PState → Nat → PState × Nat))
    (h : ∀ f ∈ fs, ∀ st c, ((f st c).1).lineNumber = st.lineNumber)
    (st : PState) (c : Nat) :
    ((runStartsAux st c fs).1).lineNumber = st.lineNumber := by
  induction fs generalizing st with
  | nil => rfl
  | cons f rest ih =>
    unfold runStartsAux
    try dsimp only
    split
    · rw [ih (fun g hg => h g (List.mem_cons_of_mem f hg))]
      exact h f (List.mem_cons_self f rest) st c
    · exact h f (List.mem_cons_self f rest) st c

@[simp] theorem lN_runStarts (st : PState) (c : Nat) :
    ((runStartsAux st c startsList).1).lineNumber = st.lineNumber := by
  apply lN_runStartsAux
  intro f hf st2 c2
  simp only [startsList, List.mem_cons, List.not_mem_nil, or_false] at hf
  rcases hf with h | h | h | h | h | h | h | h <;> subst h <;> simp

@[simp] theorem lN_phase2Loop (st : PState) (c fuel : Nat) :
    ((phase2Loop st c fuel).1).lineNumber = st.lineNumber := by
  induction fuel generalizing st c with
  | zero => rfl
  | succ k ih =>
    unfold phase2Loop
    try dsimp only
    repeat' split
    all_goals (first | rfl | simp [ih])

@[simp] theorem lN_propagateLLB (st : PState) (cont : Option Nat) (v : Bool)
    (fuel : Nat) :
    (propagateLLB st cont v fuel).lineNumber = st.lineNumber := by
  induction fuel generalizing st cont with
  | zero => rfl
  | succ k ih =>
    unfold propagateLLB
    try dsimp only
    repeat' split
    all_goals (first | rfl | simp [ih])

@[simp] theorem lN_phase3BlankMark (st : PState) (c : Nat) :
    (phase3BlankMark st c).lineNumber = st.lineNumber := by
  unfold phase3BlankMark
  try dsimp only
  repeat' split
  all_goals (first | rfl | simp)

@[simp] theorem lN_phase3Place (st : PState) (c : Nat) :
    (phase3Place st c).lineNumber = st.lineNumber := by
  unfold phase3Place
  try dsimp only
  repeat' split
  all_goals (first | rfl | simp)

@[simp] theorem lN_phase3 (st : PState) (c : Nat) :
    (phase3 st c).lineNumber = st.lineNumber := by
  unfold phase3
  try dsimp only
  split
  all_goals simp

@[simp] theorem lN_incorporateLine (st : PState) (ln : List Char) :
    (incorporateLine st ln).lineNumber = st.lineNumber + 1 := by
  unfold incorporateLine
  try dsimp only
  repeat' split
  all_goals (first | rfl | simp)

@[simp] theorem lN_finalLoop (st : PState) (len fuel : Nat) :
    (finalLoop st len fuel).lineNumber = st.lineNumber := by
  induction fuel generalizing st with
  | zero => rfl
  | succ k ih =>
    unfold finalLoop
    try dsimp only
    repeat' split
    all_goals (first | rfl | simp [ih])

@[simp] theorem lN_processInlinesAux (st : PState) (w : List Nat)
    (fuel : Nat) :
    (processInlinesAux st w fuel).lineNumber = st.lineNumber := by
  induction fuel generalizing st w with
  | zero =>
    cases w
    · rfl
    · rfl
  | succ k ih =>
    cases w with
    | nil => rfl
    | cons b rest =>
      unfold processInlinesAux
      try dsimp only
      repeat' split
      all_goals (first | rfl | simp [ih])

@[simp] theorem lN_foldIncorporate (lines : List (List Char)) (st : PState) :
    (lines.foldl incorporateLine st).lineNumber =
      st.lineNumber + lines.length := by
  induction lines generalizing st with
  | nil => rfl
  | cons l rest ih =>
    simp [List.foldl_cons, ih]
    omega

/-- Claim C5: parse splits the input on line endings and incorporates one
line per kept segment: the final line_number equals the length of
processedLines; for non-empty input ending in a line feed, processedLines
is the split minus its trailing empty segment (one fewer than the split);
for input ending in a carriage return the trailing empty segment (a blank
line) is kept and incorporated too. -/
theorem C5_parse_line_split :
    (∀ s : String, (parse s).lineNumber = (processedLines s).length) ∧
    (∀ s : String, s.data ≠ [] → s.data.getLast? = some '\n' →
      processedLines s = (splitLines s.data).dropLast ∧
      (splitLines s.data).length = (processedLines s).length + 1) ∧
    (∀ s : String, s.data.getLast? = some '\r' →
      processedLines s = splitLines s.data ∧
      (splitLines s.data).getLast? = some [] ∧ is_blank [] = true) := by
  refine ⟨fun s => ?_, fun s hne hnl => ?_, fun s hcr => ?_⟩
  · unfold parse
    try dsimp only
    simp [processInlines]
  · have hcond : 0 < s.data.length ∧ s.data.getLast? = some '\n' :=
      ⟨List.length_pos.mpr hne, hnl⟩
    have hlen := (splitLines_last_eol s.data '\n' hnl (Or.inl rfl)).2
    constructor
    · unfold processedLines parseLength
      rw [if_pos hcond, List.dropLast_eq_take]
    · unfold processedLines parseLength
      rw [if_pos hcond]
      rw [List.length_take]
      omega
  · have hcond : ¬ (0 < s.data.length ∧ s.data.getLast? = some '\n') := by
      rintro ⟨-, h⟩
      rw [hcr] at h
      injection h with h
      exact absurd h (by decide)
    have hr := splitLines_last_eol s.data '\r' hcr (Or.inr rfl)
    refine ⟨?_, hr.1, rfl⟩
    unfold processedLines parseLength
    rw [if_neg hcond, List.take_length]

theorem C5_witness :
    ("a\nb\n").data ≠ [] ∧ ("a\nb\n").data.getLast? = some '\n' ∧
    processedLines "a\nb\n" = (splitLines ("a\nb\n").data).dropLast ∧
    ("a\r").data.getLast? = some '\r' ∧
    processedLines "a\r" = splitLines ("a\r").data := by
  refine ⟨by decide, rfl, ?_, rfl, ?_⟩
  · exact (C5_parse_line_split.2.1 "a\nb\n" (by decide) rfl).1
  · exact (C5_parse_line_split.2.2 "a\r" rfl).1

end CM
namespace CM

/-- When maybeSpecial is false on a nonempty rest, its head is none of
the special characters and is not a digit. -/
theorem maybeSpecial_head (c : Char) (tl : List Char)
    (h : maybeSpecial (c :: tl) = false) :
    ¬ c = '#' ∧ ¬ c = btick ∧ ¬ c = '~' ∧ ¬ c = '*' ∧ ¬ c = '+' ∧
    ¬ c = '_' ∧ ¬ c = '=' ∧ ¬ c = '<' ∧ ¬ c = '>' ∧ ¬ c = '-' ∧
    isDigitCh c = false := by
  simp only [maybeSpecial, decide_eq_false_iff_not] at h
  push_neg at h
  obtain ⟨h1, h2, h3, h4, h5, h6, h7, h8, h9, h10, h11⟩ := h
  exact ⟨h1, h2, h3, h4, h5, h6, h7, h8, h9, h10, by simpa using h11⟩

/-- Under the fast-skip condition the block-quote start does not fire. -/
theorem skip_tryBlockQuote (st : PState) (c : Nat)
    (hms : maybeSpecial (st.currentLine.drop st.nextNonspace) = false) :
    tryBlockQuote st c = (st, 0) := by
  unfold tryBlockQuote
  rw [if_neg]
  rintro ⟨-, hp⟩
  rw [peek_eq_head_drop] at hp
  cases hd : st.currentLine.drop st.nextNonspace with
  | nil => rw [hd] at hp; cases hp
  | cons a tl =>
    rw [hd] at hp hms
    simp only [List.head?_cons, Option.some.injEq] at hp
    exact (maybeSpecial_head a tl hms).2.2.2.2.2.2.2.2.1 hp

/-- Under the fast-skip condition the ATX-heading start does not fire. -/
theorem skip_tryATXHeading (st : PState) (c : Nat)
    (hms : maybeSpecial (st.currentLine.drop st.nextNonspace) = false) :
    tryATXHeading st c = (st, 0) := by
  have hax : atxMatch (st.currentLine.drop st.nextNonspace) = none := by
    cases hd : st.currentLine.drop st.nextNonspace with
    | nil => rfl
    | cons a tl =>
      rw [hd] at hms
      have ha := (maybeSpecial_head a tl hms).1
      unfold atxMatch
      rw [show runLen '#' (a :: tl) = 0 by
        unfold runLen; rw [if_neg ha]]
      rw [if_neg]
      rintro ⟨h1, -⟩
      cases h1
  unfold tryATXHeading
  split
  · rw [hax]
  · rfl

/-- Under the fast-skip condition the fenced-code start does not fire. -/
theorem skip_tryFencedCode (st : PState) (c : Nat)
    (hms : maybeSpecial (st.currentLine.drop st.nextNonspace) = false) :
    tryFencedCode st c = (st, 0) := by
  have hcf : codeFenceMatch (st.currentLine.drop st.nextNonspace) = none := by
    cases hd : st.currentLine.drop st.nextNonspace with
    | nil => rfl
    | cons a tl =>
      rw [hd] at hms
      have h := maybeSpecial_head a tl hms
      unfold codeFenceMatch
      dsimp only
      rw [if_neg]
      rintro (hb | ht)
      · exact h.2.1 hb
      · exact h.2.2.1 ht
  unfold tryFencedCode
  split
  · rw [hcf]
  · rfl

/-- Under the fast-skip condition the HTML-block start does not fire. -/
theorem skip_tryHtmlBlock (st : PState) (c : Nat)
    (hms : maybeSpecial (st.currentLine.drop st.nextNonspace) = false) :
    tryHtmlBlock st c = (st, 0) := by
  unfold tryHtmlBlock
  rw [if_neg]
  rintro ⟨-, hp⟩
  rw [peek_eq_head_drop] at hp
  cases hd : st.currentLine.drop st.nextNonspace with
  | nil => rw [hd] at hp; cases hp
  | cons a tl =>
    rw [hd] at hp hms
    simp only [List.head?_cons, Option.some.injEq] at hp
    exact (maybeSpecial_head a tl hms).2.2.2.2.2.2.2.1 hp

/-- Under the fast-skip condition the setext-heading start does not
fire. -/
theorem skip_trySetextHeading (st : PState) (c : Nat)
    (hms : maybeSpecial (st.currentLine.drop st.nextNonspace) = false) :
    trySetextHeading st c = (st, 0) := by
  have hse : setextMatch (st.currentLine.drop st.nextNonspace) = none := by
    cases hd : st.currentLine.drop st.nextNonspace with
    | nil => rfl
    | cons a tl =>
      rw [hd] at hms
      have h := maybeSpecial_head a tl hms
      unfold setextMatch
      dsimp only
      rw [if_neg]
      rintro (he | hm)
      · exact h.2.2.2.2.2.2.1 he
      · exact h.2.2.2.2.2.2.2.2.2.1 hm
  unfold trySetextHeading
  split
  · rw [hse]
  · rfl

/-- Under the fast-skip condition the thematic-break start does not
fire. -/
theorem skip_tryThematicBreak (st : PState) (c : Nat)
    (hms : maybeSpecial (st.currentLine.drop st.nextNonspace) = false) :
    tryThematicBreak st c = (st, 0) := by
  have htb : thematicMatch (st.currentLine.drop st.nextNonspace) = false := by
    cases hd : st.currentLine.drop st.nextNonspace with
    | nil => rfl
    | cons a tl =>
      rw [hd] at hms
      have h := maybeSpecial_head a tl hms
      simp only [thematicMatch, decide_eq_false_iff_not]
      rintro ⟨hs | hu | hm, -, -⟩
      · exact h.2.2.2.1 hs
      · exact h.2.2.2.2.2.1 hu
      · exact h.2.2.2.2.2.2.2.2.2.1 hm
  unfold tryThematicBreak
  rw [if_neg]
  rintro ⟨-, ht⟩
  rw [htb] at ht
  cases ht

/-- Under the fast-skip condition parse_list_marker finds no marker and
leaves the state unchanged. -/
theorem skip_parseListMarker (st : PState)
    (hms : maybeSpecial (st.currentLine.drop st.nextNonspace) = false) :
    parseListMarker st = (st, none) := by
  have hbm : bulletMatch (st.currentLine.drop st.nextNonspace) = none := by
    cases hd : st.currentLine.drop st.nextNonspace with
    | nil => rfl
    | cons a tl =>
      rw [hd] at hms
      have h := maybeSpecial_head a tl hms
      unfold bulletMatch
      dsimp only
      rw [if_neg]
      rintro (hs | hp | hm)
      · exact h.2.2.2.1 hs
      · exact h.2.2.2.2.1 hp
      · exact h.2.2.2.2.2.2.2.2.2.1 hm
  have hom : orderedMatch (st.currentLine.drop st.nextNonspace) = none := by
    cases hd : st.currentLine.drop st.nextNonspace with
    | nil => rfl
    | cons a tl =>
      rw [hd] at hms
      have h := (maybeSpecial_head a tl hms).2.2.2.2.2.2.2.2.2.2
      unfold orderedMatch
      rw [show digitRun (a :: tl) = [] by
        unfold digitRun; rw [h]; rfl]
      rw [if_neg]
      rintro ⟨h1, -⟩
      cases h1
  unfold parseListMarker
  dsimp only
  rw [hbm]
  dsimp only
  rw [hom]

/-- Under the fast-skip condition the list-item start does not fire. -/
theorem skip_tryListItem (st : PState) (c : Nat)
    (hms : maybeSpecial (st.currentLine.drop st.nextNonspace) = false) :
    tryListItem st c = (st, 0) := by
  unfold tryListItem
  split
  · rw [skip_parseListMarker st hms]
  · rfl

/-- With indented false the indented-code start does not fire. -/
theorem skip_tryIndentedCode (st : PState) (c : Nat)
    (hind : st.indented = false) :
    tryIndentedCode st c = (st, 0) := by
  unfold tryIndentedCode
  rw [if_neg]
  rintro ⟨h1, -⟩
  rw [hind] at h1
  cases h1

/-- Under the fast-skip condition no block start fires and the matcher
loop leaves the state unchanged. -/
theorem runStarts_skip (st : PState) (c : Nat)
    (hind : st.indented = false)
    (hms : maybeSpecial (st.currentLine.drop st.nextNonspace) = false) :
    runStartsAux st c startsList = (st, 0) := by
  simp [startsList, runStartsAux,
    skip_tryBlockQuote st c hms,
    skip_tryATXHeading st c hms,
    skip_tryFencedCode st c hms,
    skip_tryHtmlBlock st c hms,
    skip_trySetextHeading st c hms,
    skip_tryThematicBreak st c hms,
    skip_tryListItem st c hms,
    skip_tryIndentedCode st c hind]

/-- Claim C8: the fast-skip optimization is behavior-preserving: when
indented is false and no special character follows at next_nonspace,
every block start would return 0, so the phase-2 loop with the skip
equals the loop that always runs the matchers, on every state, container
and fuel. -/
theorem C8_fast_skip_refinement (st : PState) (c fuel : Nat) :
    phase2Loop st c fuel = phase2LoopNoSkip st c fuel := by
  induction fuel generalizing st c with
  | zero => rfl
  | succ k ih =>
    unfold phase2Loop
    dsimp only
    split
    · next h =>
      conv_rhs => unfold phase2LoopNoSkip
      dsimp only
      rw [runStarts_skip (findNextNonspace st) c (by simpa using h.1)
        (by simpa using h.2)]
      simp
    · next h =>
      conv_rhs => unfold phase2LoopNoSkip
      dsimp only
      simp only [ih]

end CM
namespace CM

/-- Out-of-bounds setN leaves the state unchanged. -/
theorem setN_oob (st : PState) (i : Nat) (n : Node)
    (h : ¬ i < st.arena.size) : setN st i n = st := by
  have ha : st.arena.set! i n = st.arena := by
    simp [Array.set!, Array.setD, h]
  show { st with arena := st.arena.set! i n } = st
  rw [ha]

@[simp] theorem size_modN (st : PState) (i : Nat) (f : Node → Node) :
    (modN st i f).arena.size = st.arena.size := by
  simp [modN]

/-- Reading back a modN through a state that differs from stA only
outside the arena. -/
theorem getN_modN_arena (stA stB : PState) (i : Nat) (f : Node → Node)
    (ha : stB.arena = stA.arena) (h : i < stA.arena.size) :
    getN (modN stB i f) i = f (getN stA i) := by
  have hB : i < stB.arena.size := by rw [ha]; exact h
  rw [getN_modN_self stB i f hB]
  rw [show getN stB i = getN stA i from by rw [getN, getN, ha]]

/-- A modN whose function keeps the open flag keeps the node's open
flag, across a state differing only outside the arena. -/
theorem modN_keepOpen (stA stB : PState) (i : Nat) (f : Node → Node)
    (ha : stB.arena = stA.arena) (h : i < stA.arena.size)
    (hf : ∀ n, (f n).isOpen = n.isOpen) :
    (getN (modN stB i f) i).isOpen = (getN stA i).isOpen := by
  rw [getN_modN_arena stA stB i f ha h]
  exact hf _

/-- A modN whose function keeps the source position keeps the node's
source position, across a state differing only outside the arena. -/
theorem modN_keepSpos (stA stB : PState) (i : Nat) (f : Node → Node)
    (ha : stB.arena = stA.arena) (h : i < stA.arena.size)
    (hf : ∀ n, (f n).sourcepos = n.sourcepos) :
    (getN (modN stB i f) i).sourcepos = (getN stA i).sourcepos := by
  rw [getN_modN_arena stA stB i f ha h]
  exact hf _

@[simp] theorem sz_unlink (st : PState) (b : Nat) :
    (unlink st b).arena.size = st.arena.size := by
  unfold unlink
  repeat' split
  all_goals simp

@[simp] theorem sz_listFinalize (st : PState) (b : Nat) :
    (listFinalize st b).arena.size = st.arena.size := by
  unfold listFinalize
  repeat' split
  all_goals simp

@[simp] theorem sz_codeBlockFinalize (st : PState) (b : Nat) :
    (codeBlockFinalize st b).arena.size = st.arena.size := by
  unfold codeBlockFinalize
  try dsimp only
  repeat' split
  all_goals (first | rfl | simp)

@[simp] theorem sz_htmlBlockFinalize (st : PState) (b : Nat) :
    (htmlBlockFinalize st b).arena.size = st.arena.size := by
  unfold htmlBlockFinalize
  try dsimp only
  repeat' split
  all_goals (first | rfl | simp)

@[simp] theorem sz_paragraphFinalize (st : PState) (b : Nat) :
    (paragraphFinalize st b).arena.size = st.arena.size := by
  unfold paragraphFinalize
  try dsimp only
  repeat' split
  all_goals (first | rfl | simp)

@[simp] theorem sz_blockFinalize (k : Kind) (st : PState) (b : Nat) :
    (blockFinalize k st b).arena.size = st.arena.size := by
  cases k <;> simp [blockFinalize]

@[simp] theorem sz_parserFinalize (st : PState) (b ln : Nat) :
    (parserFinalize st b ln).arena.size = st.arena.size := by
  unfold parserFinalize
  try dsimp only
  simp

@[simp] theorem lmc_setN (st : PState) (i : Nat) (n : Node) :
    (setN st i n).lastMatchedContainer = st.lastMatchedContainer := rfl

@[simp] theorem lmc_modN (st : PState) (i : Nat) (f : Node → Node) :
    (modN st i f).lastMatchedContainer = st.lastMatchedContainer := rfl

@[simp] theorem lmc_unlink (st : PState) (b : Nat) :
    (unlink st b).lastMatchedContainer = st.lastMatchedContainer := by
  unfold unlink
  repeat' split
  all_goals simp

@[simp] theorem lmc_listFinalize (st : PState) (b : Nat) :
    (listFinalize st b).lastMatchedContainer = st.lastMatchedContainer := by
  unfold listFinalize
  repeat' split
  all_goals simp

@[simp] theorem lmc_codeBlockFinalize (st : PState) (b : Nat) :
    (codeBlockFinalize st b).lastMatchedContainer =
      st.lastMatchedContainer := by
  unfold codeBlockFinalize
  try dsimp only
  repeat' split
  all_goals (first | rfl | simp)

@[simp] theorem lmc_htmlBlockFinalize (st : PState) (b : Nat) :
    (htmlBlockFinalize st b).lastMatchedContainer =
      st.lastMatchedContainer := by
  unfold htmlBlockFinalize
  try dsimp only
  repeat' split
  all_goals (first | rfl | simp)

@[simp] theorem lmc_paragraphFinalize (st : PState) (b : Nat) :
    (paragraphFinalize st b).lastMatchedContainer =
      st.lastMatchedContainer := by
  unfold paragraphFinalize
  try dsimp only
  repeat' split
  all_goals (first | rfl | simp)

@[simp] theorem lmc_blockFinalize (k : Kind) (st : PState) (b : Nat) :
    (blockFinalize k st b).lastMatchedContainer =
      st.lastMatchedContainer := by
  cases k <;> simp [blockFinalize]

@[simp] theorem lmc_parserFinalize (st : PState) (b ln : Nat) :
    (parserFinalize st b ln).lastMatchedContainer =
      st.lastMatchedContainer := by
  unfold parserFinalize
  try dsimp only
  simp

@[simp] theorem lll_setN (st : PState) (i : Nat) (n : Node) :
    (setN st i n).lastLineLength = st.lastLineLength := rfl

@[simp] theorem lll_modN (st : PState) (i : Nat) (f : Node → Node) :
    (modN st i f).lastLineLength = st.lastLineLength := rfl

@[simp] theorem lll_unlink (st : PState) (b : Nat) :
    (unlink st b).lastLineLength = st.lastLineLength := by
  unfold unlink
  repeat' split
  all_goals simp

@[simp] theorem lll_listFinalize (st : PState) (b : Nat) :
    (listFinalize st b).lastLineLength = st.lastLineLength := by
  unfold listFinalize
  repeat' split
  all_goals simp

@[simp] theorem lll_codeBlockFinalize (st : PState) (b : Nat) :
    (codeBlockFinalize st b).lastLineLength = st.lastLineLength := by
  unfold codeBlockFinalize
  try dsimp only
  repeat' split
  all_goals (first | rfl | simp)

@[simp] theorem lll_htmlBlockFinalize (st : PState) (b : Nat) :
    (htmlBlockFinalize st b).lastLineLength = st.lastLineLength := by
  unfold htmlBlockFinalize
  try dsimp only
  repeat' split
  all_goals (first | rfl | simp)

@[simp] theorem lll_paragraphFinalize (st : PState) (b : Nat) :
    (paragraphFinalize st b).lastLineLength = st.lastLineLength := by
  unfold paragraphFinalize
  try dsimp only
  repeat' split
  all_goals (first | rfl | simp)

@[simp] theorem lll_blockFinalize (k : Kind) (st : PState) (b : Nat) :
    (blockFinalize k st b).lastLineLength = st.lastLineLength := by
  cases k <;> simp [blockFinalize]

@[simp] theorem lll_parserFinalize (st : PState) (b ln : Nat) :
    (parserFinalize st b ln).lastLineLength = st.lastLineLength := by
  unfold parserFinalize
  try dsimp only
  simp

/-- unlink changes no other node's parent, open flag or source
position. -/
theorem unlink_keep (st : PState) (b p : Nat) (hp : p ≠ b) :
    (getN (unlink st b) p).parent = (getN st p).parent ∧
    (getN (unlink st b) p).isOpen = (getN st p).isOpen ∧
    (getN (unlink st b) p).sourcepos = (getN st p).sourcepos := by
  unfold unlink
  split
  · rw [getN_modN_ne _ _ _ _ hp]
    exact ⟨rfl, rfl, rfl⟩
  · next q heq =>
    rw [getN_modN_ne _ _ _ _ hp]
    by_cases hpq : p = q
    · subst hpq
      by_cases hsz : p < st.arena.size
      · rw [getN_modN_self _ _ _ hsz]
        exact ⟨rfl, rfl, rfl⟩
      · rw [show modN st p _ = st from setN_oob st p _ hsz]
        exact ⟨rfl, rfl, rfl⟩
    · rw [getN_modN_ne _ _ _ _ hpq]
      exact ⟨rfl, rfl, rfl⟩

/-- unlink keeps its own node's open flag and source position. -/
theorem unlink_self (st : PState) (b : Nat) (hb : b < st.arena.size) :
    (getN (unlink st b) b).isOpen = (getN st b).isOpen ∧
    (getN (unlink st b) b).sourcepos = (getN st b).sourcepos := by
  unfold unlink
  split
  · rw [getN_modN_self _ _ _ hb]
    exact ⟨rfl, rfl⟩
  · next q heq =>
    rw [getN_modN_self _ _ _ (by simp only [size_modN]; exact hb)]
    by_cases hqb : b = q
    · subst hqb
      rw [getN_modN_self _ _ _ hb]
      exact ⟨rfl, rfl⟩
    · rw [getN_modN_ne _ _ _ _ hqb]
      exact ⟨rfl, rfl⟩

/-- List.finalize changes no other node. -/
theorem listFinalize_keep (st : PState) (b p : Nat) (hp : p ≠ b) :
    getN (listFinalize st b) p = getN st p := by
  unfold listFinalize
  split
  · exact getN_modN_ne _ _ _ _ hp
  · rfl

/-- List.finalize keeps its own node's open flag and source position. -/
theorem listFinalize_self (st : PState) (b : Nat) (hb : b < st.arena.size) :
    (getN (listFinalize st b) b).isOpen = (getN st b).isOpen ∧
    (getN (listFinalize st b) b).sourcepos = (getN st b).sourcepos := by
  unfold listFinalize
  split
  · rw [getN_modN_self _ _ _ hb]
    exact ⟨rfl, rfl⟩
  · exact ⟨rfl, rfl⟩

/-- CodeBlock.finalize changes no other node. -/
theorem codeBlockFinalize_keep (st : PState) (b p : Nat) (hp : p ≠ b) :
    getN (codeBlockFinalize st b) p = getN st p := by
  unfold codeBlockFinalize
  try dsimp only
  repeat' split
  all_goals (first | rfl | exact getN_setN_ne _ _ _ _ hp)

/-- CodeBlock.finalize keeps its own node's open flag and source
position. -/
theorem codeBlockFinalize_self (st : PState) (b : Nat)
    (hb : b < st.arena.size) :
    (getN (codeBlockFinalize st b) b).isOpen = (getN st b).isOpen ∧
    (getN (codeBlockFinalize st b) b).sourcepos = (getN st b).sourcepos := by
  unfold codeBlockFinalize
  try dsimp only
  repeat' split
  all_goals
    (first
      | exact ⟨rfl, rfl⟩
      | (rw [getN_setN_self _ _ _ hb]; exact ⟨rfl, rfl⟩))

/-- HtmlBlock.finalize changes no other node. -/
theorem htmlBlockFinalize_keep (st : PState) (b p : Nat) (hp : p ≠ b) :
    getN (htmlBlockFinalize st b) p = getN st p := by
  unfold htmlBlockFinalize
  try dsimp only
  repeat' split
  all_goals (first | rfl | exact getN_setN_ne _ _ _ _ hp)

/-- HtmlBlock.finalize keeps its own node's open flag and source
position. -/
theorem htmlBlockFinalize_self (st : PState) (b : Nat)
    (hb : b < st.arena.size) :
    (getN (htmlBlockFinalize st b) b).isOpen = (getN st b).isOpen ∧
    (getN (htmlBlockFinalize st b) b).sourcepos = (getN st b).sourcepos := by
  unfold htmlBlockFinalize
  try dsimp only
  repeat' split
  all_goals
    (first
      | exact ⟨rfl, rfl⟩
      | (rw [getN_setN_self _ _ _ hb]; exact ⟨rfl, rfl⟩))

/-- Paragraph.finalize changes no other node's parent, open flag or
source position (its unlink may touch the parent's child list). -/
theorem paragraphFinalize_keep (st : PState) (b p : Nat) (hp : p ≠ b) :
    (getN (paragraphFinalize st b) p).parent = (getN st p).parent ∧
    (getN (paragraphFinalize st b) p).isOpen = (getN st p).isOpen ∧
    (getN (paragraphFinalize st b) p).sourcepos = (getN st p).sourcepos := by
  unfold paragraphFinalize
  try dsimp only
  split
  · exact ⟨rfl, rfl, rfl⟩
  · split
    · refine ⟨(unlink_keep _ b p hp).1.trans ?_,
              (unlink_keep _ b p hp).2.1.trans ?_,
              (unlink_keep _ b p hp).2.2.trans ?_⟩ <;>
        (rw [getN_modN_ne _ _ _ _ hp]; try rfl)
    · refine ⟨?_, ?_, ?_⟩ <;> (rw [getN_modN_ne _ _ _ _ hp]; try rfl)

/-- Paragraph.finalize keeps its own node's open flag and source
position. -/
theorem paragraphFinalize_self (st : PState) (b : Nat)
    (hb : b < st.arena.size) :
    (getN (paragraphFinalize st b) b).isOpen = (getN st b).isOpen ∧
    (getN (paragraphFinalize st b) b).sourcepos = (getN st b).sourcepos := by
  unfold paragraphFinalize
  try dsimp only
  split
  · exact ⟨rfl, rfl⟩
  · split
    · constructor
      · refine (unlink_self _ b ?_).1.trans ?_
        · simp only [size_modN]
          exact hb
        · exact modN_keepOpen st _ b _ (by rfl) hb (fun n => rfl)
      · refine (unlink_self _ b ?_).2.trans ?_
        · simp only [size_modN]
          exact hb
        · exact modN_keepSpos st _ b _ (by rfl) hb (fun n => rfl)
    · exact ⟨modN_keepOpen st _ b _ (by rfl) hb (fun n => rfl),
             modN_keepSpos st _ b _ (by rfl) hb (fun n => rfl)⟩

/-- The kind-dispatch finalize changes no other node's parent, open flag
or source position. -/
theorem blockFinalize_keep (k : Kind) (st : PState) (b p : Nat)
    (hp : p ≠ b) :
    (getN (blockFinalize k st b) p).parent = (getN st p).parent ∧
    (getN (blockFinalize k st b) p).isOpen = (getN st p).isOpen ∧
    (getN (blockFinalize k st b) p).sourcepos = (getN st p).sourcepos := by
  cases k with
  | list =>
    simp only [blockFinalize]
    rw [listFinalize_keep st b p hp]
    exact ⟨rfl, rfl, rfl⟩
  | codeBlock =>
    simp only [blockFinalize]
    rw [codeBlockFinalize_keep st b p hp]
    exact ⟨rfl, rfl, rfl⟩
  | htmlBlock =>
    simp only [blockFinalize]
    rw [htmlBlockFinalize_keep st b p hp]
    exact ⟨rfl, rfl, rfl⟩
  | paragraph =>
    simp only [blockFinalize]
    exact paragraphFinalize_keep st b p hp
  | document => exact ⟨rfl, rfl, rfl⟩
  | blockQuote => exact ⟨rfl, rfl, rfl⟩
  | item => exact ⟨rfl, rfl, rfl⟩
  | heading => exact ⟨rfl, rfl, rfl⟩
  | thematicBreak => exact ⟨rfl, rfl, rfl⟩

/-- The kind-dispatch finalize keeps its own node's open flag and source
position. -/
theorem blockFinalize_self (k : Kind) (st : PState) (b : Nat)
    (hb : b < st.arena.size) :
    (getN (blockFinalize k st b) b).isOpen = (getN st b).isOpen ∧
    (getN (blockFinalize k st b) b).sourcepos = (getN st b).sourcepos := by
  cases k with
  | list => simp only [blockFinalize]; exact listFinalize_self st b hb
  | codeBlock =>
    simp only [blockFinalize]
    exact codeBlockFinalize_self st b hb
  | htmlBlock =>
    simp only [blockFinalize]
    exact htmlBlockFinalize_self st b hb
  | paragraph =>
    simp only [blockFinalize]
    exact paragraphFinalize_self st b hb
  | document => exact ⟨rfl, rfl⟩
  | blockQuote => exact ⟨rfl, rfl⟩
  | item => exact ⟨rfl, rfl⟩
  | heading => exact ⟨rfl, rfl⟩
  | thematicBreak => exact ⟨rfl, rfl⟩

/-- Parser.finalize changes no other node's parent, open flag or source
position. -/
theorem parserFinalize_keep (st : PState) (b ln p : Nat) (hp : p ≠ b) :
    (getN (parserFinalize st b ln) p).parent = (getN st p).parent ∧
    (getN (parserFinalize st b ln) p).isOpen = (getN st p).isOpen ∧
    (getN (parserFinalize st b ln) p).sourcepos = (getN st p).sourcepos := by
  unfold parserFinalize
  dsimp only
  refine ⟨(blockFinalize_keep _ _ b p hp).1.trans ?_,
          (blockFinalize_keep _ _ b p hp).2.1.trans ?_,
          (blockFinalize_keep _ _ b p hp).2.2.trans ?_⟩ <;>
    rw [getN_modN_ne _ _ _ _ hp]

/-- Parser.finalize closes its block and stamps the end position with the
given line and last_line_length. -/
theorem parserFinalize_self (st : PState) (b ln : Nat)
    (hb : b < st.arena.size) :
    (getN (parserFinalize st b ln) b).isOpen = false ∧
    (getN (parserFinalize st b ln) b).sourcepos.endLine = ln ∧
    (getN (parserFinalize st b ln) b).sourcepos.endCol =
      st.lastLineLength := by
  unfold parserFinalize
  dsimp only
  refine ⟨(blockFinalize_self _ _ b ?_).1.trans ?_,
          (congrArg SourcePos.endLine (blockFinalize_self _ _ b ?_).2).trans
            ?_,
          (congrArg SourcePos.endCol (blockFinalize_self _ _ b ?_).2).trans
            ?_⟩
  · simp only [size_modN]
    exact hb
  · exact congrArg Node.isOpen (getN_modN_self st b _ hb)
  · simp only [size_modN]
    exact hb
  · exact congrArg (fun n => n.sourcepos.endLine)
      (getN_modN_self st b _ hb)
  · simp only [size_modN]
    exact hb
  · exact congrArg (fun n => n.sourcepos.endCol)
      (getN_modN_self st b _ hb)

/-- The walk relation of close_unmatched_blocks: following parent links
from the oldtip, the listed blocks are visited in order before the target
(the last matched container) is reached. -/
def walkChain (st : PState) (tgt : Nat) : Option Nat → List Nat → Bool
  | o, [] => o = some tgt
  | o, b :: rest =>
    o = some b ∧ ¬ b = tgt ∧ walkChain st tgt (getN st b).parent rest

/-- walkChain only reads the parent links of the listed blocks. -/
theorem walkChain_congr (st2 st1 : PState) (tgt : Nat) (o : Option Nat)
    (cs : List Nat)
    (h : ∀ p ∈ cs, (getN st2 p).parent = (getN st1 p).parent) :
    walkChain st2 tgt o cs = walkChain st1 tgt o cs := by
  induction cs generalizing o with
  | nil => rfl
  | cons b rest ih =>
    simp only [walkChain]
    rw [decide_eq_decide]
    rw [h b (List.mem_cons_self b rest),
        ih (getN st1 b).parent
          (fun p hp => h p (List.mem_cons_of_mem b hp))]

/-- The close_unmatched_blocks walk: with a parent chain from oldtip to
the last matched container, the walk completes, finalizes exactly the
chain blocks at line_number - 1 with end column last_line_length, moves
oldtip to the target, and touches no other node's open flag or source
position. -/
theorem closeAux_spec (cs : List Nat) (st : PState) (tgt fuel : Nat)
    (htgt : st.lastMatchedContainer = tgt)
    (hch : walkChain st tgt st.oldtip cs = true)
    (hnd : cs.Nodup)
    (hsz : ∀ b ∈ cs, b < st.arena.size)
    (hf : cs.length < fuel) :
    (closeUnmatchedAux st fuel).2 = true ∧
    (closeUnmatchedAux st fuel).1.oldtip = some tgt ∧
    (closeUnmatchedAux st fuel).1.lineNumber = st.lineNumber ∧
    (closeUnmatchedAux st fuel).1.lastLineLength = st.lastLineLength ∧
    (∀ b ∈ cs,
      (getN (closeUnmatchedAux st fuel).1 b).isOpen = false ∧
      (getN (closeUnmatchedAux st fuel).1 b).sourcepos.endLine =
        st.lineNumber - 1 ∧
      (getN (closeUnmatchedAux st fuel).1 b).sourcepos.endCol =
        st.lastLineLength) ∧
    (∀ q, q ∉ cs →
      (getN (closeUnmatchedAux st fuel).1 q).isOpen = (getN st q).isOpen ∧
      (getN (closeUnmatchedAux st fuel).1 q).sourcepos =
        (getN st q).sourcepos) := by
  induction cs generalizing st fuel with
  | nil =>
    have hot : st.oldtip = some tgt := by
      simpa [walkChain] using hch
    cases fuel with
    | zero => simp at hf
    | succ f =>
      unfold closeUnmatchedAux
      rw [if_pos (by rw [hot, htgt])]
      refine ⟨rfl, hot, rfl, rfl, ?_, ?_⟩
      · intro b hb
        exact absurd hb (List.not_mem_nil b)
      · intro q hq
        exact ⟨rfl, rfl⟩
  | cons b rest ih =>
    simp only [walkChain, decide_eq_true_eq] at hch
    obtain ⟨hot, hbt, hrest⟩ := hch
    cases fuel with
    | zero => simp at hf
    | succ f =>
      unfold closeUnmatchedAux
      rw [if_neg (by
        rw [hot, htgt]
        intro h
        injection h with h
        exact hbt h)]
      rw [hot]
      dsimp only
      have hmem : b ∉ rest := (List.nodup_cons.mp hnd).1
      have hnd2 : rest.Nodup := (List.nodup_cons.mp hnd).2
      have hbsz : b < st.arena.size := hsz b (List.mem_cons_self b rest)
      have hkeep : ∀ p, p ≠ b →
          (getN { parserFinalize st b (st.lineNumber - 1) with
                  oldtip := (getN st b).parent } p).parent =
            (getN st p).parent ∧
          (getN { parserFinalize st b (st.lineNumber - 1) with
                  oldtip := (getN st b).parent } p).isOpen =
            (getN st p).isOpen ∧
          (getN { parserFinalize st b (st.lineNumber - 1) with
                  oldtip := (getN st b).parent } p).sourcepos =
            (getN st p).sourcepos :=
        fun p hp => parserFinalize_keep st b (st.lineNumber - 1) p hp
      have H := ih { parserFinalize st b (st.lineNumber - 1) with
                     oldtip := (getN st b).parent } f
        ((lmc_parserFinalize st b (st.lineNumber - 1)).trans htgt)
        ((walkChain_congr _ st tgt ((getN st b).parent) rest
            (fun p hp =>
              (hkeep p (ne_of_mem_of_not_mem hp hmem)).1)).trans hrest)
        hnd2
        (fun p hp =>
          lt_of_lt_of_eq (hsz p (List.mem_cons_of_mem b hp))
            (sz_parserFinalize st b (st.lineNumber - 1)).symm)
        (by simp only [List.length_cons] at hf; omega)
      obtain ⟨H1, H2, H3, H4, H5, H6⟩ := H
      refine ⟨H1, H2, ?_, ?_, ?_, ?_⟩
      · exact H3.trans (lN_parserFinalize st b (st.lineNumber - 1))
      · exact H4.trans (lll_parserFinalize st b (st.lineNumber - 1))
      · intro p hp
        rcases List.mem_cons.mp hp with hpb | hpr
        · subst hpb
          obtain ⟨f1, f2⟩ := H6 p hmem
          obtain ⟨s1, s2, s3⟩ :=
            parserFinalize_self st p (st.lineNumber - 1) hbsz
          exact ⟨f1.trans s1,
                 (congrArg SourcePos.endLine f2).trans s2,
                 (congrArg SourcePos.endCol f2).trans s3⟩
        · obtain ⟨o1, o2, o3⟩ := H5 p hpr
          refine ⟨o1, o2.trans ?_, o3.trans ?_⟩
          · exact congrArg (fun x => x - 1)
              (lN_parserFinalize st b (st.lineNumber - 1))
          · exact lll_parserFinalize st b (st.lineNumber - 1)
      · intro q hq
        have hq1 : q ≠ b := fun h => hq (h ▸ List.mem_cons_self b rest)
        have hq2 : q ∉ rest := fun h => hq (List.mem_cons_of_mem b h)
        obtain ⟨f1, f2⟩ := H6 q hq2
        obtain ⟨-, k2, k3⟩ := hkeep q hq1
        exact ⟨f1.trans k2, f2.trans k3⟩

/-- A state with all_closed already set is left unchanged by
close_unmatched_blocks. -/
theorem closeUnmatched_id (st : PState) (h : st.allClosed = true) :
    closeUnmatchedBlocks st = st := by
  unfold closeUnmatchedBlocks
  rw [if_neg]
  simp [h]

end CM

namespace CM

/-- Claim C6: close_unmatched_blocks is idempotent within a line: it
always leaves all_closed true, so a second call is the identity on the
whole parser state; with all_closed already true it changes nothing; and
when it does close blocks it finalizes exactly the parent chain from
oldtip up to (excluding) the last matched container, each block closed
with end line line_number - 1 and end column last_line_length, moving
oldtip to the last matched container. -/
theorem C6_close_unmatched_blocks (st : PState) (cs : List Nat)
    (hch : walkChain st st.lastMatchedContainer st.oldtip cs = true)
    (hnd : cs.Nodup)
    (hsz : ∀ b ∈ cs, b < st.arena.size)
    (hlen : cs.length ≤ st.arena.size) :
    (closeUnmatchedBlocks st).allClosed = true ∧
    closeUnmatchedBlocks (closeUnmatchedBlocks st) =
      closeUnmatchedBlocks st ∧
    (st.allClosed = true → closeUnmatchedBlocks st = st) ∧
    (st.allClosed = false →
      (closeUnmatchedBlocks st).oldtip = some st.lastMatchedContainer ∧
      ∀ b ∈ cs,
        (getN (closeUnmatchedBlocks st) b).isOpen = false ∧
        (getN (closeUnmatchedBlocks st) b).sourcepos.endLine =
          st.lineNumber - 1 ∧
        (getN (closeUnmatchedBlocks st) b).sourcepos.endCol =
          st.lastLineLength) := by
  by_cases hac : st.allClosed = true
  · have hid := closeUnmatched_id st hac
    refine ⟨by rw [hid]; exact hac, by rw [hid, hid], fun _ => hid, ?_⟩
    intro h
    rw [hac] at h
    cases h
  · have hacf : st.allClosed = false := by
      cases hAC : st.allClosed
      · rfl
      · exact absurd hAC hac
    have hfuel : cs.length < st.arena.size + 1 := by omega
    obtain ⟨H1, H2, H3, H4, H5, H6⟩ := closeAux_spec cs st
      st.lastMatchedContainer (st.arena.size + 1) rfl hch hnd hsz hfuel
    have hcb : closeUnmatchedBlocks st =
        { (closeUnmatchedAux st (st.arena.size + 1)).1 with
          allClosed := true } := by
      unfold closeUnmatchedBlocks
      rw [if_pos (by simp [hacf])]
      dsimp only
      rw [if_pos H1]
    refine ⟨?_, ?_, ?_, ?_⟩
    · rw [hcb]
    · exact closeUnmatched_id _ (by rw [hcb])
    · intro h
      exact absurd h hac
    · rintro -
      constructor
      · rw [hcb]
        exact H2
      · intro b hb
        obtain ⟨m1, m2, m3⟩ := H5 b hb
        rw [hcb]
        exact ⟨m1, m2, m3⟩

/-- A two-node state in the middle of a line: the paragraph 1 was not
matched, oldtip sits on it, the last matched container is the document. -/
def c6State : PState :=
  { arena := #[
      { t := .document, children := [1],
        sourcepos := { startLine := 1, startCol := 1 } },
      { t := .paragraph, parent := some 0,
        sourcepos := { startLine := 1, startCol := 1 },
        stringContent := some "x".data }],
    tip := some 1, oldtip := some 1, lastMatchedContainer := 0,
    allClosed := false, lineNumber := 2, lastLineLength := 1 }

/-- Witness for claim C6 at the concrete two-node state. -/
theorem C6_witness :
    walkChain c6State c6State.lastMatchedContainer c6State.oldtip [1] =
      true ∧
    ([1] : List Nat).Nodup ∧
    (∀ b ∈ ([1] : List Nat), b < c6State.arena.size) ∧
    ([1] : List Nat).length ≤ c6State.arena.size ∧
    (closeUnmatchedBlocks c6State).allClosed = true ∧
    closeUnmatchedBlocks (closeUnmatchedBlocks c6State) =
      closeUnmatchedBlocks c6State ∧
    (getN (closeUnmatchedBlocks c6State) 1).isOpen = false ∧
    (getN (closeUnmatchedBlocks c6State) 1).sourcepos.endLine = 1 ∧
    (getN (closeUnmatchedBlocks c6State) 1).sourcepos.endCol = 1 := by
  obtain ⟨A1, A2, -, A4⟩ := C6_close_unmatched_blocks c6State [1]
    (by rfl) (by decide) (by decide) (by decide)
  obtain ⟨-, hB2⟩ := A4 rfl
  obtain ⟨m1, m2, m3⟩ := hB2 1 (by decide)
  exact ⟨rfl, by decide, by decide, by decide, A1, A2, m1, m2, m3⟩

end CM
namespace CM

/-- A modN at j whose function keeps string_content changes no node's
string_content. -/
theorem modN_content_keep (st : PState) (j i : Nat) (f : Node → Node)
    (hf : ∀ n, (f n).stringContent = n.stringContent) :
    (getN (modN st j f) i).stringContent = (getN st i).stringContent := by
  by_cases hij : i = j
  · subst hij
    by_cases hsz : i < st.arena.size
    · rw [getN_modN_self _ _ _ hsz]
      exact hf _
    · rw [show modN st i f = st from setN_oob st i _ hsz]
  · rw [getN_modN_ne _ _ _ _ hij]

/-- unlink changes no node's string_content. -/
theorem unlink_content (st : PState) (b i : Nat) :
    (getN (unlink st b) i).stringContent = (getN st i).stringContent := by
  unfold unlink
  split
  · exact modN_content_keep st b i _ (fun n => rfl)
  · next q heq =>
    dsimp only
    refine Eq.trans
      (modN_content_keep
        (modN st q (fun n => { n with children := n.children.erase b }))
        b i (fun n => { n with parent := none }) (fun n => rfl)) ?_
    exact modN_content_keep st q i
      (fun n => { n with children := n.children.erase b }) (fun n => rfl)

/-- A modN whose function sets string_content to v sets the node's
string_content to v, across a state differing only outside the arena. -/
theorem modN_setContent (stA stB : PState) (i : Nat) (f : Node → Node)
    (ha : stB.arena = stA.arena) (h : i < stA.arena.size)
    (v : Option (List Char)) (hf : ∀ n, (f n).stringContent = v) :
    (getN (modN stB i f) i).stringContent = v := by
  rw [getN_modN_arena stA stB i f ha h]
  exact hf _

/-- A character list that contains a newline has a first newline index. -/
theorem contains_findIdx (c : List Char) (h : c.contains '\n' = true) :
    ∃ p, c.findIdx? (fun ch => ch = '\n') = some p := by
  cases hidx : c.findIdx? (fun ch => ch = '\n') with
  | some p => exact ⟨p, rfl⟩
  | none =>
    rw [List.findIdx?_eq_none_iff] at hidx
    have hmem : '\n' ∈ c := by simpa using h
    have h2 := hidx '\n' hmem
    simp at h2

/-- CodeBlock.finalize clears string_content whenever the content is a
string and a fenced block's content has a newline. -/
theorem cbF_clears (st : PState) (b : Nat) (c : List Char)
    (hb : b < st.arena.size)
    (hc : (getN st b).stringContent = some c)
    (hnl : (getN st b).isFenced = true → c.contains '\n' = true) :
    (getN (codeBlockFinalize st b) b).stringContent = none := by
  unfold codeBlockFinalize
  dsimp only
  by_cases hf : (getN st b).isFenced
  · rw [if_pos hf, hc]
    dsimp only
    obtain ⟨p, hp⟩ := contains_findIdx c (hnl hf)
    rw [hp]
    dsimp only
    rw [getN_setN_self _ _ _ hb]
  · rw [if_neg hf, hc]
    dsimp only
    rw [getN_setN_self _ _ _ hb]

/-- HtmlBlock.finalize clears string_content whenever the content is a
string. -/
theorem htmlF_clears (st : PState) (b : Nat) (c : List Char)
    (hb : b < st.arena.size)
    (hc : (getN st b).stringContent = some c) :
    (getN (htmlBlockFinalize st b) b).stringContent = none := by
  unfold htmlBlockFinalize
  dsimp only
  by_cases hfix : (getN st b).stringContent = some "<div>\n".data ∧
      (getN st b).sourcepos =
        { startLine := 1, startCol := 3, endLine := 1, endCol := 7 }
  · rw [if_pos hfix]
    dsimp only
    rw [getN_setN_self _ _ _ hb]
  · rw [if_neg hfix, hc]
    dsimp only
    rw [getN_setN_self _ _ _ hb]

/-- Paragraph.finalize keeps string_content a string whenever the content
was a string. -/
theorem paraF_keeps (st : PState) (b : Nat) (c : List Char)
    (hb : b < st.arena.size)
    (hc : (getN st b).stringContent = some c) :
    ∃ c2, (getN (paragraphFinalize st b) b).stringContent = some c2 := by
  unfold paragraphFinalize
  dsimp only
  rw [hc]
  dsimp only
  split
  · exact ⟨_, (unlink_content _ b b).trans
      (modN_setContent st _ b _ (by rfl) hb _ (fun n => rfl))⟩
  · exact ⟨_, modN_setContent st _ b _ (by rfl) hb _ (fun n => rfl)⟩

end CM

namespace CM

/-- Claim C2 amended: Parser.finalize clears string_content for CodeBlock
nodes (given content and, when fenced, a newline in it) and for HtmlBlock
nodes (given content), but a Paragraph node's string_content remains a
string after finalize - the paragraph clause of the claimed invariant
does not hold. -/
theorem C2_finalize_content (st : PState) (b ln : Nat)
    (hb : b < st.arena.size) :
    ((getN st b).t = .codeBlock →
      ∀ c, (getN st b).stringContent = some c →
        ((getN st b).isFenced = true → c.contains '\n' = true) →
        (getN (parserFinalize st b ln) b).stringContent = none) ∧
    ((getN st b).t = .htmlBlock →
      ∀ c, (getN st b).stringContent = some c →
        (getN (parserFinalize st b ln) b).stringContent = none) ∧
    ((getN st b).t = .paragraph →
      ∀ c, (getN st b).stringContent = some c →
        ∃ c2, (getN (parserFinalize st b ln) b).stringContent = some c2) := by
  unfold parserFinalize
  dsimp only
  refine ⟨?_, ?_, ?_⟩
  · intro ht c hc hnl
    have hkind : (getN (modN st b (fun n =>
        { n with isOpen := false,
                 sourcepos := { n.sourcepos with endLine := ln, endCol := st.lastLineLength } })) b).t =
        Kind.codeBlock := by
      rw [getN_modN_self _ _ _ hb]
      exact ht
    rw [hkind]
    simp only [blockFinalize]
    refine cbF_clears _ b c ?_ ?_ ?_
    · simp only [size_modN]
      exact hb
    · rw [getN_modN_self _ _ _ hb]
      exact hc
    · rw [getN_modN_self _ _ _ hb]
      exact hnl
  · intro ht c hc
    have hkind : (getN (modN st b (fun n =>
        { n with isOpen := false,
                 sourcepos := { n.sourcepos with endLine := ln, endCol := st.lastLineLength } })) b).t =
        Kind.htmlBlock := by
      rw [getN_modN_self _ _ _ hb]
      exact ht
    rw [hkind]
    simp only [blockFinalize]
    refine htmlF_clears _ b c ?_ ?_
    · simp only [size_modN]
      exact hb
    · rw [getN_modN_self _ _ _ hb]
      exact hc
  · intro ht c hc
    have hkind : (getN (modN st b (fun n =>
        { n with isOpen := false,
                 sourcepos := { n.sourcepos with endLine := ln, endCol := st.lastLineLength } })) b).t =
        Kind.paragraph := by
      rw [getN_modN_self _ _ _ hb]
      exact ht
    rw [hkind]
    simp only [blockFinalize]
    refine paraF_keeps _ b c ?_ ?_
    · simp only [size_modN]
      exact hb
    · rw [getN_modN_self _ _ _ hb]
      exact hc

/-- Claim C2 counterexample: parse "x" returns a tree whose paragraph
(the document's only child, an accepts_lines leaf) still carries
string_content "x\n", not None. -/
theorem C2_counterexample :
    acceptsLines (getN (parse "x") 1).t = true ∧
    (getN (parse "x") 1).parent = some 0 ∧
    (getN (parse "x") 0).children = [1] ∧
    (getN (parse "x") 1).t = .paragraph ∧
    (getN (parse "x") 1).stringContent = some ['x', '\n'] ∧
    (getN (parse "x") 1).stringContent ≠ none :=
  ⟨rfl, rfl, rfl, rfl, rfl,
   fun h => Option.noConfusion
     (show (some (['x', '\n'] : List Char) : Option (List Char)) = none
      from h)⟩

/-- Three finalized-kind nodes for the C2 witness. -/
def c2State : PState :=
  { arena := #[
      { t := .codeBlock, isFenced := true,
        stringContent := some "ab\ncd\n".data },
      { t := .htmlBlock, stringContent := some "<p>hi\n".data },
      { t := .paragraph, stringContent := some "hi\n".data }] }

/-- Witness for claim C2 at concrete CodeBlock, HtmlBlock and Paragraph
nodes. -/
theorem C2_witness :
    0 < c2State.arena.size ∧ 1 < c2State.arena.size ∧
    2 < c2State.arena.size ∧
    (getN (parserFinalize c2State 0 3) 0).stringContent = none ∧
    (getN (parserFinalize c2State 1 3) 1).stringContent = none ∧
    (∃ c2, (getN (parserFinalize c2State 2 3) 2).stringContent =
      some c2) := by
  refine ⟨by decide, by decide, by decide, ?_, ?_, ?_⟩
  · exact (C2_finalize_content c2State 0 3 (by decide)).1 rfl
      "ab\ncd\n".data rfl (fun hf => rfl)
  · exact (C2_finalize_content c2State 1 3 (by decide)).2.1 rfl
      "<p>hi\n".data rfl
  · exact (C2_finalize_content c2State 2 3 (by decide)).2.2 rfl
      "hi\n".data rfl

end CM
namespace CM

/-- Claim C3 amended: end positions come only from Parser.finalize, which
stamps exactly (ln, last_line_length) on the finalized node, leaves every
start position and every other node's source position unchanged; the line
components satisfy start ≤ end whenever the node is finalized at a line
no earlier than its start line, but the column components obey no such
order (see the counterexample). -/
theorem C3_sourcepos_amended (st : PState) (b ln : Nat)
    (hb : b < st.arena.size) :
    (getN (parserFinalize st b ln) b).sourcepos.endLine = ln ∧
    (getN (parserFinalize st b ln) b).sourcepos.endCol =
      st.lastLineLength ∧
    (getN (parserFinalize st b ln) b).sourcepos.startLine =
      (getN st b).sourcepos.startLine ∧
    (getN (parserFinalize st b ln) b).sourcepos.startCol =
      (getN st b).sourcepos.startCol ∧
    (∀ p, p ≠ b →
      (getN (parserFinalize st b ln) p).sourcepos =
        (getN st p).sourcepos) ∧
    ((getN st b).sourcepos.startLine ≤ ln →
      (getN (parserFinalize st b ln) b).sourcepos.startLine ≤
        (getN (parserFinalize st b ln) b).sourcepos.endLine) := by
  obtain ⟨s1, s2, s3⟩ := parserFinalize_self st b ln hb
  have hstart : (getN (parserFinalize st b ln) b).sourcepos.startLine =
      (getN st b).sourcepos.startLine ∧
      (getN (parserFinalize st b ln) b).sourcepos.startCol =
        (getN st b).sourcepos.startCol := by
    unfold parserFinalize
    dsimp only
    constructor
    · refine (congrArg SourcePos.startLine
        (blockFinalize_self _ _ b ?_).2).trans ?_
      · simp only [size_modN]
        exact hb
      · exact congrArg (fun n => n.sourcepos.startLine)
          (getN_modN_self st b _ hb)
    · refine (congrArg SourcePos.startCol
        (blockFinalize_self _ _ b ?_).2).trans ?_
      · simp only [size_modN]
        exact hb
      · exact congrArg (fun n => n.sourcepos.startCol)
          (getN_modN_self st b _ hb)
  refine ⟨s2, s3, hstart.1, hstart.2, ?_, ?_⟩
  · intro p hp
    exact (parserFinalize_keep st b ln p hp).2.2
  · intro hle
    rw [hstart.1, s2]
    exact hle

/-- Claim C3 counterexample: parse "" returns a Document whose source
position is [[1,1],[1,0]]: the start (1,1) is not lexicographically at
or before the end (1,0). -/
theorem C3_counterexample :
    (getN (parse "") 0).sourcepos.startLine = 1 ∧
    (getN (parse "") 0).sourcepos.startCol = 1 ∧
    (getN (parse "") 0).sourcepos.endLine = 1 ∧
    (getN (parse "") 0).sourcepos.endCol = 0 ∧
    ¬ ((getN (parse "") 0).sourcepos.startLine <
         (getN (parse "") 0).sourcepos.endLine ∨
       ((getN (parse "") 0).sourcepos.startLine =
          (getN (parse "") 0).sourcepos.endLine ∧
        (getN (parse "") 0).sourcepos.startCol ≤
          (getN (parse "") 0).sourcepos.endCol)) := by
  refine ⟨rfl, rfl, rfl, rfl, ?_⟩
  rw [show (getN (parse "") 0).sourcepos.startLine = 1 from rfl,
      show (getN (parse "") 0).sourcepos.startCol = 1 from rfl,
      show (getN (parse "") 0).sourcepos.endLine = 1 from rfl,
      show (getN (parse "") 0).sourcepos.endCol = 0 from rfl]
  decide

/-- Witness for claim C3 at a concrete finalize call: the code block of
c2State is stamped with end position (3, last_line_length) and keeps its
start position. -/
theorem C3_witness :
    0 < c2State.arena.size ∧
    ((getN (parserFinalize c2State 0 3) 0).sourcepos.endLine = 3 ∧
     (getN (parserFinalize c2State 0 3) 0).sourcepos.endCol =
       c2State.lastLineLength ∧
     (getN (parserFinalize c2State 0 3) 0).sourcepos.startLine =
       (getN c2State 0).sourcepos.startLine) ∧
    (getN c2State 0).sourcepos.startLine ≤ 3 ∧
    (getN (parserFinalize c2State 0 3) 0).sourcepos.startLine ≤
      (getN (parserFinalize c2State 0 3) 0).sourcepos.endLine := by
  obtain ⟨a1, a2, a3, a4, a5, a6⟩ := C3_sourcepos_amended c2State 0 3
    (by decide)
  exact ⟨by decide, ⟨a1, a2, a3⟩, by decide, a6 (by decide)⟩

end CM
namespace CM

/-- A node is good when, if it is a fenced code block with string
content, that content has a newline (so CodeBlock.finalize cannot hit
the str.index ValueError). -/
def good (st : PState) (i : Nat) : Prop :=
  (getN st i).t = .codeBlock → (getN st i).isFenced = true →
  ∀ c, (getN st i).stringContent = some c → c.contains '\n' = true

/-- Structural state invariant: parent links decrease, tip and oldtip
are in bounds. -/
def stInv (st : PState) : Prop :=
  (∀ i p, (getN st i).parent = some p → p < i) ∧
  (∀ o, st.tip = some o → o < st.arena.size) ∧
  (∀ o, st.oldtip = some o → o < st.arena.size) ∧
  0 < st.arena.size ∧ (getN st 0).t = .document

/-- Goodness of every node except a possible tracked exception. -/
def GE (st : PState) (xo : Option Nat) : Prop :=
  ∀ i, some i ≠ xo → good st i

theorem getN_arena (stA stB : PState) (h : stB.arena = stA.arena)
    (i : Nat) : getN stB i = getN stA i := by
  rw [getN, getN, h]

theorem good_arena (stA stB : PState) (h : stB.arena = stA.arena)
    (i : Nat) (hg : good stA i) : good stB i := by
  unfold good
  rw [getN_arena stA stB h]
  exact hg

theorem getN_oob (st : PState) (i : Nat) (h : ¬ i < st.arena.size) :
    getN st i = default := by
  simp [getN, Array.getD, h]

theorem good_oob (st : PState) (i : Nat) (h : ¬ i < st.arena.size) :
    good st i := by
  intro ht hf c hc
  rw [getN_oob st i h] at hc
  exact absurd hc (by simp [default])

/-- setN at j keeps every other node good, and keeps j good when the
stored node is itself fine. -/
theorem good_setN_ne (st : PState) (j : Nat) (n : Node) (i : Nat)
    (hij : i ≠ j) (hg : good st i) : good (setN st j n) i := by
  unfold good
  rw [getN_setN_ne _ _ _ _ hij]
  exact hg

theorem good_modN_keep (st : PState) (j : Nat) (f : Node → Node) (i : Nat)
    (ht : ∀ n, (f n).t = n.t) (hfn : ∀ n, (f n).isFenced = n.isFenced)
    (hc : ∀ n, (f n).stringContent = n.stringContent)
    (hg : good st i) : good (modN st j f) i := by
  by_cases hij : i = j
  · subst hij
    by_cases hsz : i < st.arena.size
    · unfold good
      rw [getN_modN_self _ _ _ hsz, ht, hfn, hc]
      exact hg
    · rw [show modN st i f = st from setN_oob st i _ hsz]
      exact hg
  · unfold good
    rw [getN_modN_ne _ _ _ _ hij]
    exact hg

/-- Fields untouched by parserFinalize: kind and fencedness of any node,
string content of other nodes. -/
theorem modN_t_keep (st : PState) (j i : Nat) (f : Node → Node)
    (hf : ∀ n, (f n).t = n.t) :
    (getN (modN st j f) i).t = (getN st i).t := by
  by_cases hij : i = j
  · subst hij
    by_cases hsz : i < st.arena.size
    · rw [getN_modN_self _ _ _ hsz]
      exact hf _
    · rw [show modN st i f = st from setN_oob st i _ hsz]
  · rw [getN_modN_ne _ _ _ _ hij]

theorem modN_fenced_keep (st : PState) (j i : Nat) (f : Node → Node)
    (hf : ∀ n, (f n).isFenced = n.isFenced) :
    (getN (modN st j f) i).isFenced = (getN st i).isFenced := by
  by_cases hij : i = j
  · subst hij
    by_cases hsz : i < st.arena.size
    · rw [getN_modN_self _ _ _ hsz]
      exact hf _
    · rw [show modN st i f = st from setN_oob st i _ hsz]
  · rw [getN_modN_ne _ _ _ _ hij]

end CM

namespace CM

/-- Transfer of the structural invariant across equal arena, tip and
oldtip. -/
theorem stInv_transfer (stA stB : PState) (ha : stB.arena = stA.arena)
    (ht : stB.tip = stA.tip) (ho : stB.oldtip = stA.oldtip)
    (h : stInv stA) : stInv stB := by
  obtain ⟨hM, hT, hO, hS, hD⟩ := h
  refine ⟨?_, ?_, ?_, ?_, ?_⟩
  · intro i p hpar
    rw [getN_arena stA stB ha] at hpar
    exact hM i p hpar
  · intro o hoo
    rw [ht] at hoo
    rw [ha]
    exact hT o hoo
  · intro o hoo
    rw [ho] at hoo
    rw [ha]
    exact hO o hoo
  · rw [ha]
    exact hS
  · rw [getN_arena stA stB ha]
    exact hD

/-- A modN whose function keeps or clears the parent link preserves the
structural invariant. -/
theorem stInv_modN2 (st : PState) (j : Nat) (f : Node → Node)
    (hp : ∀ n, (f n).parent = n.parent ∨ (f n).parent = none)
    (htk : ∀ n, (f n).t = n.t)
    (h : stInv st) : stInv (modN st j f) := by
  obtain ⟨hM, hT, hO, hS, hD⟩ := h
  refine ⟨?_, ?_, ?_, ?_, ?_⟩
  · intro i p hpar
    by_cases hij : i = j
    · subst hij
      by_cases hsz : i < st.arena.size
      · rw [getN_modN_self _ _ _ hsz] at hpar
        rcases hp (getN st i) with he | he
        · rw [he] at hpar
          exact hM i p hpar
        · rw [he] at hpar
          cases hpar
      · rw [show modN st i f = st from setN_oob st i _ hsz] at hpar
        exact hM i p hpar
    · rw [getN_modN_ne _ _ _ _ hij] at hpar
      exact hM i p hpar
  · intro o ho
    have := hT o ho
    simpa using this
  · intro o ho
    have := hO o ho
    simpa using this
  · simpa using hS
  · rw [modN_t_keep st j 0 f htk]
    exact hD

/-- setN with a node keeping the old parent link preserves the
structural invariant. -/
theorem stInv_setN (st : PState) (j : Nat) (n : Node)
    (hp : n.parent = (getN st j).parent) (hnt : n.t = (getN st j).t)
    (h : stInv st) :
    stInv (setN st j n) := by
  obtain ⟨hM, hT, hO, hS, hD⟩ := h
  refine ⟨?_, ?_, ?_, ?_, ?_⟩
  · intro i p hpar
    by_cases hij : i = j
    · subst hij
      by_cases hsz : i < st.arena.size
      · rw [getN_setN_self _ _ _ hsz, hp] at hpar
        exact hM i p hpar
      · rw [show setN st i n = st from setN_oob st i n hsz] at hpar
        exact hM i p hpar
    · rw [getN_setN_ne _ _ _ _ hij] at hpar
      exact hM i p hpar
  · intro o ho
    have := hT o ho
    simpa using this
  · intro o ho
    have := hO o ho
    simpa using this
  · simpa using hS
  · by_cases hj0 : (0 : Nat) = j
    · subst hj0
      by_cases hsz : (0 : Nat) < st.arena.size
      · rw [getN_setN_self _ _ _ hsz, hnt]
        exact hD
      · rw [show setN st 0 n = st from setN_oob st 0 n hsz]
        exact hD
    · rw [getN_setN_ne _ _ _ _ (fun hh => hj0 hh)]
      exact hD

/-- unlink keeps every node good. -/
theorem good_unlink (st : PState) (b i : Nat) (hg : good st i) :
    good (unlink st b) i := by
  have hct : (getN (unlink st b) i).t = (getN st i).t := by
    unfold unlink
    split
    · exact modN_t_keep st b i _ (fun n => rfl)
    · next q heq =>
      dsimp only
      refine Eq.trans (modN_t_keep
        (modN st q (fun n => { n with children := n.children.erase b }))
        b i (fun n => { n with parent := none }) (fun n => rfl)) ?_
      exact modN_t_keep st q i
        (fun n => { n with children := n.children.erase b }) (fun n => rfl)
  have hcf : (getN (unlink st b) i).isFenced = (getN st i).isFenced := by
    unfold unlink
    split
    · exact modN_fenced_keep st b i _ (fun n => rfl)
    · next q heq =>
      dsimp only
      refine Eq.trans (modN_fenced_keep
        (modN st q (fun n => { n with children := n.children.erase b }))
        b i (fun n => { n with parent := none }) (fun n => rfl)) ?_
      exact modN_fenced_keep st q i
        (fun n => { n with children := n.children.erase b }) (fun n => rfl)
  unfold good
  rw [unlink_content st b i, hct, hcf]
  exact hg

/-- unlink preserves the structural invariant. -/
theorem stInv_unlink (st : PState) (b : Nat) (h : stInv st) :
    stInv (unlink st b) := by
  unfold unlink
  split
  · exact stInv_modN2 st b _ (fun n => Or.inr rfl) (fun n => rfl) h
  · next q heq =>
    dsimp only
    exact stInv_modN2
      (modN st q (fun n => { n with children := n.children.erase b }))
      b (fun n => { n with parent := none }) (fun n => Or.inr rfl)
      (fun n => rfl)
      (stInv_modN2 st q
        (fun n => { n with children := n.children.erase b })
        (fun n => Or.inl rfl) (fun n => rfl) h)

end CM

namespace CM

/-- unlink does not move the cursor state. -/
theorem unlink_flat (st : PState) (b : Nat) :
    (unlink st b).errNewline = st.errNewline ∧
    (unlink st b).tip = st.tip ∧ (unlink st b).oldtip = st.oldtip := by
  unfold unlink
  repeat' split
  all_goals exact ⟨rfl, rfl, rfl⟩

/-- List.finalize: spec for the safety development. -/
theorem listFinalize_spec (st : PState) (b : Nat) (h : stInv st) :
    (listFinalize st b).errNewline = st.errNewline ∧
    stInv (listFinalize st b) ∧
    (∀ i, good st i → good (listFinalize st b) i) ∧
    (listFinalize st b).arena.size = st.arena.size ∧
    (listFinalize st b).tip = st.tip ∧
    (listFinalize st b).oldtip = st.oldtip := by
  unfold listFinalize
  split
  · exact ⟨rfl, stInv_modN2 st b _ (fun n => Or.inl rfl) (fun n => rfl) h,
      fun i hg => good_modN_keep st b _ i (fun n => rfl) (fun n => rfl)
        (fun n => rfl) hg,
      by simp, rfl, rfl⟩
  · exact ⟨rfl, h, fun i hg => hg, rfl, rfl, rfl⟩

/-- CodeBlock.finalize: spec for the safety development; the newline
hypothesis rules out the ValueError branch. -/
theorem codeBlockFinalize_spec (st : PState) (b : Nat) (h : stInv st)
    (hgb : (getN st b).isFenced = true →
      ∀ c, (getN st b).stringContent = some c → c.contains '\n' = true) :
    (codeBlockFinalize st b).errNewline = st.errNewline ∧
    stInv (codeBlockFinalize st b) ∧
    (∀ i, good st i → good (codeBlockFinalize st b) i) ∧
    (codeBlockFinalize st b).arena.size = st.arena.size ∧
    (codeBlockFinalize st b).tip = st.tip ∧
    (codeBlockFinalize st b).oldtip = st.oldtip := by
  have hsetN : ∀ (nd : Node), nd.parent = (getN st b).parent →
      nd.t = (getN st b).t →
      nd.stringContent = none →
      stInv (setN st b nd) ∧
      (∀ i, good st i → good (setN st b nd) i) := by
    intro nd hpar hnt hcontent
    refine ⟨stInv_setN st b nd hpar hnt h, fun i hg => ?_⟩
    by_cases hib : i = b
    · subst hib
      intro ht hfen c2 hc2
      by_cases hsz : i < st.arena.size
      · rw [getN_setN_self _ _ _ hsz, hcontent] at hc2
        cases hc2
      · rw [show setN st i nd = st from setN_oob st i nd hsz]
          at ht hfen hc2
        exact hg ht hfen c2 hc2
    · exact good_setN_ne st b nd i hib hg
  unfold codeBlockFinalize
  dsimp only
  by_cases hf : (getN st b).isFenced
  · rw [if_pos hf]
    cases hc : (getN st b).stringContent with
    | none =>
      exact ⟨rfl, stInv_transfer st _ rfl rfl rfl h,
        fun i hg => good_arena st _ rfl i hg, rfl, rfl, rfl⟩
    | some c =>
      obtain ⟨p, hp⟩ := contains_findIdx c (hgb hf c hc)
      dsimp only
      rw [hp]
      dsimp only
      refine ⟨rfl, (hsetN _ (by rfl) (by rfl) (by rfl)).1, (hsetN _ (by rfl) (by rfl) (by rfl)).2, by simp,
        rfl, rfl⟩
  · rw [if_neg hf]
    cases hc : (getN st b).stringContent with
    | none =>
      exact ⟨rfl, stInv_transfer st _ rfl rfl rfl h,
        fun i hg => good_arena st _ rfl i hg, rfl, rfl, rfl⟩
    | some c =>
      dsimp only
      refine ⟨rfl, (hsetN _ (by rfl) (by rfl) (by rfl)).1, (hsetN _ (by rfl) (by rfl) (by rfl)).2, by simp,
        rfl, rfl⟩

/-- HtmlBlock.finalize: spec for the safety development. -/
theorem htmlBlockFinalize_spec (st : PState) (b : Nat) (h : stInv st) :
    (htmlBlockFinalize st b).errNewline = st.errNewline ∧
    stInv (htmlBlockFinalize st b) ∧
    (∀ i, good st i → good (htmlBlockFinalize st b) i) ∧
    (htmlBlockFinalize st b).arena.size = st.arena.size ∧
    (htmlBlockFinalize st b).tip = st.tip ∧
    (htmlBlockFinalize st b).oldtip = st.oldtip := by
  have hsetN : ∀ (nd : Node), nd.parent = (getN st b).parent →
      nd.t = (getN st b).t →
      nd.stringContent = none →
      stInv (setN st b nd) ∧
      (∀ i, good st i → good (setN st b nd) i) := by
    intro nd hpar hnt hcontent
    refine ⟨stInv_setN st b nd hpar hnt h, fun i hg => ?_⟩
    by_cases hib : i = b
    · subst hib
      intro ht hfen c2 hc2
      by_cases hsz : i < st.arena.size
      · rw [getN_setN_self _ _ _ hsz, hcontent] at hc2
        cases hc2
      · rw [show setN st i nd = st from setN_oob st i nd hsz]
          at ht hfen hc2
        exact hg ht hfen c2 hc2
    · exact good_setN_ne st b nd i hib hg
  unfold htmlBlockFinalize
  dsimp only
  by_cases hfix : (getN st b).stringContent = some "<div>\n".data ∧
      (getN st b).sourcepos =
        { startLine := 1, startCol := 3, endLine := 1, endCol := 7 }
  · rw [if_pos hfix]
    dsimp only
    refine ⟨rfl, (hsetN _ (by rfl) (by rfl) (by rfl)).1, (hsetN _ (by rfl) (by rfl) (by rfl)).2, by simp,
      rfl, rfl⟩
  · rw [if_neg hfix]
    cases hc : (getN st b).stringContent with
    | none =>
      exact ⟨rfl, stInv_transfer st _ rfl rfl rfl h,
        fun i hg => good_arena st _ rfl i hg, rfl, rfl, rfl⟩
    | some c =>
      dsimp only
      refine ⟨rfl, (hsetN _ (by rfl) (by rfl) (by rfl)).1, (hsetN _ (by rfl) (by rfl) (by rfl)).2, by simp,
        rfl, rfl⟩

end CM

namespace CM

/-- Core of the Paragraph.finalize spec, covering both the unlink and
the plain outcome. -/
theorem paraCore (st stP : PState) (b : Nat) (v : List Char)
    (haP : stP.arena = st.arena) (htP : stP.tip = st.tip)
    (hoP : stP.oldtip = st.oldtip) (heP : stP.errNewline = st.errNewline)
    (h : stInv st) (hkind : ¬ (getN st b).t = .codeBlock) (res : PState)
    (hres : res = unlink (modN stP b
        (fun n => { n with stringContent := some v })) b ∨
      res = modN stP b (fun n => { n with stringContent := some v })) :
    res.errNewline = st.errNewline ∧ stInv res ∧
    (∀ i, good st i → good res i) ∧
    res.arena.size = st.arena.size ∧
    res.tip = st.tip ∧ res.oldtip = st.oldtip := by
  have hInvP : stInv stP := stInv_transfer st stP haP htP hoP h
  have hInv2 : stInv (modN stP b
      (fun n => { n with stringContent := some v })) :=
    stInv_modN2 stP b _ (fun n => Or.inl rfl) (fun n => rfl) hInvP
  have hgood2 : ∀ i, good st i →
      good (modN stP b (fun n => { n with stringContent := some v })) i := by
    intro i hg
    by_cases hib : i = b
    · subst hib
      intro htc hfen c2 hc2
      have ht2 : (getN (modN stP i
          (fun n => { n with stringContent := some v })) i).t =
          (getN st i).t :=
        (modN_t_keep stP i i
            (fun n => { n with stringContent := some v })
            (fun n => rfl)).trans
          (congrArg Node.t (getN_arena st stP haP i))
      rw [ht2] at htc
      exact absurd htc hkind
    · unfold good
      rw [getN_modN_ne _ _ _ _ hib, getN_arena st stP haP]
      exact hg
  rcases hres with rfl | rfl
  · refine ⟨(unlink_flat _ b).1.trans heP,
      stInv_unlink _ b hInv2,
      fun i hg => good_unlink _ b i (hgood2 i hg),
      ?_, (unlink_flat _ b).2.1.trans htP,
      (unlink_flat _ b).2.2.trans hoP⟩
    simp only [sz_unlink, size_modN]
    rw [haP]
  · refine ⟨heP, hInv2, hgood2, ?_, htP, hoP⟩
    simp only [size_modN]
    rw [haP]

/-- Paragraph.finalize: spec for the safety development. -/
theorem paragraphFinalize_spec (st : PState) (b : Nat) (h : stInv st)
    (hkind : ¬ (getN st b).t = .codeBlock) :
    (paragraphFinalize st b).errNewline = st.errNewline ∧
    stInv (paragraphFinalize st b) ∧
    (∀ i, good st i → good (paragraphFinalize st b) i) ∧
    (paragraphFinalize st b).arena.size = st.arena.size ∧
    (paragraphFinalize st b).tip = st.tip ∧
    (paragraphFinalize st b).oldtip = st.oldtip := by
  unfold paragraphFinalize
  dsimp only
  cases hc : (getN st b).stringContent with
  | none =>
    exact ⟨rfl, stInv_transfer st _ rfl rfl rfl h,
      fun i hg => good_arena st _ rfl i hg, rfl, rfl, rfl⟩
  | some content =>
    dsimp only
    split
    · exact paraCore st _ b _ (by rfl) (by rfl) (by rfl) (by rfl) h hkind
        _ (Or.inl rfl)
    · exact paraCore st _ b _ (by rfl) (by rfl) (by rfl) (by rfl) h hkind
        _ (Or.inr rfl)

/-- finalize dispatch: spec for the safety development. -/
theorem blockFinalize_spec (k : Kind) (st : PState) (b : Nat)
    (h : stInv st) (hk : (getN st b).t = k) (hgood : good st b) :
    (blockFinalize k st b).errNewline = st.errNewline ∧
    stInv (blockFinalize k st b) ∧
    (∀ i, good st i → good (blockFinalize k st b) i) ∧
    (blockFinalize k st b).arena.size = st.arena.size ∧
    (blockFinalize k st b).tip = st.tip ∧
    (blockFinalize k st b).oldtip = st.oldtip := by
  cases k with
  | list =>
    simp only [blockFinalize]
    exact listFinalize_spec st b h
  | codeBlock =>
    simp only [blockFinalize]
    exact codeBlockFinalize_spec st b h (fun hf c hc => hgood hk hf c hc)
  | htmlBlock =>
    simp only [blockFinalize]
    exact htmlBlockFinalize_spec st b h
  | paragraph =>
    simp only [blockFinalize]
    refine paragraphFinalize_spec st b h ?_
    rw [hk]
    intro hcontra
    cases hcontra
  | document => exact ⟨rfl, h, fun i hg => hg, rfl, rfl, rfl⟩
  | blockQuote => exact ⟨rfl, h, fun i hg => hg, rfl, rfl, rfl⟩
  | item => exact ⟨rfl, h, fun i hg => hg, rfl, rfl, rfl⟩
  | heading => exact ⟨rfl, h, fun i hg => hg, rfl, rfl, rfl⟩
  | thematicBreak => exact ⟨rfl, h, fun i hg => hg, rfl, rfl, rfl⟩

/-- Parser.finalize: spec for the safety development: with the finalized
node good, the error flag is untouched, the invariant and all goodness
carry over, the arena size and oldtip are unchanged. -/
theorem parserFinalize_spec (st : PState) (b ln : Nat) (h : stInv st)
    (hgood : good st b) :
    (parserFinalize st b ln).errNewline = st.errNewline ∧
    stInv (parserFinalize st b ln) ∧
    (∀ i, good st i → good (parserFinalize st b ln) i) ∧
    (parserFinalize st b ln).arena.size = st.arena.size ∧
    (parserFinalize st b ln).oldtip = st.oldtip := by
  have hInv1 : stInv (modN st b (fun n =>
      { n with isOpen := false,
               sourcepos := { n.sourcepos with endLine := ln, endCol := st.lastLineLength } })) :=
    stInv_modN2 st b _ (fun n => Or.inl rfl) (fun n => rfl) h
  have hgood1 : ∀ i, good st i → good (modN st b (fun n =>
      { n with isOpen := false,
               sourcepos := { n.sourcepos with endLine := ln, endCol := st.lastLineLength } })) i :=
    fun i hg => good_modN_keep st b _ i (fun n => rfl) (fun n => rfl)
      (fun n => rfl) hg
  have B := blockFinalize_spec
    ((getN (modN st b (fun n =>
      { n with isOpen := false,
               sourcepos := { n.sourcepos with endLine := ln, endCol := st.lastLineLength } })) b).t)
    (modN st b (fun n =>
      { n with isOpen := false,
               sourcepos := { n.sourcepos with endLine := ln, endCol := st.lastLineLength } }))
    b hInv1 rfl (hgood1 b hgood)
  obtain ⟨B1, B2, B3, B4, B5, B6⟩ := B
  have hsz : (blockFinalize
      ((getN (modN st b (fun n =>
        { n with isOpen := false,
                 sourcepos := { n.sourcepos with endLine := ln, endCol := st.lastLineLength } })) b).t)
      (modN st b (fun n =>
        { n with isOpen := false,
                 sourcepos := { n.sourcepos with endLine := ln, endCol := st.lastLineLength } }))
      b).arena.size = st.arena.size := by
    rw [B4]
    simp only [size_modN]
  unfold parserFinalize
  dsimp only
  refine ⟨B1, ⟨B2.1, ?_, ?_, ?_, ?_⟩, ?_, hsz, B6⟩
  · intro o ho
    refine lt_of_lt_of_eq ?_ hsz.symm
    by_cases hbsz : b < st.arena.size
    · have hpar : (getN st b).parent = some o := ho
      exact lt_trans (h.1 b o hpar) hbsz
    · have hpar : (getN st b).parent = some o := ho
      rw [getN_oob st b hbsz] at hpar
      exact absurd (show (none : Option Nat) = some o from hpar) (by simp)
  · intro o ho
    have ho2 : st.oldtip = some o := B6.symm.trans ho
    exact lt_of_lt_of_eq (h.2.2.1 o ho2) hsz.symm
  · exact lt_of_lt_of_eq h.2.2.2.1 hsz.symm
  · exact B2.2.2.2.2
  · intro i hg
    exact good_arena _ _ rfl i (B3 i (hgood1 i hg))

end CM

namespace CM

/-- The close_unmatched_blocks walk: with every node good except a
possible tracked exception that the oldtip chain cannot reach, the walk
preserves the error flag, the invariant, goodness, the arena size and
the oldtip bound. -/
theorem closeAux_safe (st : PState) (xo : Option Nat) (fuel : Nat)
    (h : stInv st) (hq : GE st xo)
    (hox : ∀ x, xo = some x → ∀ o, st.oldtip = some o → o < x) :
    (closeUnmatchedAux st fuel).1.errNewline = st.errNewline ∧
    stInv (closeUnmatchedAux st fuel).1 ∧
    GE (closeUnmatchedAux st fuel).1 xo ∧
    (closeUnmatchedAux st fuel).1.arena.size = st.arena.size ∧
    (∀ x, xo = some x → ∀ o,
      (closeUnmatchedAux st fuel).1.oldtip = some o → o < x) := by
  induction fuel generalizing st with
  | zero =>
    exact ⟨rfl, stInv_transfer st _ rfl rfl rfl h,
      fun i hi => good_arena st _ rfl i (hq i hi), rfl, hox⟩
  | succ k ih =>
    unfold closeUnmatchedAux
    split
    · exact ⟨rfl, h, hq, rfl, hox⟩
    · split
      · exact ⟨rfl, stInv_transfer st _ rfl rfl rfl h,
          fun i hi => good_arena st _ rfl i (hq i hi), rfl, hox⟩
      · next ot hot =>
        dsimp only
        have hgot : good st ot := by
          apply hq
          intro hcontra
          exact absurd (hox ot hcontra.symm ot hot) (lt_irrefl ot)
        obtain ⟨P1, P2, P3, P4, P5⟩ :=
          parserFinalize_spec st ot (st.lineNumber - 1) h hgot
        have hInv2 : stInv { parserFinalize st ot (st.lineNumber - 1) with
            oldtip := (getN st ot).parent } := by
          obtain ⟨pM, pT, pO, pS, pD⟩ := P2
          refine ⟨pM, pT, ?_, pS, pD⟩
          intro o ho
          have hpar : (getN st ot).parent = some o := ho
          by_cases hosz : ot < st.arena.size
          · have hob : o < ot := h.1 ot o hpar
            exact lt_of_lt_of_eq (lt_trans hob hosz) P4.symm
          · rw [getN_oob st ot hosz] at hpar
            exact absurd (show (none : Option Nat) = some o from hpar)
              (by simp)
        have hq2 : GE { parserFinalize st ot (st.lineNumber - 1) with
            oldtip := (getN st ot).parent } xo :=
          fun i hi => good_arena _ _ rfl i (P3 i (hq i hi))
        have hox2 : ∀ x, xo = some x → ∀ o,
            ({ parserFinalize st ot (st.lineNumber - 1) with
               oldtip := (getN st ot).parent } : PState).oldtip = some o →
            o < x := by
          intro x hxo o ho
          have hpar : (getN st ot).parent = some o := ho
          by_cases hosz : ot < st.arena.size
          · exact lt_trans (h.1 ot o hpar) (hox x hxo ot hot)
          · rw [getN_oob st ot hosz] at hpar
            exact absurd (show (none : Option Nat) = some o from hpar)
              (by simp)
        obtain ⟨I1, I2, I3, I4, I5⟩ := ih _ hInv2 hq2 hox2
        exact ⟨I1.trans P1, I2, I3, I4.trans P4, I5⟩

/-- close_unmatched_blocks: same spec as the walk. -/
theorem closeUnmatched_safe (st : PState) (xo : Option Nat)
    (h : stInv st) (hq : GE st xo)
    (hox : ∀ x, xo = some x → ∀ o, st.oldtip = some o → o < x) :
    (closeUnmatchedBlocks st).errNewline = st.errNewline ∧
    stInv (closeUnmatchedBlocks st) ∧
    GE (closeUnmatchedBlocks st) xo ∧
    (closeUnmatchedBlocks st).arena.size = st.arena.size ∧
    (∀ x, xo = some x → ∀ o,
      (closeUnmatchedBlocks st).oldtip = some o → o < x) := by
  unfold closeUnmatchedBlocks
  split
  · dsimp only
    obtain ⟨A1, A2, A3, A4, A5⟩ :=
      closeAux_safe st xo (st.arena.size + 1) h hq hox
    split
    · refine ⟨A1, stInv_transfer _ _ rfl rfl rfl A2,
        fun i hi => good_arena _ _ rfl i (A3 i hi), A4, ?_⟩
      intro x hxo o ho
      exact A5 x hxo o ho
    · exact ⟨A1, A2, A3, A4, A5⟩
  · exact ⟨rfl, h, hq, rfl, hox⟩

/-- add_line: afterwards every node is good (the appended text ends in a
newline), provided the tracked exception, if any, is the tip. -/
theorem addLine_safe (st : PState) (xo : Option Nat)
    (h : stInv st) (hq : GE st xo)
    (htip : ∀ x, xo = some x → st.tip = some x) :
    (addLine st).errNewline = st.errNewline ∧ stInv (addLine st) ∧
    (∀ i, good (addLine st) i) ∧
    (addLine st).arena.size = st.arena.size ∧
    (addLine st).tip = st.tip ∧ (addLine st).oldtip = st.oldtip := by
  have hgfull : ∀ (st2 : PState), st2.arena = st.arena →
      (∀ x, xo = some x →
        ∀ c2, (getN st x).stringContent = some c2 → False) →
      ∀ i, good st2 i := by
    intro st2 ha hbad i
    cases hxo : xo with
    | none =>
      exact good_arena st st2 ha i (hq i (by simp [hxo]))
    | some x =>
      by_cases hix : i = x
      · subst hix
        intro ht hf c2 hc2
        rw [getN_arena st st2 ha] at hc2
        exact absurd hc2 (fun hh => hbad i hxo c2 hh)
      · exact good_arena st st2 ha i
          (hq i (by simp [hxo]; exact hix))
  unfold addLine
  dsimp only
  split
  · next heq =>
    refine ⟨rfl, stInv_transfer st _ rfl rfl rfl h, ?_, rfl, rfl, rfl⟩
    intro i
    cases hxo : xo with
    | none => exact good_arena st _ rfl i (hq i (by simp [hxo]))
    | some x =>
      exact absurd ((htip x hxo).symm.trans heq) (by simp)
  · next tp heq =>
    split
    · next heq2 =>
      refine ⟨rfl, stInv_transfer st _ rfl rfl rfl h, ?_, rfl, rfl, rfl⟩
      apply hgfull _ rfl
      intro x hxo c2 hc2
      have htx : tp = x := by
        have := (htip x hxo).symm.trans heq
        injection this with hh
        exact hh.symm
      rw [htx] at heq2
      rw [heq2] at hc2
      cases hc2
    · next content heq2 =>
      have hnew : (content ++ st.currentLine.drop st.offset ++
          ['\n']).contains '\n' = true := by
        have : '\n' ∈ content ++ st.currentLine.drop st.offset ++ ['\n'] :=
          List.mem_append.mpr (Or.inr (by simp))
        simpa using this
      refine ⟨rfl, stInv_modN2 st tp _ (fun n => Or.inl rfl) (fun n => rfl) h, ?_,
        by simp, rfl, rfl⟩
      intro i
      by_cases hitp : i = tp
      · subst hitp
        intro ht hf c2 hc2
        by_cases hsz : i < st.arena.size
        · rw [getN_modN_self _ _ _ hsz] at hc2
          have : some (content ++ st.currentLine.drop st.offset ++
              ['\n']) = some c2 := hc2
          injection this with hh
          rw [← hh]
          exact hnew
        · rw [show modN st i _ = st from setN_oob st i _ hsz] at hc2
          rw [getN_oob st i hsz] at hc2
          exact absurd hc2 (by simp [default])
      · have hgi : good st i := by
          cases hxo : xo with
          | none => exact hq i (by simp [hxo])
          | some x =>
            by_cases hix : i = x
            · subst hix
              have htx : tp = i := by
                have hh2 := (htip i hxo).symm.trans heq
                injection hh2 with hh
                exact hh.symm
              exact absurd htx.symm hitp
            · exact hq i (by simp [hxo]; exact hix)
        unfold good
        rw [getN_modN_ne _ _ _ _ hitp]
        exact hgi

end CM

namespace CM

@[simp] theorem ar_findNextNonspace (st : PState) :
    (findNextNonspace st).arena = st.arena := rfl

@[simp] theorem ar_advanceNextNonspace (st : PState) :
    (advanceNextNonspace st).arena = st.arena := rfl

@[simp] theorem ar_advanceOffset (st : PState) (c : Nat) (b : Bool) :
    (advanceOffset st c b).arena = st.arena := rfl

@[simp] theorem tp_findNextNonspace (st : PState) :
    (findNextNonspace st).tip = st.tip := rfl

@[simp] theorem tp_advanceNextNonspace (st : PState) :
    (advanceNextNonspace st).tip = st.tip := rfl

@[simp] theorem tp_advanceOffset (st : PState) (c : Nat) (b : Bool) :
    (advanceOffset st c b).tip = st.tip := rfl

@[simp] theorem ot_findNextNonspace (st : PState) :
    (findNextNonspace st).oldtip = st.oldtip := rfl

@[simp] theorem ot_advanceNextNonspace (st : PState) :
    (advanceNextNonspace st).oldtip = st.oldtip := rfl

@[simp] theorem ot_advanceOffset (st : PState) (c : Nat) (b : Bool) :
    (advanceOffset st c b).oldtip = st.oldtip := rfl

@[simp] theorem eN_findNextNonspace (st : PState) :
    (findNextNonspace st).errNewline = st.errNewline := rfl

@[simp] theorem eN_advanceNextNonspace (st : PState) :
    (advanceNextNonspace st).errNewline = st.errNewline := rfl

@[simp] theorem eN_advanceOffset (st : PState) (c : Nat) (b : Bool) :
    (advanceOffset st c b).errNewline = st.errNewline := rfl

@[simp] theorem tp_setN (st : PState) (i : Nat) (n : Node) :
    (setN st i n).tip = st.tip := rfl

@[simp] theorem tp_modN (st : PState) (i : Nat) (f : Node → Node) :
    (modN st i f).tip = st.tip := rfl

@[simp] theorem ot_setN (st : PState) (i : Nat) (n : Node) :
    (setN st i n).oldtip = st.oldtip := rfl

@[simp] theorem ot_modN (st : PState) (i : Nat) (f : Node → Node) :
    (modN st i f).oldtip = st.oldtip := rfl

@[simp] theorem eN_setN (st : PState) (i : Nat) (n : Node) :
    (setN st i n).errNewline = st.errNewline := rfl

@[simp] theorem eN_modN (st : PState) (i : Nat) (f : Node → Node) :
    (modN st i f).errNewline = st.errNewline := rfl

@[simp] theorem ar_cbSkipAux (st : PState) (n : Nat) :
    (cbSkipAux st n).arena = st.arena := by
  induction n generalizing st with
  | zero => rfl
  | succ k ih =>
    unfold cbSkipAux
    try dsimp only
    repeat' split
    all_goals (first | rfl | simp [ih])

@[simp] theorem ar_listSpacesAux (st : PState) (ssc fuel : Nat) :
    (listSpacesAux st ssc fuel).arena = st.arena := by
  induction fuel generalizing st with
  | zero => rfl
  | succ k ih =>
    unfold listSpacesAux
    try dsimp only
    repeat' split
    all_goals (first | rfl | simp [ih])

@[simp] theorem ar_parseListMarker (st : PState) :
    ((parseListMarker st).1).arena = st.arena := by
  unfold parseListMarker
  try dsimp only
  repeat' split
  all_goals (first | rfl | simp)

@[simp] theorem tp_cbSkipAux (st : PState) (n : Nat) :
    (cbSkipAux st n).tip = st.tip := by
  induction n generalizing st with
  | zero => rfl
  | succ k ih =>
    unfold cbSkipAux
    try dsimp only
    repeat' split
    all_goals (first | rfl | simp [ih])

@[simp] theorem tp_listSpacesAux (st : PState) (ssc fuel : Nat) :
    (listSpacesAux st ssc fuel).tip = st.tip := by
  induction fuel generalizing st with
  | zero => rfl
  | succ k ih =>
    unfold listSpacesAux
    try dsimp only
    repeat' split
    all_goals (first | rfl | simp [ih])

@[simp] theorem tp_parseListMarker (st : PState) :
    ((parseListMarker st).1).tip = st.tip := by
  unfold parseListMarker
  try dsimp only
  repeat' split
  all_goals (first | rfl | simp)

@[simp] theorem ot_cbSkipAux (st : PState) (n : Nat) :
    (cbSkipAux st n).oldtip = st.oldtip := by
  induction n generalizing st with
  | zero => rfl
  | succ k ih =>
    unfold cbSkipAux
    try dsimp only
    repeat' split
    all_goals (first | rfl | simp [ih])

@[simp] theorem ot_listSpacesAux (st : PState) (ssc fuel : Nat) :
    (listSpacesAux st ssc fuel).oldtip = st.oldtip := by
  induction fuel generalizing st with
  | zero => rfl
  | succ k ih =>
    unfold listSpacesAux
    try dsimp only
    repeat' split
    all_goals (first | rfl | simp [ih])

@[simp] theorem ot_parseListMarker (st : PState) :
    ((parseListMarker st).1).oldtip = st.oldtip := by
  unfold parseListMarker
  try dsimp only
  repeat' split
  all_goals (first | rfl | simp)

@[simp] theorem eN_cbSkipAux (st : PState) (n : Nat) :
    (cbSkipAux st n).errNewline = st.errNewline := by
  induction n generalizing st with
  | zero => rfl
  | succ k ih =>
    unfold cbSkipAux
    try dsimp only
    repeat' split
    all_goals (first | rfl | simp [ih])

@[simp] theorem eN_listSpacesAux (st : PState) (ssc fuel : Nat) :
    (listSpacesAux st ssc fuel).errNewline = st.errNewline := by
  induction fuel generalizing st with
  | zero => rfl
  | succ k ih =>
    unfold listSpacesAux
    try dsimp only
    repeat' split
    all_goals (first | rfl | simp [ih])

@[simp] theorem eN_parseListMarker (st : PState) :
    ((parseListMarker st).1).errNewline = st.errNewline := by
  unfold parseListMarker
  try dsimp only
  repeat' split
  all_goals (first | rfl | simp)

end CM

namespace CM

@[simp] theorem aC_setN (st : PState) (i : Nat) (n : Node) :
    (setN st i n).allClosed = st.allClosed := rfl

@[simp] theorem aC_modN (st : PState) (i : Nat) (f : Node → Node) :
    (modN st i f).allClosed = st.allClosed := rfl

@[simp] theorem aC_findNextNonspace (st : PState) :
    (findNextNonspace st).allClosed = st.allClosed := rfl

@[simp] theorem aC_advanceNextNonspace (st : PState) :
    (advanceNextNonspace st).allClosed = st.allClosed := rfl

@[simp] theorem aC_advanceOffset (st : PState) (c : Nat) (b : Bool) :
    (advanceOffset st c b).allClosed = st.allClosed := rfl

@[simp] theorem aC_cbSkipAux (st : PState) (n : Nat) :
    (cbSkipAux st n).allClosed = st.allClosed := by
  induction n generalizing st with
  | zero => rfl
  | succ k ih =>
    unfold cbSkipAux
    try dsimp only
    repeat' split
    all_goals (first | rfl | simp [ih])

@[simp] theorem aC_listSpacesAux (st : PState) (ssc fuel : Nat) :
    (listSpacesAux st ssc fuel).allClosed = st.allClosed := by
  induction fuel generalizing st with
  | zero => rfl
  | succ k ih =>
    unfold listSpacesAux
    try dsimp only
    repeat' split
    all_goals (first | rfl | simp [ih])

@[simp] theorem aC_parseListMarker (st : PState) :
    ((parseListMarker st).1).allClosed = st.allClosed := by
  unfold parseListMarker
  try dsimp only
  repeat' split
  all_goals (first | rfl | simp)

@[simp] theorem aC_unlink (st : PState) (b : Nat) :
    (unlink st b).allClosed = st.allClosed := by
  unfold unlink
  try dsimp only
  repeat' split
  all_goals (first | rfl | simp)

@[simp] theorem aC_listFinalize (st : PState) (b : Nat) :
    (listFinalize st b).allClosed = st.allClosed := by
  unfold listFinalize
  try dsimp only
  repeat' split
  all_goals (first | rfl | simp)

@[simp] theorem aC_codeBlockFinalize (st : PState) (b : Nat) :
    (codeBlockFinalize st b).allClosed = st.allClosed := by
  unfold codeBlockFinalize
  try dsimp only
  repeat' split
  all_goals (first | rfl | simp)

@[simp] theorem aC_htmlBlockFinalize (st : PState) (b : Nat) :
    (htmlBlockFinalize st b).allClosed = st.allClosed := by
  unfold htmlBlockFinalize
  try dsimp only
  repeat' split
  all_goals (first | rfl | simp)

@[simp] theorem aC_paragraphFinalize (st : PState) (b : Nat) :
    (paragraphFinalize st b).allClosed = st.allClosed := by
  unfold paragraphFinalize
  try dsimp only
  repeat' split
  all_goals (first | rfl | simp)

@[simp] theorem aC_addLine (st : PState) :
    (addLine st).allClosed = st.allClosed := by
  unfold addLine
  try dsimp only
  repeat' split
  all_goals (first | rfl | simp)

@[simp] theorem aC_blockFinalize (k : Kind) (st : PState) (b : Nat) :
    (blockFinalize k st b).allClosed = st.allClosed := by
  cases k <;> simp [blockFinalize]

@[simp] theorem aC_parserFinalize (st : PState) (b ln : Nat) :
    (parserFinalize st b ln).allClosed = st.allClosed := by
  unfold parserFinalize
  try dsimp only
  simp

/-- Reading below a push is unchanged; the pushed slot holds the new
node. -/
theorem getN_push_lt (st : PState) (n : Node) (i : Nat)
    (h : i < st.arena.size) :
    getN { st with arena := st.arena.push n } i = getN st i := by
  have h2 : i < (st.arena.push n).size := by
    simp
    omega
  simp only [getN, Array.getD, h, h2, dite_true]
  exact Array.getElem_push_lt _ _ _ h

theorem getN_push_self (st : PState) (n : Node) :
    getN { st with arena := st.arena.push n } st.arena.size = n := by
  have h2 : st.arena.size < (st.arena.push n).size := by simp
  simp only [getN, Array.getD, h2, dite_true]
  exact Array.getElem_push_eq _ _

end CM

namespace CM

/-- The finalize walk of add_child: under full goodness nothing changes
but closed blocks. -/
theorem addChildAux_safe (st : PState) (tag : Kind) (fuel : Nat)
    (h : stInv st) (hG : ∀ i, good st i) :
    (addChildAux st tag fuel).errNewline = st.errNewline ∧
    stInv (addChildAux st tag fuel) ∧
    (∀ i, good (addChildAux st tag fuel) i) ∧
    (addChildAux st tag fuel).arena.size = st.arena.size ∧
    (addChildAux st tag fuel).oldtip = st.oldtip ∧
    (addChildAux st tag fuel).allClosed = st.allClosed := by
  induction fuel generalizing st with
  | zero =>
    exact ⟨rfl, stInv_transfer st _ rfl rfl rfl h,
      fun i => good_arena st _ rfl i (hG i), rfl, rfl, rfl⟩
  | succ k ih =>
    unfold addChildAux
    split
    · exact ⟨rfl, stInv_transfer st _ rfl rfl rfl h,
        fun i => good_arena st _ rfl i (hG i), rfl, rfl, rfl⟩
    · next tp heq =>
      split
      · exact ⟨rfl, h, hG, rfl, rfl, rfl⟩
      · obtain ⟨P1, P2, P3, P4, P5⟩ :=
          parserFinalize_spec st tp (st.lineNumber - 1) h (hG tp)
        obtain ⟨I1, I2, I3, I4, I5, I6⟩ := ih _ P2 (fun i => P3 i (hG i))
        exact ⟨I1.trans P1, I2, I3, I4.trans P4, I5.trans P5,
          I6.trans (aC_parserFinalize st tp (st.lineNumber - 1))⟩

set_option maxHeartbeats 2000000 in
/-- add_child: under full goodness the new node is an open, unfenced
child with empty content, everything stays good, and the returned index
is the old arena size (or the tip is gone on the error path). -/
theorem addChild_safe (st : PState) (tag : Kind) (off : Nat)
    (h : stInv st) (hG : ∀ i, good st i) :
    ((addChild st tag off).1).errNewline = st.errNewline ∧
    stInv (addChild st tag off).1 ∧
    (∀ i, good (addChild st tag off).1 i) ∧
    ((addChild st tag off).1).oldtip = st.oldtip ∧
    ((addChild st tag off).1).allClosed = st.allClosed ∧
    st.arena.size ≤ ((addChild st tag off).1).arena.size ∧
    ((((addChild st tag off).1).tip = none ∧ (addChild st tag off).2 = 0) ∨
      (((addChild st tag off).1).tip = some (addChild st tag off).2 ∧
       (addChild st tag off).2 = st.arena.size ∧
       (getN (addChild st tag off).1 (addChild st tag off).2).t = tag ∧
       (getN (addChild st tag off).1
         (addChild st tag off).2).isFenced = false ∧
       (getN (addChild st tag off).1
         (addChild st tag off).2).stringContent = some [])) := by
  obtain ⟨A1, A2, A3, A4, A5, A6⟩ :=
    addChildAux_safe st tag (st.arena.size + 1) h hG
  unfold addChild
  dsimp only
  cases heq : (addChildAux st tag (st.arena.size + 1)).tip with
  | none =>
    dsimp only
    exact ⟨A1, stInv_transfer _ _ (by rfl) heq.symm (by rfl) A2,
      fun i => good_arena _ _ rfl i (A3 i), A5, A6,
      le_of_eq A4.symm, Or.inl ⟨rfl, rfl⟩⟩
  | some tp =>
    dsimp only
    have htp : tp < (addChildAux st tag (st.arena.size + 1)).arena.size :=
      A2.2.1 tp heq
    have hidxt : (getN (modN { (addChildAux st tag (st.arena.size + 1)) with arena := (addChildAux st tag (st.arena.size + 1)).arena.push { t := tag, parent := some tp, isOpen := true, sourcepos := { startLine := (addChildAux st tag (st.arena.size + 1)).lineNumber, startCol := off + 1, endLine := 0, endCol := 0 }, stringContent := some [] } } tp (fun n => { n with children := n.children ++ [(addChildAux st tag (st.arena.size + 1)).arena.size] })) (addChildAux st tag (st.arena.size + 1)).arena.size) = { t := tag, parent := some tp, isOpen := true, sourcepos := { startLine := (addChildAux st tag (st.arena.size + 1)).lineNumber, startCol := off + 1, endLine := 0, endCol := 0 }, stringContent := some [] } :=
      (getN_modN_ne { (addChildAux st tag (st.arena.size + 1)) with arena := (addChildAux st tag (st.arena.size + 1)).arena.push { t := tag, parent := some tp, isOpen := true, sourcepos := { startLine := (addChildAux st tag (st.arena.size + 1)).lineNumber, startCol := off + 1, endLine := 0, endCol := 0 }, stringContent := some [] } } tp (addChildAux st tag (st.arena.size + 1)).arena.size (fun n => { n with children := n.children ++ [(addChildAux st tag (st.arena.size + 1)).arena.size] })
        (fun hh => absurd (hh ▸ htp) (lt_irrefl _))).trans
        (getN_push_self (addChildAux st tag (st.arena.size + 1)) { t := tag, parent := some tp, isOpen := true, sourcepos := { startLine := (addChildAux st tag (st.arena.size + 1)).lineNumber, startCol := off + 1, endLine := 0, endCol := 0 }, stringContent := some [] })
    have hkeepN : ∀ i, i ≠ (addChildAux st tag (st.arena.size + 1)).arena.size →
        ((getN (modN { (addChildAux st tag (st.arena.size + 1)) with arena := (addChildAux st tag (st.arena.size + 1)).arena.push { t := tag, parent := some tp, isOpen := true, sourcepos := { startLine := (addChildAux st tag (st.arena.size + 1)).lineNumber, startCol := off + 1, endLine := 0, endCol := 0 }, stringContent := some [] } } tp (fun n => { n with children := n.children ++ [(addChildAux st tag (st.arena.size + 1)).arena.size] })) i).t = (getN (addChildAux st tag (st.arena.size + 1)) i).t ∧
         (getN (modN { (addChildAux st tag (st.arena.size + 1)) with arena := (addChildAux st tag (st.arena.size + 1)).arena.push { t := tag, parent := some tp, isOpen := true, sourcepos := { startLine := (addChildAux st tag (st.arena.size + 1)).lineNumber, startCol := off + 1, endLine := 0, endCol := 0 }, stringContent := some [] } } tp (fun n => { n with children := n.children ++ [(addChildAux st tag (st.arena.size + 1)).arena.size] })) i).isFenced = (getN (addChildAux st tag (st.arena.size + 1)) i).isFenced ∧
         (getN (modN { (addChildAux st tag (st.arena.size + 1)) with arena := (addChildAux st tag (st.arena.size + 1)).arena.push { t := tag, parent := some tp, isOpen := true, sourcepos := { startLine := (addChildAux st tag (st.arena.size + 1)).lineNumber, startCol := off + 1, endLine := 0, endCol := 0 }, stringContent := some [] } } tp (fun n => { n with children := n.children ++ [(addChildAux st tag (st.arena.size + 1)).arena.size] })) i).stringContent = (getN (addChildAux st tag (st.arena.size + 1)) i).stringContent ∧
         (getN (modN { (addChildAux st tag (st.arena.size + 1)) with arena := (addChildAux st tag (st.arena.size + 1)).arena.push { t := tag, parent := some tp, isOpen := true, sourcepos := { startLine := (addChildAux st tag (st.arena.size + 1)).lineNumber, startCol := off + 1, endLine := 0, endCol := 0 }, stringContent := some [] } } tp (fun n => { n with children := n.children ++ [(addChildAux st tag (st.arena.size + 1)).arena.size] })) i).parent = (getN (addChildAux st tag (st.arena.size + 1)) i).parent) := by
      intro i hne
      by_cases hlt : i < (addChildAux st tag (st.arena.size + 1)).arena.size
      · by_cases hit : i = tp
        · rw [hit]
          have hmod := getN_modN_self { (addChildAux st tag (st.arena.size + 1)) with arena := (addChildAux st tag (st.arena.size + 1)).arena.push { t := tag, parent := some tp, isOpen := true, sourcepos := { startLine := (addChildAux st tag (st.arena.size + 1)).lineNumber, startCol := off + 1, endLine := 0, endCol := 0 }, stringContent := some [] } } tp (fun n => { n with children := n.children ++ [(addChildAux st tag (st.arena.size + 1)).arena.size] })
            (by simp only [Array.size_push]; omega)
          have hpl := getN_push_lt (addChildAux st tag (st.arena.size + 1)) { t := tag, parent := some tp, isOpen := true, sourcepos := { startLine := (addChildAux st tag (st.arena.size + 1)).lineNumber, startCol := off + 1, endLine := 0, endCol := 0 }, stringContent := some [] } tp (by omega)
          refine ⟨?_, ?_, ?_, ?_⟩ <;>
          · rw [hmod]
            dsimp only
            rw [hpl]
        · have hne2 := getN_modN_ne { (addChildAux st tag (st.arena.size + 1)) with arena := (addChildAux st tag (st.arena.size + 1)).arena.push { t := tag, parent := some tp, isOpen := true, sourcepos := { startLine := (addChildAux st tag (st.arena.size + 1)).lineNumber, startCol := off + 1, endLine := 0, endCol := 0 }, stringContent := some [] } } tp i (fun n => { n with children := n.children ++ [(addChildAux st tag (st.arena.size + 1)).arena.size] }) hit
          have hpl := getN_push_lt (addChildAux st tag (st.arena.size + 1)) { t := tag, parent := some tp, isOpen := true, sourcepos := { startLine := (addChildAux st tag (st.arena.size + 1)).lineNumber, startCol := off + 1, endLine := 0, endCol := 0 }, stringContent := some [] } i hlt
          rw [hne2, hpl]
          exact ⟨rfl, rfl, rfl, rfl⟩
      · have hoob1 : ¬ i < ((modN { (addChildAux st tag (st.arena.size + 1)) with arena := (addChildAux st tag (st.arena.size + 1)).arena.push { t := tag, parent := some tp, isOpen := true, sourcepos := { startLine := (addChildAux st tag (st.arena.size + 1)).lineNumber, startCol := off + 1, endLine := 0, endCol := 0 }, stringContent := some [] } } tp (fun n => { n with children := n.children ++ [(addChildAux st tag (st.arena.size + 1)).arena.size] })) : PState).arena.size := by
          simp only [size_modN, Array.size_push]
          omega
        rw [getN_oob _ _ hoob1, getN_oob _ _ hlt]
        exact ⟨rfl, rfl, rfl, rfl⟩
    refine ⟨A1, ?_, ?_, A5, A6, ?_, Or.inr ⟨rfl, A4, ?_, ?_, ?_⟩⟩
    · refine ⟨?_, ?_, ?_, ?_, ?_⟩
      · intro i p hpar
        by_cases hidx : i = (addChildAux st tag (st.arena.size + 1)).arena.size
        · subst hidx
          have hpar2 : ({ t := tag, parent := some tp, isOpen := true, sourcepos := { startLine := (addChildAux st tag (st.arena.size + 1)).lineNumber, startCol := off + 1, endLine := 0, endCol := 0 }, stringContent := some [] } : Node).parent = some p :=
            (congrArg Node.parent hidxt).symm.trans hpar
          have hp2 : tp = p := Option.some.inj hpar2
          rw [← hp2]
          exact htp
        · exact A2.1 i p ((hkeepN i hidx).2.2.2.symm.trans hpar)
      · intro o ho
        have ho2 : some ((addChildAux st tag (st.arena.size + 1)).arena.size) = some o := ho
        have ho3 : o = (addChildAux st tag (st.arena.size + 1)).arena.size := by
          injection ho2 with hh
          exact hh.symm
        subst ho3
        simp only [size_modN, Array.size_push]
        omega
      · intro o ho
        have ho2 := A2.2.2.1 o ho
        simp only [size_modN, Array.size_push]
        omega
      · simp only [size_modN, Array.size_push]
        omega
      · have h0 : (0 : Nat) ≠ (addChildAux st tag (st.arena.size + 1)).arena.size := by
          have := A2.2.2.2.1
          omega
        exact ((hkeepN 0 h0).1).trans A2.2.2.2.2
    · intro i
      by_cases hidx : i = (addChildAux st tag (st.arena.size + 1)).arena.size
      · subst hidx
        intro ht hf
        have hf2 : ({ t := tag, parent := some tp, isOpen := true, sourcepos := { startLine := (addChildAux st tag (st.arena.size + 1)).lineNumber, startCol := off + 1, endLine := 0, endCol := 0 }, stringContent := some [] } : Node).isFenced = true :=
          (congrArg Node.isFenced hidxt).symm.trans hf
        exact absurd hf2 (by simp)
      · intro ht hf c hc
        exact A3 i ((hkeepN i hidx).1.symm.trans ht)
          ((hkeepN i hidx).2.1.symm.trans hf) c
          ((hkeepN i hidx).2.2.1.symm.trans hc)
    · have hsz2 : ((modN { (addChildAux st tag (st.arena.size + 1)) with arena := (addChildAux st tag (st.arena.size + 1)).arena.push { t := tag, parent := some tp, isOpen := true, sourcepos := { startLine := (addChildAux st tag (st.arena.size + 1)).lineNumber, startCol := off + 1, endLine := 0, endCol := 0 }, stringContent := some [] } } tp (fun n => { n with children := n.children ++ [(addChildAux st tag (st.arena.size + 1)).arena.size] })) : PState).arena.size =
          (addChildAux st tag (st.arena.size + 1)).arena.size + 1 := by
        simp only [size_modN, Array.size_push]
      show st.arena.size ≤ ((modN { (addChildAux st tag (st.arena.size + 1)) with arena := (addChildAux st tag (st.arena.size + 1)).arena.push { t := tag, parent := some tp, isOpen := true, sourcepos := { startLine := (addChildAux st tag (st.arena.size + 1)).lineNumber, startCol := off + 1, endLine := 0, endCol := 0 }, stringContent := some [] } } tp (fun n => { n with children := n.children ++ [(addChildAux st tag (st.arena.size + 1)).arena.size] })) : PState).arena.size
      rw [hsz2, A4]
      omega
    · exact congrArg Node.t hidxt
    · exact congrArg Node.isFenced hidxt
    · exact congrArg Node.stringContent hidxt

end CM

namespace CM

theorem GE_of_G (st : PState) (hG : ∀ i, good st i) : GE st none :=
  fun i _ => hG i

theorem G_of_GE (st : PState) (hq : GE st none) : ∀ i, good st i :=
  fun i => hq i (by simp)

/-- After the walk, either it completed or the oldtip is exhausted. -/
theorem closeAux_postOT (st : PState) (xo : Option Nat) (fuel : Nat)
    (h : stInv st) (hq : GE st xo)
    (hox : ∀ x, xo = some x → ∀ o, st.oldtip = some o → o < x)
    (hb : ∀ o, st.oldtip = some o → o < fuel) :
    (closeUnmatchedAux st fuel).2 = true ∨
    (closeUnmatchedAux st fuel).1.oldtip = none := by
  induction fuel generalizing st with
  | zero =>
    right
    cases ho : st.oldtip with
    | none => exact ho
    | some o => exact absurd (hb o ho) (by omega)
  | succ k ih =>
    unfold closeUnmatchedAux
    split
    · left
      rfl
    · split
      · next hot =>
        right
        exact hot
      · next ot hot =>
        dsimp only
        have hgot : good st ot := by
          apply hq
          intro hcontra
          exact absurd (hox ot hcontra.symm ot hot) (lt_irrefl ot)
        obtain ⟨P1, P2, P3, P4, P5⟩ :=
          parserFinalize_spec st ot (st.lineNumber - 1) h hgot
        have hInv2 : stInv { parserFinalize st ot (st.lineNumber - 1) with
            oldtip := (getN st ot).parent } := by
          obtain ⟨pM, pT, pO, pS, pD⟩ := P2
          refine ⟨pM, pT, ?_, pS, pD⟩
          intro o ho
          have hpar : (getN st ot).parent = some o := ho
          by_cases hosz : ot < st.arena.size
          · exact lt_of_lt_of_eq (lt_trans (h.1 ot o hpar) hosz) P4.symm
          · rw [getN_oob st ot hosz] at hpar
            exact absurd (show (none : Option Nat) = some o from hpar)
              (by simp)
        apply ih
        · exact hInv2
        · exact fun i hi => good_arena _ _ rfl i (P3 i (hq i hi))
        · intro x hxo o ho
          have hpar : (getN st ot).parent = some o := ho
          by_cases hosz : ot < st.arena.size
          · exact lt_trans (h.1 ot o hpar) (hox x hxo ot hot)
          · rw [getN_oob st ot hosz] at hpar
            exact absurd (show (none : Option Nat) = some o from hpar)
              (by simp)
        · intro o ho
          have hpar : (getN st ot).parent = some o := ho
          by_cases hosz : ot < st.arena.size
          · have h1 := h.1 ot o hpar
            have h2 := hb ot hot
            omega
          · rw [getN_oob st ot hosz] at hpar
            exact absurd (show (none : Option Nat) = some o from hpar)
              (by simp)

/-- close_unmatched_blocks leaves all_closed set or the oldtip gone. -/
theorem closeUnmatched_postAC (st : PState) (xo : Option Nat)
    (h : stInv st) (hq : GE st xo)
    (hox : ∀ x, xo = some x → ∀ o, st.oldtip = some o → o < x) :
    (closeUnmatchedBlocks st).allClosed = true ∨
    (closeUnmatchedBlocks st).oldtip = none := by
  unfold closeUnmatchedBlocks
  split
  · next hac =>
    dsimp only
    have hpost := closeAux_postOT st xo (st.arena.size + 1) h hq hox
      (fun o ho => by have := h.2.2.1 o ho; omega)
    split
    · left
      rfl
    · next hr2 =>
      rcases hpost with hp | hp
      · exact absurd hp hr2
      · right
        exact hp
  · next hac =>
    left
    cases hAC : st.allClosed
    · exact absurd (by rw [hAC]; intro hh; cases hh) hac
    · rfl

/-- With all_closed set or no oldtip, close_unmatched_blocks only
possibly sets the crash flag. -/
theorem closeUnmatched_noop (st : PState)
    (hac : st.allClosed = true ∨ st.oldtip = none) :
    closeUnmatchedBlocks st = st ∨
    closeUnmatchedBlocks st = { st with errState := true } := by
  rcases hac with hac | hot
  · left
    exact closeUnmatched_id st hac
  · unfold closeUnmatchedBlocks
    split
    · dsimp only
      rw [show closeUnmatchedAux st (st.arena.size + 1) =
          ({ st with errState := true }, false) from ?_]
      · right
        rfl
      · unfold closeUnmatchedAux
        rw [if_neg (by rw [hot]; intro hh; cases hh)]
        rw [hot]
    · left
      rfl

/-- insert_after changes no node's kind, fencedness or content. -/
theorem good_insertAfter (st : PState) (a b i : Nat) (hg : good st i) :
    good (insertAfter st a b) i := by
  unfold insertAfter
  split
  · exact good_arena st _ rfl i hg
  · next q heq =>
    dsimp only
    intro ht hf c hc
    have k1 : ∀ j, (getN (modN (modN st q (fun n =>
        { n with children := insertAfterList n.children a b })) b
        (fun n => { n with parent := some q })) j).t = (getN st j).t := by
      intro j
      refine Eq.trans (modN_t_keep _ b j _ (fun n => rfl)) ?_
      exact modN_t_keep st q j _ (fun n => rfl)
    have k2 : ∀ j, (getN (modN (modN st q (fun n =>
        { n with children := insertAfterList n.children a b })) b
        (fun n => { n with parent := some q })) j).isFenced =
        (getN st j).isFenced := by
      intro j
      refine Eq.trans (modN_fenced_keep _ b j _ (fun n => rfl)) ?_
      exact modN_fenced_keep st q j _ (fun n => rfl)
    have k3 : ∀ j, (getN (modN (modN st q (fun n =>
        { n with children := insertAfterList n.children a b })) b
        (fun n => { n with parent := some q })) j).stringContent =
        (getN st j).stringContent := by
      intro j
      refine Eq.trans (modN_content_keep _ b j _ (fun n => rfl)) ?_
      exact modN_content_keep st q j _ (fun n => rfl)
    rw [k1] at ht
    rw [k2] at hf
    rw [k3] at hc
    exact hg ht hf c hc

end CM

namespace CM

/-- Pushing a parentless node preserves the structural invariant. -/
theorem stInv_push (st : PState) (nd : Node) (h : stInv st)
    (hp : nd.parent = none) :
    stInv { st with arena := st.arena.push nd } := by
  refine ⟨?_, ?_, ?_, ?_, ?_⟩
  · intro i p hpar
    by_cases hlt : i < st.arena.size
    · rw [getN_push_lt _ _ _ hlt] at hpar
      exact h.1 i p hpar
    · by_cases hie : i = st.arena.size
      · subst hie
        rw [getN_push_self, hp] at hpar
        cases hpar
      · have hoob : ¬ i < ({ st with
            arena := st.arena.push nd } : PState).arena.size := by
          simp only [Array.size_push]
          omega
        rw [getN_oob _ _ hoob] at hpar
        exact absurd (show (none : Option Nat) = some p from hpar) (by simp)
  · intro o ho
    have := h.2.1 o ho
    simp only [Array.size_push]
    omega
  · intro o ho
    have := h.2.2.1 o ho
    simp only [Array.size_push]
    omega
  · have := h.2.2.2.1
    simp only [Array.size_push]
    omega
  · rw [getN_push_lt _ _ _ h.2.2.2.1]
    exact h.2.2.2.2

/-- Pushing a non-code-block node preserves goodness. -/
theorem good_push (st : PState) (nd : Node) (hnt : ¬ nd.t = .codeBlock)
    (hG : ∀ i, good st i) :
    ∀ i, good { st with arena := st.arena.push nd } i := by
  intro i
  by_cases hlt : i < st.arena.size
  · intro ht hf c hc
    rw [getN_push_lt _ _ _ hlt] at ht hf hc
    exact hG i ht hf c hc
  · by_cases hie : i = st.arena.size
    · subst hie
      intro ht
      rw [getN_push_self] at ht
      exact absurd ht hnt
    · exact good_oob _ i (by simp only [Array.size_push]; omega)

/-- insert_after preserves the structural invariant when the inserted
node is above the sibling's parent. -/
theorem stInv_insertAfter (st : PState) (a b : Nat) (h : stInv st)
    (hpb : ∀ p, (getN st a).parent = some p → p < b) :
    stInv (insertAfter st a b) := by
  unfold insertAfter
  split
  · exact stInv_transfer st _ (by rfl) (by rfl) (by rfl) h
  · next q heq =>
    dsimp only
    have h1 : stInv (modN st q (fun n =>
        { n with children := insertAfterList n.children a b })) :=
      stInv_modN2 st q _ (fun n => Or.inl rfl) (fun n => rfl) h
    obtain ⟨hM, hT, hO, hS, hD⟩ := h1
    refine ⟨?_, ?_, ?_, ?_, ?_⟩
    · intro i p hpar
      by_cases hib : i = b
      · subst hib
        by_cases hsz : i < (modN st q (fun n =>
            { n with children := insertAfterList n.children a i })).arena.size
        · rw [getN_modN_self _ _ _ hsz] at hpar
          have hqp : q = p := Option.some.inj hpar
          rw [← hqp]
          exact hpb q heq
        · rw [show modN (modN st q (fun n =>
              { n with children := insertAfterList n.children a i })) i
              (fun n => { n with parent := some q }) =
              modN st q (fun n =>
                { n with children := insertAfterList n.children a i })
              from setN_oob _ i _ hsz] at hpar
          exact hM i p hpar
      · rw [getN_modN_ne _ _ _ _ hib] at hpar
        exact hM i p hpar
    · intro o ho
      have := hT o ho
      simpa using this
    · intro o ho
      have := hO o ho
      simpa using this
    · simpa using hS
    · by_cases hb0 : (0 : Nat) = b
      · subst hb0
        rw [show (0 : Nat) = 0 from rfl]
        refine Eq.trans (modN_t_keep _ 0 0 (fun n =>
          { n with parent := some q }) (fun n => rfl)) ?_
        exact hD
      · rw [getN_modN_ne _ _ _ _ (fun hh => hb0 hh)]
        exact hD

end CM

namespace CM

@[simp] theorem eN_unlink (st : PState) (b : Nat) :
    (unlink st b).errNewline = st.errNewline := by
  unfold unlink
  split <;> simp

@[simp] theorem tp_unlink (st : PState) (b : Nat) :
    (unlink st b).tip = st.tip := by
  unfold unlink
  split <;> simp

@[simp] theorem ot_unlink (st : PState) (b : Nat) :
    (unlink st b).oldtip = st.oldtip := by
  unfold unlink
  split <;> simp

@[simp] theorem sz_insertAfter (st : PState) (a b : Nat) :
    (insertAfter st a b).arena.size = st.arena.size := by
  unfold insertAfter
  split <;> simp

@[simp] theorem eN_insertAfter (st : PState) (a b : Nat) :
    (insertAfter st a b).errNewline = st.errNewline := by
  unfold insertAfter
  split <;> simp

@[simp] theorem tp_insertAfter (st : PState) (a b : Nat) :
    (insertAfter st a b).tip = st.tip := by
  unfold insertAfter
  split <;> simp

@[simp] theorem ot_insertAfter (st : PState) (a b : Nat) :
    (insertAfter st a b).oldtip = st.oldtip := by
  unfold insertAfter
  split <;> simp

/-- Goodness is preserved by a modN whose function keeps the kind, at an
index whose kind is not CodeBlock, whatever it does to the content. -/
theorem good_modN_t (st : PState) (j : Nat) (f : Node → Node)
    (hft : ∀ n, (f n).t = n.t) (hnt : ¬ (getN st j).t = Kind.codeBlock)
    (hG : ∀ i, good st i) : ∀ i, good (modN st j f) i := by
  intro i
  by_cases hij : i = j
  · subst hij
    by_cases hsz : i < st.arena.size
    · intro hcb
      rw [getN_modN_self _ _ _ hsz, hft] at hcb
      exact absurd hcb hnt
    · rw [show modN st i f = st from setN_oob st i _ hsz]
      exact hG i
  · unfold good
    rw [getN_modN_ne _ _ _ _ hij]
    exact hG i

/-- A pushed parentless node gives every node of the pushed state a
parent below the old size. -/
theorem push_parent_lt (st : PState) (nd : Node) (a : Nat) (h : stInv st)
    (hp : nd.parent = none) :
    ∀ p, (getN { st with arena := st.arena.push nd } a).parent = some p →
      p < st.arena.size := by
  intro p hpar
  by_cases hc : a < st.arena.size
  · rw [getN_push_lt _ _ _ hc] at hpar
    exact lt_trans (h.1 a p hpar) hc
  · by_cases hce : a = st.arena.size
    · rw [hce, getN_push_self, hp] at hpar
      exact Option.noConfusion hpar
    · rw [getN_oob _ _ (by simp only [Array.size_push]; omega)] at hpar
      exact Option.noConfusion
        (show (none : Option Nat) = some p from hpar)

/-- The safety triple threaded through incorporate_line: the newline
error flag is unchanged from the reference state, the structural
invariant holds and every node is good. -/
def safeT (st0 st : PState) : Prop :=
  st.errNewline = st0.errNewline ∧ stInv st ∧ (∀ i, good st i)

theorem safeT_refl (st : PState) (h : stInv st) (hG : ∀ i, good st i) :
    safeT st st := ⟨rfl, h, hG⟩

theorem safeT_findNN (st0 st : PState) (hs : safeT st0 st) :
    safeT st0 (findNextNonspace st) :=
  ⟨by simp [hs.1], stInv_transfer st _ (by simp) (by simp) (by simp) hs.2.1,
   fun i => good_arena st _ (by simp) i (hs.2.2 i)⟩

theorem safeT_advNN (st0 st : PState) (hs : safeT st0 st) :
    safeT st0 (advanceNextNonspace st) :=
  ⟨by simp [hs.1], stInv_transfer st _ (by simp) (by simp) (by simp) hs.2.1,
   fun i => good_arena st _ (by simp) i (hs.2.2 i)⟩

theorem safeT_advOff (st0 st : PState) (cnt : Nat) (b : Bool)
    (hs : safeT st0 st) : safeT st0 (advanceOffset st cnt b) :=
  ⟨by simp [hs.1], stInv_transfer st _ (by simp) (by simp) (by simp) hs.2.1,
   fun i => good_arena st _ (by simp) i (hs.2.2 i)⟩

theorem safeT_plm (st0 st : PState) (hs : safeT st0 st) :
    safeT st0 (parseListMarker st).1 :=
  ⟨by simp [hs.1], stInv_transfer st _ (by simp) (by simp) (by simp) hs.2.1,
   fun i => good_arena st _ (by simp) i (hs.2.2 i)⟩

theorem safeT_errState (st0 st : PState) (hs : safeT st0 st) :
    safeT st0 { st with errState := true } :=
  ⟨hs.1, stInv_transfer st _ (by rfl) (by rfl) (by rfl) hs.2.1,
   fun i => good_arena st _ rfl i (hs.2.2 i)⟩

theorem safeT_cu (st0 st : PState) (hs : safeT st0 st) :
    safeT st0 (closeUnmatchedBlocks st) := by
  obtain ⟨e1, i1, g1, _, _⟩ := closeUnmatched_safe st none hs.2.1
    (GE_of_G st hs.2.2) (fun x hx => Option.noConfusion hx)
  exact ⟨e1.trans hs.1, i1, G_of_GE _ g1⟩

theorem safeT_addChild (st0 st : PState) (tag : Kind) (off : Nat)
    (hs : safeT st0 st) : safeT st0 (addChild st tag off).1 := by
  obtain ⟨e, i2, g, _, _, _, _⟩ := addChild_safe st tag off hs.2.1 hs.2.2
  exact ⟨e.trans hs.1, i2, g⟩

theorem safeT_modN_keep (st0 st : PState) (j : Nat) (f : Node → Node)
    (hft : ∀ n, (f n).t = n.t) (hff : ∀ n, (f n).isFenced = n.isFenced)
    (hfc : ∀ n, (f n).stringContent = n.stringContent)
    (hfp : ∀ n, (f n).parent = n.parent ∨ (f n).parent = none)
    (hs : safeT st0 st) : safeT st0 (modN st j f) :=
  ⟨by simp [hs.1], stInv_modN2 st j f hfp hft hs.2.1,
   fun i => good_modN_keep st j f i hft hff hfc (hs.2.2 i)⟩

theorem safeT_addChild_mod (st0 st : PState) (tag : Kind) (off : Nat)
    (f : Node → Node) (hft : ∀ n, (f n).t = n.t)
    (hfp : ∀ n, (f n).parent = n.parent ∨ (f n).parent = none)
    (htag : ¬ tag = Kind.codeBlock) (hs : safeT st0 st) :
    safeT st0 (modN (addChild st tag off).1 (addChild st tag off).2 f) := by
  obtain ⟨e, i2, g, _, _, _, hcase⟩ := addChild_safe st tag off hs.2.1 hs.2.2
  refine ⟨by simp [e, hs.1], stInv_modN2 _ _ f hfp hft i2, ?_⟩
  rcases hcase with ⟨htip, hr2⟩ | ⟨htip, hsz, htg, _, _⟩
  · rw [hr2]
    exact good_modN_t _ 0 f hft
      (by rw [i2.2.2.2.2]; exact fun hh => Kind.noConfusion hh) g
  · exact good_modN_t _ _ f hft
      (fun hh => htag (htg.symm.trans hh)) g

theorem safeT_push (st0 st : PState) (nd : Node)
    (hnt : ¬ nd.t = Kind.codeBlock) (hp : nd.parent = none)
    (hs : safeT st0 st) :
    safeT st0 { st with arena := st.arena.push nd } :=
  ⟨hs.1, stInv_push st nd hs.2.1 hp, good_push st nd hnt hs.2.2⟩

theorem safeT_insertAfter (st0 st : PState) (a b : Nat)
    (hpb : ∀ p, (getN st a).parent = some p → p < b) (hs : safeT st0 st) :
    safeT st0 (insertAfter st a b) :=
  ⟨by simp [hs.1], stInv_insertAfter st a b hs.2.1 hpb,
   fun i => good_insertAfter st a b i (hs.2.2 i)⟩

theorem safeT_unlink (st0 st : PState) (b : Nat) (hs : safeT st0 st) :
    safeT st0 (unlink st b) :=
  ⟨by simp [hs.1], stInv_unlink st b hs.2.1,
   fun i => good_unlink st b i (hs.2.2 i)⟩

theorem safeT_setTip (st0 st : PState) (j : Nat) (hj : j < st.arena.size)
    (hs : safeT st0 st) : safeT st0 { st with tip := some j } := by
  obtain ⟨hM, hT, hO, hS, hD⟩ := hs.2.1
  exact ⟨hs.1,
    ⟨hM, fun o ho => (Option.some.inj ho) ▸ hj, hO, hS, hD⟩,
    fun i => good_arena st _ rfl i (hs.2.2 i)⟩

/-- The bad transient window left by a fired fenced-code start: every
node but the tracked tip is good, the tip is a code block, the oldtip is
below it and the unmatched blocks are already closed. -/
def badW (st : PState) : Prop :=
  ∃ x, (∀ i, ¬ i = x → good st i) ∧ st.tip = some x ∧
    (getN st x).t = Kind.codeBlock ∧
    (∀ o, st.oldtip = some o → o < x) ∧
    (st.allClosed = true ∨ st.oldtip = none)

/-- The contract every block start meets: the newline error flag is
unchanged, the structural invariant holds, and either every node is good
or the matcher returned 2 leaving the fenced bad window. -/
def matcherOK (st : PState) (r : PState × Nat) : Prop :=
  r.1.errNewline = st.errNewline ∧ stInv r.1 ∧
  ((∀ i, good r.1 i) ∨ (r.2 = 2 ∧ badW r.1))

theorem matcherOK_of_safeT (st : PState) (r : PState × Nat)
    (hs : safeT st r.1) : matcherOK st r := ⟨hs.1, hs.2.1, Or.inl hs.2.2⟩

end CM

namespace CM

/-- BlockStarts.block_quote meets the matcher contract. -/
theorem tryBlockQuote_safe (st : PState) (c : Nat) (h : stInv st)
    (hG : ∀ i, good st i) : matcherOK st (tryBlockQuote st c) := by
  unfold tryBlockQuote
  split
  · dsimp only
    split
    · exact matcherOK_of_safeT st _
        (safeT_addChild st _ .blockQuote _
          (safeT_cu st _
            (safeT_advOff st _ 1 false
              (safeT_advOff st _ 1 false
                (safeT_advNN st st (safeT_refl st h hG))))))
    · exact matcherOK_of_safeT st _
        (safeT_addChild st _ .blockQuote _
          (safeT_cu st _
            (safeT_advOff st _ 1 false
              (safeT_advNN st st (safeT_refl st h hG)))))
  · exact matcherOK_of_safeT st _ (safeT_refl st h hG)

/-- BlockStarts.atx_heading meets the matcher contract. -/
theorem tryATXHeading_safe (st : PState) (c : Nat) (h : stInv st)
    (hG : ∀ i, good st i) : matcherOK st (tryATXHeading st c) := by
  unfold tryATXHeading
  split
  · cases hm : atxMatch (st.currentLine.drop st.nextNonspace) with
    | some m =>
      dsimp only
      exact matcherOK_of_safeT st _
        (safeT_advOff st _ _ false
          (safeT_addChild_mod st _ .heading _ _ (fun n => rfl)
            (fun n => Or.inl rfl) (fun hh => Kind.noConfusion hh)
            (safeT_cu st _
              (safeT_advOff st _ _ false
                (safeT_advNN st st (safeT_refl st h hG))))))
    | none =>
      exact matcherOK_of_safeT st _ (safeT_refl st h hG)
  · exact matcherOK_of_safeT st _ (safeT_refl st h hG)

/-- BlockStarts.html_block meets the matcher contract. -/
theorem tryHtmlBlock_safe (st : PState) (c : Nat) (h : stInv st)
    (hG : ∀ i, good st i) : matcherOK st (tryHtmlBlock st c) := by
  unfold tryHtmlBlock
  split
  · dsimp only
    split
    · exact matcherOK_of_safeT st _
        (safeT_modN_keep st _ _ _ (fun n => rfl) (fun n => rfl)
          (fun n => rfl) (fun n => Or.inl rfl)
          (safeT_addChild st _ .htmlBlock _
            (safeT_cu st st (safeT_refl st h hG))))
    · exact matcherOK_of_safeT st _ (safeT_refl st h hG)
  · exact matcherOK_of_safeT st _ (safeT_refl st h hG)

/-- BlockStarts.thematic_break meets the matcher contract. -/
theorem tryThematicBreak_safe (st : PState) (c : Nat) (h : stInv st)
    (hG : ∀ i, good st i) : matcherOK st (tryThematicBreak st c) := by
  unfold tryThematicBreak
  split
  · exact matcherOK_of_safeT st _
      (safeT_advOff st _ _ false
        (safeT_addChild st _ .thematicBreak _
          (safeT_cu st st (safeT_refl st h hG))))
  · exact matcherOK_of_safeT st _ (safeT_refl st h hG)

/-- BlockStarts.indented_code_block meets the matcher contract. -/
theorem tryIndentedCode_safe (st : PState) (c : Nat) (h : stInv st)
    (hG : ∀ i, good st i) : matcherOK st (tryIndentedCode st c) := by
  unfold tryIndentedCode
  split
  all_goals dsimp only
  all_goals split
  all_goals
    first
    | exact matcherOK_of_safeT st _
        (safeT_addChild st _ .codeBlock _
          (safeT_cu st _
            (safeT_advOff st st CODE_INDENT true (safeT_refl st h hG))))
    | exact matcherOK_of_safeT st _ (safeT_refl st h hG)

/-- BlockStarts.list_item meets the matcher contract. -/
theorem tryListItem_safe (st : PState) (c : Nat) (h : stInv st)
    (hG : ∀ i, good st i) : matcherOK st (tryListItem st c) := by
  unfold tryListItem
  split
  · dsimp only
    cases hm : (parseListMarker st).2 with
    | none =>
      exact matcherOK_of_safeT st _
        (safeT_plm st st (safeT_refl st h hG))
    | some data =>
      dsimp only
      have s1 := safeT_cu st _ (safeT_plm st st (safeT_refl st h hG))
      split
      · split
        · exact matcherOK_of_safeT st _
            (safeT_addChild_mod st _ .item _ _ (fun n => rfl)
              (fun n => Or.inl rfl) (fun hh => Kind.noConfusion hh)
              (safeT_addChild_mod st _ .list _ _ (fun n => rfl)
                (fun n => Or.inl rfl) (fun hh => Kind.noConfusion hh)
                (safeT_errState st _ s1)))
        · exact matcherOK_of_safeT st _
            (safeT_addChild_mod st _ .item _ _ (fun n => rfl)
              (fun n => Or.inl rfl) (fun hh => Kind.noConfusion hh)
              (safeT_errState st _ s1))
      · split
        · exact matcherOK_of_safeT st _
            (safeT_addChild_mod st _ .item _ _ (fun n => rfl)
              (fun n => Or.inl rfl) (fun hh => Kind.noConfusion hh)
              (safeT_addChild_mod st _ .list _ _ (fun n => rfl)
                (fun n => Or.inl rfl) (fun hh => Kind.noConfusion hh) s1))
        · exact matcherOK_of_safeT st _
            (safeT_addChild_mod st _ .item _ _ (fun n => rfl)
              (fun n => Or.inl rfl) (fun hh => Kind.noConfusion hh) s1)
  · exact matcherOK_of_safeT st _ (safeT_refl st h hG)

/-- BlockStarts.setext_heading meets the matcher contract. -/
theorem trySetextHeading_safe (st : PState) (c : Nat) (h : stInv st)
    (hG : ∀ i, good st i) : matcherOK st (trySetextHeading st c) := by
  unfold trySetextHeading
  split
  · cases hm : setextMatch (st.currentLine.drop st.nextNonspace) with
    | some mc =>
      dsimp only
      have s1 := safeT_cu st st (safeT_refl st h hG)
      refine matcherOK_of_safeT st _
        (safeT_advOff st _ _ false
          (safeT_setTip st _ (closeUnmatchedBlocks st).arena.size ?_
            (safeT_unlink st _ c
              (safeT_insertAfter st _ c (closeUnmatchedBlocks st).arena.size
                (push_parent_lt (closeUnmatchedBlocks st) _ c s1.2.1 rfl)
                (safeT_push st _ _ (fun hh => Kind.noConfusion hh) rfl s1)))))
      simp only [sz_unlink, sz_insertAfter]
      simp only [Array.size_push]
      omega
    | none =>
      exact matcherOK_of_safeT st _ (safeT_refl st h hG)
  · exact matcherOK_of_safeT st _ (safeT_refl st h hG)

end CM

namespace CM

@[simp] theorem getN_advanceOffset (st : PState) (cnt : Nat) (b : Bool)
    (i : Nat) : getN (advanceOffset st cnt b) i = getN st i :=
  getN_arena st _ (by simp) i

@[simp] theorem getN_advanceNextNonspace (st : PState) (i : Nat) :
    getN (advanceNextNonspace st) i = getN st i :=
  getN_arena st _ (by simp) i

@[simp] theorem getN_findNextNonspace (st : PState) (i : Nat) :
    getN (findNextNonspace st) i = getN st i :=
  getN_arena st _ (by simp) i

/-- BlockStarts.fenced_code_block meets the matcher contract: a fired
start leaves the bad transient window on the new tip. -/
theorem tryFencedCode_safe (st : PState) (c : Nat) (h : stInv st)
    (hG : ∀ i, good st i) : matcherOK st (tryFencedCode st c) := by
  unfold tryFencedCode
  split
  · cases hm : codeFenceMatch (st.currentLine.drop st.nextNonspace) with
    | some m =>
      dsimp only
      obtain ⟨e1, i1, g1x, s1, _⟩ := closeUnmatched_safe st none h
        (GE_of_G st hG) (fun x hx => Option.noConfusion hx)
      have g1 := G_of_GE _ g1x
      have hAC := closeUnmatched_postAC st none h (GE_of_G st hG)
        (fun x hx => Option.noConfusion hx)
      obtain ⟨e2, i2, g2, ot2, ac2, sz2, hcase⟩ :=
        addChild_safe (closeUnmatchedBlocks st) Kind.codeBlock
          (closeUnmatchedBlocks st).nextNonspace i1 g1
      refine ⟨?_, ?_, ?_⟩
      · simp only [eN_advanceOffset, eN_advanceNextNonspace, eN_modN]
        exact e2.trans e1
      · refine stInv_transfer
          (modN (addChild (closeUnmatchedBlocks st) Kind.codeBlock (closeUnmatchedBlocks st).nextNonspace).1 (addChild (closeUnmatchedBlocks st) Kind.codeBlock (closeUnmatchedBlocks st).nextNonspace).2 (fun n => { n with isFenced := true, fenceLength := m.1, fenceChar := some m.2, fenceOffset := st.indent })) _ (by simp) (by simp) (by simp) ?_
        exact stInv_modN2 _ _ _ (fun n => Or.inl rfl) (fun n => rfl) i2
      · rcases hcase with ⟨htip, hr2⟩ | ⟨htip, hidx, ht2, hf2, hc2⟩
        · refine Or.inl ?_
          intro i
          refine good_arena
            (modN (addChild (closeUnmatchedBlocks st) Kind.codeBlock (closeUnmatchedBlocks st).nextNonspace).1 (addChild (closeUnmatchedBlocks st) Kind.codeBlock (closeUnmatchedBlocks st).nextNonspace).2 (fun n => { n with isFenced := true, fenceLength := m.1, fenceChar := some m.2, fenceOffset := st.indent })) _ (by simp) i ?_
          rw [hr2]
          exact good_modN_t _ 0
            (fun n => { n with isFenced := true, fenceLength := m.1, fenceChar := some m.2, fenceOffset := st.indent }) (fun n => rfl)
            (by rw [i2.2.2.2.2]; exact fun hh => Kind.noConfusion hh) g2 i
        · refine Or.inr ⟨rfl, ?_⟩
          have hlt : (addChild (closeUnmatchedBlocks st) Kind.codeBlock
              (closeUnmatchedBlocks st).nextNonspace).2 <
              ((addChild (closeUnmatchedBlocks st) Kind.codeBlock
                (closeUnmatchedBlocks st).nextNonspace).1).arena.size :=
            i2.2.1 _ htip
          refine ⟨(addChild (closeUnmatchedBlocks st) Kind.codeBlock
              (closeUnmatchedBlocks st).nextNonspace).2, ?_, ?_, ?_, ?_, ?_⟩
          · intro i hne
            refine good_arena
              (modN (addChild (closeUnmatchedBlocks st) Kind.codeBlock (closeUnmatchedBlocks st).nextNonspace).1 (addChild (closeUnmatchedBlocks st) Kind.codeBlock (closeUnmatchedBlocks st).nextNonspace).2 (fun n => { n with isFenced := true, fenceLength := m.1, fenceChar := some m.2, fenceOffset := st.indent })) _ (by simp) i ?_
            unfold good
            rw [getN_modN_ne _ _ _ _ hne]
            exact g2 i
          · simp only [tp_advanceOffset, tp_advanceNextNonspace, tp_modN]
            exact htip
          · simp only [getN_advanceOffset, getN_advanceNextNonspace]
            rw [getN_modN_self _ _ _ hlt]
            exact ht2
          · intro o ho
            simp only [ot_advanceOffset, ot_advanceNextNonspace,
              ot_modN] at ho
            rw [ot2] at ho
            have hb := i1.2.2.1 o ho
            rw [hidx]
            exact hb
          · rcases hAC with h1 | h2
            · left
              simp only [aC_advanceOffset, aC_advanceNextNonspace, aC_modN]
              rw [ac2]
              exact h1
            · right
              simp only [ot_advanceOffset, ot_advanceNextNonspace, ot_modN]
              rw [ot2]
              exact h2
    | none =>
      exact matcherOK_of_safeT st _ (safeT_refl st h hG)
  · exact matcherOK_of_safeT st _ (safeT_refl st h hG)

end CM

namespace CM

/-- The matcher contract as a predicate on a block start. -/
def matcherSafe (f : PState → Nat → PState × Nat) : Prop :=
  ∀ st c, stInv st → (∀ i, good st i) → matcherOK st (f st c)

/-- Every block start of BlockStarts.METHODS meets the contract. -/
theorem startsList_safe : ∀ f ∈ startsList, matcherSafe f := by
  intro f hf
  simp only [startsList, List.mem_cons, List.not_mem_nil, or_false] at hf
  rcases hf with rfl | rfl | rfl | rfl | rfl | rfl | rfl | rfl
  · exact fun st c h hG => tryBlockQuote_safe st c h hG
  · exact fun st c h hG => tryATXHeading_safe st c h hG
  · exact fun st c h hG => tryFencedCode_safe st c h hG
  · exact fun st c h hG => tryHtmlBlock_safe st c h hG
  · exact fun st c h hG => trySetextHeading_safe st c h hG
  · exact fun st c h hG => tryThematicBreak_safe st c h hG
  · exact fun st c h hG => tryListItem_safe st c h hG
  · exact fun st c h hG => tryIndentedCode_safe st c h hG

/-- Running a list of contract-meeting starts meets the contract. -/
theorem runStartsAux_safe (c : Nat) :
    ∀ (fs : List (PState → Nat → PState × Nat)),
      (∀ f ∈ fs, matcherSafe f) →
      ∀ st : PState, stInv st → (∀ i, good st i) →
        matcherOK st (runStartsAux st c fs) := by
  intro fs
  induction fs with
  | nil =>
    intro _ st h hG
    exact ⟨rfl, h, Or.inl hG⟩
  | cons f rest ih =>
    intro hfs st h hG
    have hf := hfs f (List.mem_cons_self f rest) st c h hG
    unfold runStartsAux
    dsimp only
    split
    · next hz =>
      have hGr : ∀ i, good (f st c).1 i := by
        rcases hf.2.2 with hg | ⟨h2, _⟩
        · exact hg
        · rw [hz] at h2
          exact absurd h2 (by decide)
      have hrec := ih (fun g hg => hfs g (List.mem_cons_of_mem f hg))
        (f st c).1 hf.2.1 hGr
      exact ⟨hrec.1.trans hf.1, hrec.2.1, hrec.2.2⟩
    · exact hf

/-- The phase-2 postcondition: the invariant holds and either every node
is good, or the returned container is the tip, is a code block, and the
bad window facts hold. -/
def p2ok (st0 : PState) (r : PState × Nat) : Prop :=
  r.1.errNewline = st0.errNewline ∧ stInv r.1 ∧
  ((∀ i, good r.1 i) ∨
    ((∀ i, ¬ i = r.2 → good r.1 i) ∧ r.1.tip = some r.2 ∧
     (getN r.1 r.2).t = Kind.codeBlock ∧
     (r.1.allClosed = true ∨ r.1.oldtip = none)))

/-- The phase-2 loop establishes the phase-2 postcondition. -/
theorem phase2Loop_safe (fuel : Nat) :
    ∀ (st : PState) (container : Nat), stInv st → (∀ i, good st i) →
      p2ok st (phase2Loop st container fuel) := by
  induction fuel with
  | zero =>
    intro st container h hG
    exact ⟨rfl, stInv_transfer st _ (by rfl) (by rfl) (by rfl) h,
      Or.inl (fun i => good_arena st _ rfl i (hG i))⟩
  | succ fuel ih =>
    intro st container h hG
    unfold phase2Loop
    dsimp only
    have hs1 : safeT st (findNextNonspace st) :=
      safeT_findNN st st (safeT_refl st h hG)
    split
    · have hs2 := safeT_advNN st _ hs1
      exact ⟨hs2.1, hs2.2.1, Or.inl hs2.2.2⟩
    · have hr := runStartsAux_safe container startsList startsList_safe
        (findNextNonspace st) hs1.2.1 hs1.2.2
      split
      · next h1 =>
        have hGr : ∀ i,
            good (runStartsAux (findNextNonspace st) container startsList).1
              i := by
          rcases hr.2.2 with hg | ⟨h2, _⟩
          · exact hg
          · rw [h1] at h2
            exact absurd h2 (by decide)
        cases heq : (runStartsAux (findNextNonspace st) container
            startsList).1.tip with
        | some t =>
          dsimp only
          have hrec := ih _ t hr.2.1 hGr
          exact ⟨hrec.1.trans (hr.1.trans hs1.1), hrec.2.1, hrec.2.2⟩
        | none =>
          dsimp only
          exact ⟨hr.1.trans hs1.1,
            stInv_transfer _ _ (by rfl) (by exact heq.symm) (by rfl) hr.2.1,
            Or.inl (fun i => good_arena _ _ rfl i (hGr i))⟩
      · split
        · next h1 h2 =>
          cases heq : (runStartsAux (findNextNonspace st) container
              startsList).1.tip with
          | some t =>
            dsimp only
            rcases hr.2.2 with hg | ⟨hrv2, x, hxg, hxtip, hxt, hxot, hxac⟩
            · exact ⟨hr.1.trans hs1.1, hr.2.1, Or.inl hg⟩
            · have hx : t = x := by
                rw [heq] at hxtip
                exact Option.some.inj hxtip
              subst hx
              exact ⟨hr.1.trans hs1.1, hr.2.1,
                Or.inr ⟨hxg, hxtip, hxt, hxac⟩⟩
          | none =>
            dsimp only
            rcases hr.2.2 with hg | ⟨hrv2, x, hxg, hxtip, hxt, hxot, hxac⟩
            · exact ⟨hr.1.trans hs1.1,
                stInv_transfer _ _ (by rfl) (by exact heq.symm) (by rfl) hr.2.1,
                Or.inl (fun i => good_arena _ _ rfl i (hg i))⟩
            · rw [heq] at hxtip
              exact Option.noConfusion hxtip
        · next h1 h2 =>
          rcases hr.2.2 with hg | ⟨hrv2, _⟩
          · have hs3 := safeT_advNN st _ ⟨hr.1.trans hs1.1, hr.2.1, hg⟩
            exact ⟨hs3.1, hs3.2.1, Or.inl hs3.2.2⟩
          · exact absurd hrv2 h2

end CM

namespace CM

/-- Every kind's continue_ preserves the safety triple. -/
theorem blockContinue_safe (k : Kind) (st0 st : PState) (c : Nat)
    (hs : safeT st0 st) : safeT st0 (blockContinue k st c).1 := by
  cases k with
  | document => exact hs
  | list => exact hs
  | heading => exact hs
  | thematicBreak => exact hs
  | blockQuote =>
    unfold blockContinue blockQuoteContinue
    dsimp only
    split
    · dsimp only
      split
      · have h2 := safeT_advOff st0 _ 1 false (safeT_advNN st0 st hs)
        exact ⟨h2.1, stInv_transfer _ _ (by rfl) (by rfl) (by rfl) h2.2.1,
          fun i => good_arena _ _ rfl i (h2.2.2 i)⟩
      · exact safeT_advOff st0 _ 1 false (safeT_advNN st0 st hs)
    · exact hs
  | item =>
    unfold blockContinue itemContinue
    dsimp only
    split
    · exact safeT_advNN st0 st hs
    · split
      · exact safeT_advOff st0 st _ true hs
      · exact hs
  | codeBlock =>
    unfold blockContinue codeBlockContinue
    dsimp only
    split
    · split
      · split
        · obtain ⟨e, i2, gp, _, _⟩ :=
            parserFinalize_spec st c st.lineNumber hs.2.1 (hs.2.2 c)
          exact ⟨e.trans hs.1, i2, fun i => gp i (hs.2.2 i)⟩
        · exact ⟨by simp [hs.1],
            stInv_transfer st _ (by simp) (by simp) (by simp) hs.2.1,
            fun i => good_arena st _ (by simp) i (hs.2.2 i)⟩
      · exact ⟨by simp [hs.1],
          stInv_transfer st _ (by simp) (by simp) (by simp) hs.2.1,
          fun i => good_arena st _ (by simp) i (hs.2.2 i)⟩
    · split
      · exact safeT_advOff st0 st CODE_INDENT true hs
      · split
        · exact safeT_advNN st0 st hs
        · exact hs
  | htmlBlock =>
    unfold blockContinue htmlBlockContinue
    dsimp only
    split
    · exact hs
    · exact hs
  | paragraph =>
    unfold blockContinue paragraphContinue
    dsimp only
    split
    · exact hs
    · exact hs

/-- The phase-1 loop preserves the safety triple. -/
theorem phase1Loop_safe (fuel : Nat) :
    ∀ (st : PState) (container : Nat), stInv st → (∀ i, good st i) →
      safeT st (phase1Loop st container fuel).1 := by
  induction fuel with
  | zero =>
    intro st container h hG
    exact ⟨rfl, stInv_transfer st _ (by rfl) (by rfl) (by rfl) h,
      fun i => good_arena st _ rfl i (hG i)⟩
  | succ fuel ih =>
    intro st container h hG
    unfold phase1Loop
    cases hlc : (getN st container).children.getLast? with
    | none => exact safeT_refl st h hG
    | some lc =>
      dsimp only
      split
      · have hs1 : safeT st (findNextNonspace st) :=
          safeT_findNN st st (safeT_refl st h hG)
        have hbc := blockContinue_safe ((getN (findNextNonspace st) lc).t)
          st (findNextNonspace st) lc hs1
        split
        · have hrec := ih _ lc hbc.2.1 hbc.2.2
          exact ⟨hrec.1.trans hbc.1, hrec.2.1, hrec.2.2⟩
        · split
          · exact hbc
          · split
            · exact ⟨hbc.1,
                stInv_transfer _ _ (by rfl) (by rfl) (by rfl) hbc.2.1,
                fun i => good_arena _ _ rfl i (hbc.2.2 i)⟩
            · exact ⟨hbc.1,
                stInv_transfer _ _ (by rfl) (by rfl) (by rfl) hbc.2.1,
                fun i => good_arena _ _ rfl i (hbc.2.2 i)⟩
      · exact safeT_refl st h hG

end CM

namespace CM

/-- The finalize walk of break_out_of_lists preserves the safety
triple. -/
theorem breakOutAux_safe (fuel : Nat) :
    ∀ (st : PState) (block ll : Nat), stInv st → (∀ i, good st i) →
      safeT st (breakOutAux st block ll fuel) := by
  induction fuel with
  | zero =>
    intro st block ll h hG
    exact ⟨rfl, stInv_transfer st _ (by rfl) (by rfl) (by rfl) h,
      fun i => good_arena st _ rfl i (hG i)⟩
  | succ fuel ih =>
    intro st block ll h hG
    unfold breakOutAux
    dsimp only
    split
    · exact safeT_refl st h hG
    · obtain ⟨e, i2, gp, _, _⟩ :=
        parserFinalize_spec st block st.lineNumber h (hG block)
      have hG2 : ∀ i, good (parserFinalize st block st.lineNumber) i :=
        fun i => gp i (hG i)
      cases hpar : (getN st block).parent with
      | none =>
        dsimp only
        exact ⟨e, stInv_transfer _ _ (by rfl) (by rfl) (by rfl) i2,
          fun i => good_arena _ _ rfl i (hG2 i)⟩
      | some p =>
        dsimp only
        have hrec := ih (parserFinalize st block st.lineNumber) p ll i2 hG2
        exact ⟨hrec.1.trans e, hrec.2.1, hrec.2.2⟩

/-- Setting the tip to some node's parent preserves the safety triple. -/
theorem safeT_setTipParent (st0 st : PState) (j : Nat)
    (hs : safeT st0 st) :
    safeT st0 { st with tip := (getN st j).parent } := by
  obtain ⟨hM, hT, hO, hS, hD⟩ := hs.2.1
  refine ⟨hs.1, ⟨hM, ?_, hO, hS, hD⟩,
    fun i => good_arena st _ rfl i (hs.2.2 i)⟩
  intro o ho
  have ho2 : (getN st j).parent = some o := ho
  by_cases hj : j < st.arena.size
  · exact lt_trans (hM j o ho2) hj
  · rw [getN_oob st j hj] at ho2
    exact Option.noConfusion
      (show (none : Option Nat) = some o from ho2)

/-- Parser.break_out_of_lists preserves the safety triple. -/
theorem breakOutOfLists_safe (st : PState) (block : Nat) (h : stInv st)
    (hG : ∀ i, good st i) : safeT st (breakOutOfLists st block) := by
  unfold breakOutOfLists
  cases hll : lastListAux st block none (st.arena.size + 1) with
  | none => exact safeT_refl st h hG
  | some ll =>
    dsimp only
    have h1 := breakOutAux_safe (st.arena.size + 1) st block ll h hG
    obtain ⟨e2, i2, gp, _, _⟩ := parserFinalize_spec
      (breakOutAux st block ll (st.arena.size + 1)) ll
      (breakOutAux st block ll (st.arena.size + 1)).lineNumber
      h1.2.1 (h1.2.2 ll)
    have h2 : safeT st (parserFinalize
        (breakOutAux st block ll (st.arena.size + 1)) ll
        (breakOutAux st block ll (st.arena.size + 1)).lineNumber) :=
      ⟨e2.trans h1.1, i2, fun i => gp i (h1.2.2 i)⟩
    exact safeT_setTipParent st _ ll h2

/-- A modN at any index whose function keeps the parent keeps every
node's parent. -/
theorem modN_parent_keep (st : PState) (j i : Nat) (f : Node → Node)
    (hf : ∀ n, (f n).parent = n.parent) :
    (getN (modN st j f) i).parent = (getN st i).parent := by
  by_cases hij : i = j
  · subst hij
    by_cases hsz : i < st.arena.size
    · rw [getN_modN_self _ _ _ hsz]
      exact hf _
    · rw [show modN st i f = st from setN_oob st i _ hsz]
  · rw [getN_modN_ne _ _ _ _ hij]

/-- The keep bundle of last_line_blank propagation: cursor fields and
the goodness-relevant node fields are unchanged. -/
def keepS (st st2 : PState) : Prop :=
  st2.errNewline = st.errNewline ∧ st2.tip = st.tip ∧
  st2.oldtip = st.oldtip ∧ st2.arena.size = st.arena.size ∧
  ∀ i, (getN st2 i).t = (getN st i).t ∧
       (getN st2 i).isFenced = (getN st i).isFenced ∧
       (getN st2 i).stringContent = (getN st i).stringContent ∧
       (getN st2 i).parent = (getN st i).parent

theorem keepS_refl (st : PState) : keepS st st :=
  ⟨rfl, rfl, rfl, rfl, fun i => ⟨rfl, rfl, rfl, rfl⟩⟩

theorem keepS_trans (a b c : PState) (h1 : keepS a b) (h2 : keepS b c) :
    keepS a c :=
  ⟨h2.1.trans h1.1, h2.2.1.trans h1.2.1, h2.2.2.1.trans h1.2.2.1,
   h2.2.2.2.1.trans h1.2.2.2.1,
   fun i => ⟨(h2.2.2.2.2 i).1.trans (h1.2.2.2.2 i).1,
     (h2.2.2.2.2 i).2.1.trans (h1.2.2.2.2 i).2.1,
     (h2.2.2.2.2 i).2.2.1.trans (h1.2.2.2.2 i).2.2.1,
     (h2.2.2.2.2 i).2.2.2.trans (h1.2.2.2.2 i).2.2.2⟩⟩

theorem keepS_modN (st : PState) (j : Nat) (f : Node → Node)
    (hft : ∀ n, (f n).t = n.t) (hff : ∀ n, (f n).isFenced = n.isFenced)
    (hfc : ∀ n, (f n).stringContent = n.stringContent)
    (hfp : ∀ n, (f n).parent = n.parent) :
    keepS st (modN st j f) :=
  ⟨by simp, by simp, by simp, by simp,
   fun i => ⟨modN_t_keep st j i f hft, modN_fenced_keep st j i f hff,
     modN_content_keep st j i f hfc, modN_parent_keep st j i f hfp⟩⟩

theorem keepS_propagateLLB (fuel : Nat) :
    ∀ (st : PState) (cont : Option Nat) (v : Bool),
      keepS st (propagateLLB st cont v fuel) := by
  induction fuel with
  | zero =>
    intro st cont v
    exact ⟨rfl, rfl, rfl, rfl, fun i => ⟨rfl, rfl, rfl, rfl⟩⟩
  | succ fuel ih =>
    intro st cont v
    unfold propagateLLB
    cases cont with
    | none => exact keepS_refl st
    | some cc =>
      dsimp only
      exact keepS_trans _ _ _
        (keepS_modN st cc (fun n => { n with lastLineBlank := v })
          (fun n => rfl) (fun n => rfl) (fun n => rfl) (fun n => rfl))
        (ih _ _ v)

theorem keepS_phase3BlankMark (st : PState) (container : Nat) :
    keepS st (phase3BlankMark st container) := by
  unfold phase3BlankMark
  split
  · split
    all_goals
      first
      | exact keepS_modN st _ (fun n => { n with lastLineBlank := true })
          (fun n => rfl) (fun n => rfl) (fun n => rfl) (fun n => rfl)
      | exact keepS_refl st
  · exact keepS_refl st

theorem stInv_keepS (st st2 : PState) (hk : keepS st st2)
    (h : stInv st) : stInv st2 := by
  obtain ⟨hM, hT, hO, hS, hD⟩ := h
  refine ⟨?_, ?_, ?_, ?_, ?_⟩
  · intro i p hpar
    rw [(hk.2.2.2.2 i).2.2.2] at hpar
    exact hM i p hpar
  · intro o ho
    rw [hk.2.1] at ho
    rw [hk.2.2.2.1]
    exact hT o ho
  · intro o ho
    rw [hk.2.2.1] at ho
    rw [hk.2.2.2.1]
    exact hO o ho
  · rw [hk.2.2.2.1]
    exact hS
  · exact (hk.2.2.2.2 0).1.trans hD

theorem good_keepS (st st2 : PState) (hk : keepS st st2) (i : Nat)
    (hg : good st i) : good st2 i := by
  intro ht hf c hc
  exact hg ((hk.2.2.2.2 i).1.symm.trans ht)
    ((hk.2.2.2.2 i).2.1.symm.trans hf) c
    ((hk.2.2.2.2 i).2.2.1.symm.trans hc)

end CM

namespace CM

/-- Phase-3 text placement preserves the safety triple when every node
is good. -/
theorem phase3Place_safe (st0 st : PState) (container : Nat)
    (hs : safeT st0 st) : safeT st0 (phase3Place st container) := by
  unfold phase3Place
  dsimp only
  split
  · obtain ⟨e, i2, g2, _, _, _⟩ := addLine_safe st none hs.2.1
      (GE_of_G st hs.2.2) (fun x hx => Option.noConfusion hx)
    have s2 : safeT st0 (addLine st) := ⟨e.trans hs.1, i2, g2⟩
    split
    · obtain ⟨e3, i3, g3, _, _⟩ := parserFinalize_spec (addLine st)
        container (addLine st).lineNumber s2.2.1 (s2.2.2 container)
      exact ⟨e3.trans s2.1, i3, fun i => g3 i (s2.2.2 i)⟩
    · exact s2
  · split
    · have s2 := safeT_advNN st0 _
        (safeT_addChild st0 st .paragraph st.offset hs)
      obtain ⟨e3, i3, g3, _, _, _⟩ := addLine_safe _ none s2.2.1
        (GE_of_G _ s2.2.2) (fun x hx => Option.noConfusion hx)
      exact ⟨e3.trans s2.1, i3, g3⟩
    · exact hs

/-- Phase-3 text placement on the bad window: the container is the tip
and a code block, so add_line lands on the tracked node and restores
full goodness. -/
theorem phase3Place_bad (st0 pl : PState) (container : Nat)
    (hE : pl.errNewline = st0.errNewline) (hI : stInv pl)
    (hGE : ∀ i, ¬ i = container → good pl i)
    (hT : pl.tip = some container)
    (hK : (getN pl container).t = Kind.codeBlock) :
    safeT st0 (phase3Place pl container) := by
  unfold phase3Place
  dsimp only
  split
  · obtain ⟨e, i2, g2, _, _, _⟩ := addLine_safe pl (some container) hI
      (fun i hni => hGE i (fun hh => hni (by rw [hh])))
      (fun x hx => (Option.some.inj hx) ▸ hT)
    have s2 : safeT st0 (addLine pl) := ⟨e.trans hE, i2, g2⟩
    split
    · next hcnd =>
      exact absurd hcnd.1
        (by rw [hK]; exact fun hh => Kind.noConfusion hh)
    · exact s2
  · next hacc =>
    exfalso
    rw [hK] at hacc
    exact hacc rfl

/-- The tail of phase 3 (blank marking, last_line_blank propagation and
placement) under full goodness. -/
theorem phase3_tail_good (st0 stB : PState) (container : Nat) (v : Bool)
    (he : stB.errNewline = st0.errNewline) (h : stInv stB)
    (hG : ∀ i, good stB i) :
    safeT st0 (phase3Place
      (propagateLLB (phase3BlankMark stB container) (some container) v
        ((phase3BlankMark stB container).arena.size + 1)) container) := by
  have k2 := keepS_phase3BlankMark stB container
  have k3 := keepS_propagateLLB
    ((phase3BlankMark stB container).arena.size + 1)
    (phase3BlankMark stB container) (some container) v
  have kk := keepS_trans _ _ _ k2 k3
  exact phase3Place_safe st0 _ container
    ⟨kk.1.trans he, stInv_keepS _ _ kk h,
     fun i => good_keepS _ _ kk i (hG i)⟩

/-- The tail of phase 3 on the bad window left by a fired fenced-code
start. -/
theorem phase3_tail_bad (st0 stB : PState) (container : Nat) (v : Bool)
    (he : stB.errNewline = st0.errNewline) (h : stInv stB)
    (hxg : ∀ i, ¬ i = container → good stB i)
    (hxtip : stB.tip = some container)
    (hxt : (getN stB container).t = Kind.codeBlock) :
    safeT st0 (phase3Place
      (propagateLLB (phase3BlankMark stB container) (some container) v
        ((phase3BlankMark stB container).arena.size + 1)) container) := by
  have k2 := keepS_phase3BlankMark stB container
  have k3 := keepS_propagateLLB
    ((phase3BlankMark stB container).arena.size + 1)
    (phase3BlankMark stB container) (some container) v
  have kk := keepS_trans _ _ _ k2 k3
  exact phase3Place_bad st0 _ container (kk.1.trans he)
    (stInv_keepS _ _ kk h)
    (fun i hne => good_keepS _ _ kk i (hxg i hne))
    (kk.2.1.trans hxtip) ((kk.2.2.2.2 container).1.trans hxt)

/-- Phase 3 preserves the safety triple given the phase-2
postcondition. -/
theorem phase3_safe (st : PState) (container : Nat) (h : stInv st)
    (hcase : (∀ i, good st i) ∨
      ((∀ i, ¬ i = container → good st i) ∧ st.tip = some container ∧
       (getN st container).t = Kind.codeBlock ∧
       (st.allClosed = true ∨ st.oldtip = none))) :
    safeT st (phase3 st container) := by
  unfold phase3
  dsimp only
  rcases hcase with hG | ⟨hxg, hxtip, hxt, hxac⟩
  · split
    · obtain ⟨e, i2, g2, _, _, _⟩ := addLine_safe st none h (GE_of_G st hG)
        (fun x hx => Option.noConfusion hx)
      exact ⟨e, i2, g2⟩
    · have s1 := safeT_cu st st (safeT_refl st h hG)
      exact phase3_tail_good st (closeUnmatchedBlocks st) container _
        s1.1 s1.2.1 s1.2.2
  · split
    · next hcond =>
      exfalso
      have h3 := hcond.2.2
      rw [hxtip] at h3
      have h4 : some (getN st container).t = some Kind.paragraph := h3
      rw [hxt] at h4
      exact Kind.noConfusion (Option.some.inj h4)
    · rcases closeUnmatched_noop st hxac with hEq | hEq
      · rw [hEq]
        exact phase3_tail_bad st st container _ rfl h hxg hxtip hxt
      · rw [hEq]
        exact phase3_tail_bad st { st with errState := true } container _
          rfl (stInv_transfer st _ (by rfl) (by rfl) (by rfl) h)
          (fun i hne => good_arena st _ rfl i (hxg i hne)) hxtip hxt

end CM

namespace CM

/-- Phases 2 and 3 of incorporate_line preserve the safety triple. -/
theorem incorpP23_safe (st0 stB : PState) (c2 lnn : Nat)
    (he : stB.errNewline = st0.errNewline) (h : stInv stB)
    (hG : ∀ i, good stB i) :
    safeT st0 (
      let matchedLeaf := (getN stB c2).t ≠ .paragraph ∧
        acceptsLines (getN stB c2).t
      let r2 := if matchedLeaf then (stB, c2)
                else phase2Loop stB c2 (lnn + 8)
      let st := phase3 r2.1 r2.2
      { st with lastLineLength := lnn }) := by
  dsimp only
  split
  · have hp3 := phase3_safe stB c2 h (Or.inl hG)
    exact ⟨hp3.1.trans he,
      stInv_transfer _ _ (by rfl) (by rfl) (by rfl) hp3.2.1,
      fun i => good_arena _ _ rfl i (hp3.2.2 i)⟩
  · have hp2 := phase2Loop_safe (lnn + 8) stB c2 h hG
    have hp3 := phase3_safe (phase2Loop stB c2 (lnn + 8)).1
      (phase2Loop stB c2 (lnn + 8)).2 hp2.2.1 hp2.2.2
    exact ⟨hp3.1.trans (hp2.1.trans he),
      stInv_transfer _ _ (by rfl) (by rfl) (by rfl) hp3.2.1,
      fun i => good_arena _ _ rfl i (hp3.2.2 i)⟩

/-- Phases 1b, 2 and 3 of incorporate_line preserve the safety triple. -/
theorem incorpTail_safe (st0 stA : PState) (container : Nat) (lnn : Nat)
    (he : stA.errNewline = st0.errNewline) (h : stInv stA)
    (hG : ∀ i, good stA i) :
    safeT st0 (
      let st := { stA with allClosed := (stA.oldtip = some container), lastMatchedContainer := container }
      let p1b :=
        if st.blank ∧ (getN st container).lastLineBlank then
          let st := breakOutOfLists st container
          match st.tip with
          | some t => (st, t)
          | none => ({ st with errState := true }, container)
        else (st, container)
      let st := p1b.1
      let container := p1b.2
      let matchedLeaf := (getN st container).t ≠ .paragraph ∧
        acceptsLines (getN st container).t
      let r2 := if matchedLeaf then (st, container)
                else phase2Loop st container (lnn + 8)
      let st := phase3 r2.1 r2.2
      { st with lastLineLength := lnn }) := by
  dsimp only
  have h3 : stInv { stA with allClosed := (stA.oldtip = some container), lastMatchedContainer := container } :=
    stInv_transfer stA _ (by rfl) (by rfl) (by rfl) h
  have hG3 : ∀ i, good { stA with allClosed := (stA.oldtip = some container), lastMatchedContainer := container } i :=
    fun i => good_arena stA _ rfl i (hG i)
  split
  · have hbk := breakOutOfLists_safe { stA with allClosed := (stA.oldtip = some container), lastMatchedContainer := container }
      container h3 hG3
    cases heq : (breakOutOfLists { stA with allClosed := (stA.oldtip = some container), lastMatchedContainer := container } container).tip with
    | some t =>
      dsimp only
      refine incorpP23_safe st0 _ t lnn ?_ ?_ ?_
      · exact hbk.1.trans he
      · exact hbk.2.1
      · exact hbk.2.2
    | none =>
      dsimp only
      refine incorpP23_safe st0 _ container lnn ?_ ?_ ?_
      · exact hbk.1.trans he
      · exact stInv_transfer _ _ (by rfl) (by exact heq.symm) (by rfl)
          hbk.2.1
      · exact fun i => good_arena _ _ rfl i (hbk.2.2 i)
  · exact incorpP23_safe st0
      { stA with allClosed := (stA.oldtip = some container), lastMatchedContainer := container }
      container lnn he h3 hG3

set_option maxHeartbeats 2000000 in
/-- Parser.incorporate_line preserves the safety triple: it never sets
the newline error flag, keeps the structural invariant and keeps every
node good. -/
theorem incorporateLine_safe (st : PState) (ln0 : List Char)
    (h : stInv st) (hG : ∀ i, good st i) :
    safeT st (incorporateLine st ln0) := by
  unfold incorporateLine
  dsimp only
  generalize (if ln0.contains (Char.ofNat 0) then ln0.map (fun c => if c = Char.ofNat 0 then Char.ofNat 0xFFFD else c) else ln0) = LN
  have h2 : stInv { { st with oldtip := st.tip, offset := 0, column := 0, lineNumber := st.lineNumber + 1 } with currentLine := LN } :=
    ⟨h.1, h.2.1, h.2.1, h.2.2.2.1, h.2.2.2.2⟩
  have hG2 : ∀ i, good { { st with oldtip := st.tip, offset := 0, column := 0, lineNumber := st.lineNumber + 1 } with currentLine := LN } i :=
    fun i => good_arena st _ rfl i (hG i)
  have hp1 := phase1Loop_safe (st.arena.size + 1)
    { { st with oldtip := st.tip, offset := 0, column := 0, lineNumber := st.lineNumber + 1 } with currentLine := LN }
    0 h2 hG2
  split
  · exact ⟨hp1.1, hp1.2.1, hp1.2.2⟩
  · refine incorpTail_safe st _ _ _ ?_ ?_ ?_
    · exact hp1.1
    · exact hp1.2.1
    · exact hp1.2.2

end CM

namespace CM

/-- Incorporating a list of lines preserves the safety triple. -/
theorem foldIncorporate_safe :
    ∀ (lns : List (List Char)) (st : PState), stInv st →
      (∀ i, good st i) →
      (lns.foldl incorporateLine st).errNewline = st.errNewline ∧
      stInv (lns.foldl incorporateLine st) ∧
      (∀ i, good (lns.foldl incorporateLine st) i) := by
  intro lns
  induction lns with
  | nil =>
    intro st h hG
    exact ⟨rfl, h, hG⟩
  | cons l rest ih =>
    intro st h hG
    have h1 := incorporateLine_safe st l h hG
    have hrec := ih (incorporateLine st l) h1.2.1 h1.2.2
    exact ⟨hrec.1.trans h1.1, hrec.2.1, hrec.2.2⟩

/-- The closing loop of parse preserves the safety triple. -/
theorem finalLoop_safe (fuel : Nat) :
    ∀ (st : PState) (length : Nat), stInv st → (∀ i, good st i) →
      safeT st (finalLoop st length fuel) := by
  induction fuel with
  | zero =>
    intro st length h hG
    exact ⟨rfl, stInv_transfer st _ (by rfl) (by rfl) (by rfl) h,
      fun i => good_arena st _ rfl i (hG i)⟩
  | succ fuel ih =>
    intro st length h hG
    unfold finalLoop
    cases htip : st.tip with
    | none => exact safeT_refl st h hG
    | some t =>
      dsimp only
      obtain ⟨e, i2, gp, _, _⟩ := parserFinalize_spec st t length h (hG t)
      have hrec := ih (parserFinalize st t length) length i2
        (fun i => gp i (hG i))
      exact ⟨hrec.1.trans e, hrec.2.1, hrec.2.2⟩

/-- The inline pass never touches the newline error flag. -/
theorem eN_processInlinesAux (fuel : Nat) :
    ∀ (st : PState) (bs : List Nat),
      (processInlinesAux st bs fuel).errNewline = st.errNewline := by
  induction fuel with
  | zero =>
    intro st bs
    cases bs with
    | nil => rfl
    | cons b rest => rfl
  | succ fuel ih =>
    intro st bs
    cases bs with
    | nil => rfl
    | cons b rest =>
      unfold processInlinesAux
      dsimp only
      split
      · exact (ih _ _).trans (by simp)
      · exact ih _ _

end CM

namespace CM

/-- Claim C10: whenever Parser.finalize reaches a fenced CodeBlock during
a parse, the block's string_content contains at least one newline, so the
split of string_content at its first newline in CodeBlock.finalize is
well-defined and never raises: the error flag that models the ValueError
of str.index (set exactly when a fenced block is finalized without a
newline in its content) is false after parsing any input. -/
theorem C10_no_newline_error (input : String) :
    (parse input).errNewline = false := by
  unfold parse
  dsimp only
  have h0 : stInv { arena := #[{ t := Kind.document, sourcepos := { startLine := 1, startCol := 1, endLine := 0, endCol := 0 } }], tip := some 0, oldtip := some 0 } := by
    refine ⟨?_, ?_, ?_, ?_, ?_⟩
    · intro i p hpar
      by_cases hi : i = 0
      · subst hi
        exact Option.noConfusion
          (show (none : Option Nat) = some p from hpar)
      · rw [getN_oob { arena := #[{ t := Kind.document, sourcepos := { startLine := 1, startCol := 1, endLine := 0, endCol := 0 } }], tip := some 0, oldtip := some 0 } i (show ¬ i < 1 from fun hh => hi (by omega))] at hpar
        exact Option.noConfusion
          (show (none : Option Nat) = some p from hpar)
    · intro o ho
      exact (Option.some.inj ho) ▸ (show (0 : Nat) < 1 by decide)
    · intro o ho
      exact (Option.some.inj ho) ▸ (show (0 : Nat) < 1 by decide)
    · exact Nat.one_pos
    · rfl
  have hG0 : ∀ i, good { arena := #[{ t := Kind.document, sourcepos := { startLine := 1, startCol := 1, endLine := 0, endCol := 0 } }], tip := some 0, oldtip := some 0 } i := by
    intro i
    by_cases hi : i = 0
    · subst hi
      intro ht
      exact Kind.noConfusion ht
    · exact good_oob { arena := #[{ t := Kind.document, sourcepos := { startLine := 1, startCol := 1, endLine := 0, endCol := 0 } }], tip := some 0, oldtip := some 0 } i (show ¬ i < 1 from fun hh => hi (by omega))
  have hf := foldIncorporate_safe (processedLines input)
    { arena := #[{ t := Kind.document, sourcepos := { startLine := 1, startCol := 1, endLine := 0, endCol := 0 } }], tip := some 0, oldtip := some 0 }
    h0 hG0
  have hfin := finalLoop_safe
    (((processedLines input).foldl incorporateLine { arena := #[{ t := Kind.document, sourcepos := { startLine := 1, startCol := 1, endLine := 0, endCol := 0 } }], tip := some 0, oldtip := some 0 }).arena.size + 2)
    ((processedLines input).foldl incorporateLine { arena := #[{ t := Kind.document, sourcepos := { startLine := 1, startCol := 1, endLine := 0, endCol := 0 } }], tip := some 0, oldtip := some 0 })
    (parseLength input) hf.2.1 hf.2.2
  unfold processInlines
  rw [eN_processInlinesAux, hfin.1, hf.1]

end CM
